import Mathlib

/-!
Verification of the Adler-32 checksum kernel (adler32.c) and the callback
driven raw-inflate engine (infback.c) of this zlib source tree, as a shallow
embedding in Lean.  C `unsigned long` arithmetic is modelled on `Nat`, with an
explicit `% 2^32` exactly where the C computation could exceed 32 bits (the
running Adler component sums); everywhere else the values are proved or
plainly seen to stay below 2^32.
-/

namespace Zlib

/-! ## Adler-32 (adler32.c) -/

/-- BASE: largest prime smaller than 65536 (adler32.c line 12). -/
def BASE : Nat := 65521

/-- NMAX: the largest n such that 255n(n+1)/2 + (n+1)(BASE-1) <= 2^32-1. -/
def NMAX : Nat := 5552

/-- 2^32, the modulus of the 32-bit unsigned arithmetic of the inner sums. -/
def M32 : Nat := 4294967296

/-- DO1(buf,i): `adler += buf[i]; sum2 += adler;` in arithmetic mod 2^32. -/
def do1 (p : Nat × Nat) (b : Nat) : Nat × Nat :=
  ((p.1 + b) % M32, (p.2 + (p.1 + b) % M32) % M32)

/-- The unrolled DO16 / byte-at-a-time loops of adler32_z: the buffer is
processed left to right one DO1 at a time. -/
def doList (p : Nat × Nat) (bs : List Nat) : Nat × Nat := bs.foldl do1 p

/-- The `while (len >= NMAX)` loop of adler32_z.  `k` counts the full NMAX
blocks still to process (the caller passes `len / NMAX`, so the loop guard
`len >= NMAX` holds at each of the `k` iterations and fails after them); each
block is accumulated and then both sums are reduced `MOD` once. -/
def adlerNBlocks : Nat → Nat × Nat → List Nat → (Nat × Nat) × List Nat
  | 0, p, bs => (p, bs)
  | k+1, p, bs =>
    let q := doList p (bs.take NMAX)
    adlerNBlocks k (q.1 % BASE, q.2 % BASE) (bs.drop NMAX)

/-- adler32_z on a non-null buffer holding exactly the `len` bytes `bs`
(adler32.c lines 67-131).  The `len == 1` and `len < 16` additions are written
without `% 2^32` since those sums are at most 65535 + 15*255 < 2^32. -/
def adler32_z_buf (adler0 : Nat) (bs : List Nat) : Nat :=
  let sum2 := (adler0 >>> 16) &&& 0xffff
  let adler := adler0 &&& 0xffff
  if bs.length = 1 then
    let adler1 := adler + bs.headI
    let adler2 := if BASE ≤ adler1 then adler1 - BASE else adler1
    let sum2a := sum2 + adler2
    let sum2b := if BASE ≤ sum2a then sum2a - BASE else sum2a
    adler2 ||| (sum2b <<< 16)
  else if bs.length < 16 then
    let q := doList (adler, sum2) bs
    let adler2 := if BASE ≤ q.1 then q.1 - BASE else q.1
    adler2 ||| ((q.2 % BASE) <<< 16)
  else
    let r := adlerNBlocks (bs.length / NMAX) (adler, sum2) bs
    let p := if r.2.length ≠ 0 then
        (let q := doList r.1 r.2; (q.1 % BASE, q.2 % BASE))
      else r.1
    p.1 ||| (p.2 <<< 16)

/-- adler32_z(adler, buf, len): `buf = none` models a Z_NULL buffer pointer.
For a real buffer the function reads `len` bytes from it, so the model demands
`len ≤` the bytes available and processes exactly the first `len`; a null
dereference (`len == 1` fast path with a null buffer) yields `none`. -/
def adler32_z (adler : Nat) (buf : Option (List Nat)) (len : Nat) : Option Nat :=
  match buf with
  | none => if len = 1 then none else some 1
  | some bs => if len ≤ bs.length then some (adler32_z_buf adler (bs.take len)) else none

/-- adler32(adler, buf, len) = adler32_z(adler, buf, len) (adler32.c 153-155). -/
def adler32 (adler : Nat) (buf : Option (List Nat)) (len : Nat) : Option Nat :=
  adler32_z adler buf len

/-- adler32_combine_ (adler32.c lines 169-191); len2 is the signed z_off64_t.
All intermediate sums stay far below 2^32 (rem, sum components < 65536, the
one product rem*sum1 < 65521*65536), so plain Nat arithmetic is exact. -/
def adler32_combine_ (adler1 adler2 : Nat) (len2 : Int) : Nat :=
  if len2 < 0 then 0xffffffff
  else
    let rem := len2.toNat % BASE
    let sum1 := adler1 &&& 0xffff
    let sum2 := (rem * sum1) % BASE
    let sum1b := sum1 + (adler2 &&& 0xffff) + BASE - 1
    let sum2b := sum2 + ((adler1 >>> 16) &&& 0xffff) + ((adler2 >>> 16) &&& 0xffff) + BASE - rem
    let sum1c := if BASE ≤ sum1b then sum1b - BASE else sum1b
    let sum1d := if BASE ≤ sum1c then sum1c - BASE else sum1c
    let sum2c := if BASE <<< 1 ≤ sum2b then sum2b - (BASE <<< 1) else sum2b
    let sum2d := if BASE ≤ sum2c then sum2c - BASE else sum2c
    sum1d ||| (sum2d <<< 16)

/-- adler32_combine (adler32.c lines 194-196). -/
def adler32_combine (adler1 adler2 : Nat) (len2 : Int) : Nat :=
  adler32_combine_ adler1 adler2 len2

/-! ### Reference definition of the Adler-32 accumulator (claim C1) -/

/-- One step of the reference accumulator: s1 := s1 + b, s2 := s2 + (s1 + b),
exact integer arithmetic. -/
def adlerStep (p : Nat × Nat) (b : Nat) : Nat × Nat := (p.1 + b, p.2 + p.1 + b)

/-- Exact (unreduced) component sums over a byte sequence: s1 accumulates the
bytes, s2 accumulates the successive partial values of s1. -/
def adlerSum (p : Nat × Nat) (bs : List Nat) : Nat × Nat := bs.foldl adlerStep p

/-- The reference Adler-32 of claim C1: split a into s1 = a mod 2^16 and
s2 = a >> 16, fold the two sums over the bytes, reduce both mod 65521 and
return (s2 << 16) | s1. -/
def adlerRef (a : Nat) (bs : List Nat) : Nat :=
  let p := adlerSum (a % 65536, a >>> 16) bs
  (p.1 % BASE) ||| ((p.2 % BASE) <<< 16)

/-! ## InflateBack (infback.c) -/

/-- Z_OK (zlib.h). -/
def Z_OK : Int := 0

/-- Z_STREAM_END (zlib.h). -/
def Z_STREAM_END : Int := 1

/-- Z_STREAM_ERROR (zlib.h). -/
def Z_STREAM_ERROR : Int := -2

/-- Z_DATA_ERROR (zlib.h). -/
def Z_DATA_ERROR : Int := -3

/-- Z_BUF_ERROR (zlib.h). -/
def Z_BUF_ERROR : Int := -5

/-- A decode table entry {op : 8 bits, bits : 8 bits, val : 16 bits}. -/
structure Code where
  op : Nat
  bits : Nat
  val : Nat
deriving DecidableEq

/-- The kind tag passed to the table builder. -/
inductive CodeType
  | CODES
  | LENS
  | DISTS
deriving DecidableEq

/-- Length-code base values, lbase of inftrees.c (RFC 1951 table). -/
def lbase : List Nat :=
  [3, 4, 5, 6, 7, 8, 9, 10, 11, 13, 15, 17, 19, 23] ++
  [27, 31, 35, 43, 51, 59, 67, 83, 99, 115, 131, 163, 195, 227, 258, 0, 0]

/-- Length-code op bytes (16 + number of extra bits; 72/78 mark the two
invalid symbols 286/287), lext of inftrees.c. -/
def lext : List Nat :=
  [16, 16, 16, 16, 16, 16, 16, 16, 17, 17, 17, 17, 18, 18, 18] ++
  [18, 19, 19, 19, 19, 20, 20, 20, 20, 21, 21, 21, 21, 16, 72, 78]

/-- Distance-code base values, dbase of inftrees.c (RFC 1951 table). -/
def dbase : List Nat :=
  [1, 2, 3, 4, 5, 7, 9, 13, 17, 25, 33, 49, 65, 97, 129] ++
  [193, 257, 385, 513, 769, 1025, 1537, 2049, 3073, 4097, 6145, 8193, 12289, 16385, 24577, 0, 0]

/-- Distance-code op bytes, dext of inftrees.c. -/
def dext : List Nat :=
  [16, 16, 16, 16, 17, 17, 18, 18, 19, 19, 20, 20, 21, 21, 22, 22] ++
  [23, 23, 24, 24, 25, 25, 26, 26, 27, 27, 28, 28, 29, 29, 64, 64]

/-- Reverse the low n bits of v.  Deflate stores each Huffman code most
significant bit first in the stream while the decode table is indexed by the
bits in stream order (LSB-first), so code values appear bit-reversed. -/
def bitrev : Nat → Nat → Nat
  | 0, _ => 0
  | n+1, v => (bitrev n (v >>> 1)) ||| ((v &&& 1) <<< n)

/-- Number of symbols (among 0..codes-1) whose code length is l. -/
def countOf (lens : Nat → Nat) (codes l : Nat) : Nat :=
  ((List.range codes).filter (fun s => decide (lens s = l))).length

/-- The largest used code length (0 if the set is empty). -/
def maxLen (lens : Nat → Nat) (codes : Nat) : Nat :=
  (((List.range 16).filter
      (fun l => decide (1 ≤ l ∧ 1 ≤ countOf lens codes l))).foldr max 0)

/-- The smallest used code length (16 if the set is empty). -/
def minLen (lens : Nat → Nat) (codes : Nat) : Nat :=
  (((List.range 16).filter
      (fun l => decide (1 ≤ l ∧ 1 ≤ countOf lens codes l))).foldr min 16)

/-- The Kraft-McMillan slack after processing lengths 1..15, as in the
`left <<= 1; left -= count[len]` loop: negative exactly when the code set is
over-subscribed (once the running value goes negative it stays negative, so
the early return of the C loop fires iff the final value is negative),
positive when it is incomplete. -/
def kraftLeft (lens : Nat → Nat) (codes : Nat) : Int :=
  (List.range 15).foldl (fun left l => 2 * left - (countOf lens codes (l + 1) : Int)) 1

/-- Symbols with codes, in canonical order: by length, then by symbol index. -/
def sortedSyms (lens : Nat → Nat) (codes : Nat) : List Nat :=
  ((List.range 15).map
    (fun l => (List.range codes).filter (fun s => decide (lens s = l + 1)))).flatten

/-- First canonical code value of each length (count[0] is 0 by convention). -/
def firstCode (lens : Nat → Nat) (codes : Nat) : Nat → Nat
  | 0 => 0
  | l+1 => (firstCode lens codes l + (if l = 0 then 0 else countOf lens codes l)) * 2

/-- Canonical code value of symbol s: the first code of its length plus its
rank (by symbol index) among the symbols of the same length. -/
def codeOf (lens : Nat → Nat) (codes s : Nat) : Nat :=
  firstCode lens codes (lens s) +
    ((List.range s).filter (fun t => decide (lens t = lens s))).length

/-- The entry written for symbol s whose table part consumes l bits, per the
op/val scheme of inftrees.c (CODES: literal only; LENS: literal below 256,
end-of-block op 96 at 256, length base/extra above; DISTS: base/extra). -/
def mkEntry (ty : CodeType) (s l : Nat) : Code :=
  match ty with
  | CodeType.CODES => if s + 1 < 20 then ⟨0, l, s⟩ else ⟨96, l, 0⟩
  | CodeType.LENS =>
    if s + 1 < 257 then ⟨0, l, s⟩
    else if 257 ≤ s then ⟨lext.getD (s - 257) 0, l, lbase.getD (s - 257) 0⟩
    else ⟨96, l, 0⟩
  | CodeType.DISTS => ⟨dext.getD s 0, l, dbase.getD s 0⟩

/-- The entry marking an unused bit pattern. -/
def invalidCode : Code := ⟨64, 1, 0⟩

/-- The root bit count actually used: the requested root clamped into
[min used length, max used length]. -/
def rootUsed (lens : Nat → Nat) (codes root : Nat) : Nat :=
  max (minLen lens codes) (min root (maxLen lens codes))

/-- The symbol (if any) of length ≤ r whose code matches root index idx. -/
def findShort (lens : Nat → Nat) (codes r idx : Nat) : Option Nat :=
  (sortedSyms lens codes).find? (fun s =>
    decide (lens s ≤ r) &&
    decide (idx % 2 ^ (lens s) = bitrev (lens s) (codeOf lens codes s)))

/-- Symbols with codes longer than the root whose first r stream bits index
root entry p. -/
def longSyms (lens : Nat → Nat) (codes r p : Nat) : List Nat :=
  (sortedSyms lens codes).filter (fun s =>
    decide (r < lens s) &&
    decide (bitrev r ((codeOf lens codes s) >>> (lens s - r)) = p))

/-- Index width of the sub-table hanging off root entry p. -/
def subBits (lens : Nat → Nat) (codes r p : Nat) : Nat :=
  ((longSyms lens codes r p).map (fun s => lens s - r)).foldr max 0

/-- Offset (within the whole table) of the sub-table of root entry p:
sub-tables are laid out after the 2^r root entries in increasing root-index
order. -/
def subOff (lens : Nat → Nat) (codes r p : Nat) : Nat :=
  2 ^ r + (((List.range p).filter (fun q => decide (longSyms lens codes r q ≠ []))).map
    (fun q => 2 ^ (subBits lens codes r q))).sum

/-- Locate the sub-table containing absolute offset idx: its root index p and
the index j inside it. -/
def findSub (lens : Nat → Nat) (codes r idx : Nat) : Option (Nat × Nat) :=
  ((List.range (2 ^ r)).filter (fun q => decide (longSyms lens codes r q ≠ []))).findSome?
    (fun p =>
      if subOff lens codes r p ≤ idx ∧ idx < subOff lens codes r p + 2 ^ subBits lens codes r p
      then some (p, idx - subOff lens codes r p) else none)

/-- The decode table as a function from absolute offset to entry: symbols of
length ≤ root fill (replicated) root entries, longer codes go through a
table-pointer entry {op := sub index width, bits := root, val := sub-table
offset} into their sub-table, and unused patterns read as invalid. -/
def tableFn (ty : CodeType) (lens : Nat → Nat) (codes root : Nat) : Nat → Code :=
  fun idx =>
    let r := rootUsed lens codes root
    if idx < 2 ^ r then
      match findShort lens codes r idx with
      | some s => mkEntry ty s (lens s)
      | none =>
        if longSyms lens codes r idx ≠ [] then
          ⟨subBits lens codes r idx, r, subOff lens codes r idx⟩
        else invalidCode
    else
      match findSub lens codes r idx with
      | some pj =>
        match (longSyms lens codes r pj.1).find? (fun s =>
            decide (pj.2 % 2 ^ (lens s - r) =
              bitrev (lens s - r) ((codeOf lens codes s) &&& (2 ^ (lens s - r) - 1)))) with
        | some s => mkEntry ty s (lens s - r)
        | none => invalidCode
      | none => invalidCode

/-- Modelled from the spec: inflate_table of inftrees.c, which is not under
src/.  Per §4.3: build the length counts, detect over- or under-subscription by
Kraft-McMillan, place symbols in canonical order (by code length, then symbol
index), and emit a root table of size 2^root with sub-tables linked by
table-pointer entries for codes longer than the root; the root bit count is
clamped for short code sets and returned.  Result: (return code, table, used
root bits); the return code is 0 on success (including the no-codes case and
the permitted incomplete one-symbol LENS/DISTS sets) and -1 on an
over-subscribed or otherwise incomplete set. -/
def inflate_table (ty : CodeType) (lens : Nat → Nat) (codes root : Nat) :
    Int × (Nat → Code) × Nat :=
  if maxLen lens codes = 0 then (0, fun _ => invalidCode, 1)
  else
    let r := rootUsed lens codes root
    if kraftLeft lens codes < 0 then (-1, fun _ => invalidCode, r)
    else if 0 < kraftLeft lens codes ∧ (ty = CodeType.CODES ∨ maxLen lens codes ≠ 1) then
      (-1, fun _ => invalidCode, r)
    else (0, tableFn ty lens codes root, r)

/-- The fixed literal/length code lengths (infback.c 110-115). -/
def fixedLens : Nat → Nat := fun s =>
  if s < 144 then 8 else if s < 256 then 9 else if s < 280 then 7 else 8

/-- The fixed distance code lengths (infback.c 122-123). -/
def fixedDistLens : Nat → Nat := fun _ => 5

/-- lenfix: the fixed literal/length table, built with root 9 (infback.c
116-119, BUILDFIXED branch). -/
def lenfix : Nat → Code := (inflate_table CodeType.LENS fixedLens 288 9).2.1

/-- distfix: the fixed distance table, built with root 5 (infback.c 124-126). -/
def distfix : Nat → Code := (inflate_table CodeType.DISTS fixedDistLens 32 5).2.1

/-- The decoder modes used by inflateBack (inflate.h subset). -/
inductive Mode
  | TYPE
  | STORED
  | TABLE
  | LEN
  | DONE
  | BAD
deriving DecidableEq

/-- The state of inflateBack: the inflate_state fields it uses together with
the in-register values (hold/bits/next/put/left) of the C routine, the
scripted callback behaviors (`ins`: the chunks successive in() calls provide,
an empty one meaning in() returned zero; `outs`: the successive out() return
values, true meaning failure), and observables: `written` is the
concatenation of all output bytes produced, `inFail`/`outFail` record that a
callback signalled failure, `nextNull` that the C `next` pointer is Z_NULL. -/
structure St where
  mode : Mode
  last : Bool
  wsize : Nat
  window : Nat → Nat
  whave : Nat
  hold : Nat
  bits : Nat
  length : Nat
  offset : Nat
  lens : Nat → Nat
  havec : Nat
  nlen : Nat
  ndist : Nat
  ncode : Nat
  lencode : Nat → Code
  lenbits : Nat
  distcode : Nat → Code
  distbits : Nat
  msg : Option String
  next : List Nat
  nextNull : Bool
  ins : List (List Nat)
  put : Nat
  left : Nat
  outs : List Bool
  written : List Nat
  inFail : Bool
  outFail : Bool

/-- BITS(n): the low n bits of the accumulator (infback.c 205-206). -/
def BITSm (n hold : Nat) : Nat := hold &&& ((1 <<< n) - 1)

/-- Update a function-modelled byte array at one index. -/
def updF (f : Nat → Nat) (i v : Nat) : Nat → Nat := fun j => if j = i then v else f j

/-- PULL() (infback.c 173-183): assure some input is available; a failing
in() callback (an empty chunk, or none left) sets next to Z_NULL and leaves
inflateBack with Z_BUF_ERROR. -/
def pull (st : St) : Except (Int × St) St :=
  if st.next.isEmpty then
    match st.ins with
    | [] => .error (Z_BUF_ERROR, {st with nextNull := true, inFail := true})
    | chunk :: rest =>
      if chunk.isEmpty then
        .error (Z_BUF_ERROR, {st with ins := rest, nextNull := true, inFail := true})
      else .ok {st with next := chunk, ins := rest, nextNull := false}
  else .ok st

/-- PULLBYTE() (infback.c 187-193): pull one byte into the bit accumulator
(pull combined with `hold += *next++ << bits; bits += 8`). -/
def pullByte (st : St) : Except (Int × St) St :=
  match st.next with
  | b :: rest =>
    .ok {st with next := rest, hold := st.hold + (b <<< st.bits), bits := st.bits + 8}
  | [] =>
    match st.ins with
    | [] => .error (Z_BUF_ERROR, {st with nextNull := true, inFail := true})
    | chunk :: rest =>
      match chunk with
      | [] => .error (Z_BUF_ERROR, {st with ins := rest, nextNull := true, inFail := true})
      | b :: cr =>
        .ok {st with next := cr, ins := rest, nextNull := false,
                     hold := st.hold + (b <<< st.bits), bits := st.bits + 8}

/-- PULLBYTE() repeated k times. -/
def pullBytes : Nat → St → Except (Int × St) St
  | 0, st => .ok st
  | k+1, st =>
    match pullByte st with
    | .error e => .error e
    | .ok st' => pullBytes k st'

/-- NEEDBITS(n) (infback.c 198-202): the while loop pulls one byte at a time
until at least n bits are held, i.e. exactly ceil((n - bits)/8) bytes. -/
def needbits (n : Nat) (st : St) : Except (Int × St) St :=
  if st.bits < n then pullBytes ((n - st.bits + 7) / 8) st else .ok st

/-- DROPBITS(n) (infback.c 209-213). -/
def dropbits (n : Nat) (st : St) : St :=
  {st with hold := st.hold >>> n, bits := st.bits - n}

/-- BYTEBITS() (infback.c 216-220): discard bits to the next byte boundary. -/
def bytebits (st : St) : St := dropbits (st.bits &&& 7) st

/-- INITBITS() (infback.c 165-169). -/
def initbits (st : St) : St := {st with hold := 0, bits := 0}

/-- The result of the next out() callback call: head of the scripted return
values (false = 0 = success), defaulting to success. -/
def popOut (st : St) : Bool × St :=
  match st.outs with
  | [] => (false, st)
  | b :: r => (b, {st with outs := r})

/-- ROOM() (infback.c 225-236): when the window is full, hand it to out() and
restart the output cursor at the window base; a non-zero out() return leaves
inflateBack with Z_BUF_ERROR. -/
def room (st : St) : Except (Int × St) St :=
  if st.left = 0 then
    let st1 := {st with put := 0, left := st.wsize, whave := st.wsize}
    match popOut st1 with
    | (true, st2) => .error (Z_BUF_ERROR, {st2 with outFail := true})
    | (false, st2) => .ok st2
  else .ok st

/-- Enter the BAD mode with strm->msg set. -/
def setBad (m : String) (st : St) : St := {st with msg := some m, mode := Mode.BAD}

/-- Write one output byte at the put cursor (`*put++ = b; left--;`), also
recording it on the output trace. -/
def putByte (b : Nat) (st : St) : St :=
  {st with window := updF st.window st.put b, put := st.put + 1,
           left := st.left - 1, written := st.written ++ [b]}

/-- zmemcpy into the window at the put cursor. -/
def writeList (w : Nat → Nat) (p : Nat) : List Nat → (Nat → Nat)
  | [] => w
  | b :: t => writeList (updF w p b) (p + 1) t

/-- The input bytes a run can still obtain: the current chunk, then the
scripted in() chunks up to (not including) the first empty = failing one. -/
def remBytes (st : St) : List Nat :=
  st.next ++ (st.ins.takeWhile (fun c => !c.isEmpty)).flatten

/-- Total count of obtainable input bytes (termination measure for the
decode-loop recursions: every successful PULLBYTE consumes one). -/
def remIn (st : St) : Nat := st.next.length + (st.ins.map List.length).sum

/-- The table lookup loop `for (;;) { here = tbl[idx(hold)]; if (extra +
here.bits <= bits) break; PULLBYTE(); }` (infback.c 570-574, 577-582,
624-628, 631-636): extra is 0 at the root level and the parent entry's bits
at the second level.  Terminates because each successful PULLBYTE consumes
one obtainable input byte. -/
def decodeLoop (tbl : Nat → Code) (idx : Nat → Nat) (extra : Nat) (st : St) :
    Except (Int × St) (Code × St) :=
  let here := tbl (idx st.hold)
  if here.bits + extra ≤ st.bits then .ok (here, st)
  else
    match h : pullByte st with
    | .error e => .error e
    | .ok st' => decodeLoop tbl idx extra st'
termination_by remIn st
decreasing_by
  unfold pullByte at h
  repeat' split at h
  all_goals cases h
  all_goals simp_all [remIn]

/-- Decode one symbol against a table: a root lookup, then at most one
sub-table lookup after which the parent entry's bits are dropped (infback.c
569-584 and 623-638).  needOp selects the literal/length parent test
`here.op && (here.op & 0xf0) == 0` over the distance one `(here.op & 0xf0)
== 0`. -/
def decodeSym (tbl : Nat → Code) (tbits : Nat) (needOp : Bool) (st : St) :
    Except (Int × St) (Code × St) :=
  match decodeLoop tbl (BITSm tbits) 0 st with
  | .error e => .error e
  | .ok (h0, st1) =>
    if (!needOp || h0.op != 0) && (h0.op &&& 0xf0 == 0) then
      match decodeLoop tbl (fun h => h0.val + (BITSm (h0.bits + h0.op) h >>> h0.bits)) h0.bits st1 with
      | .error e => .error e
      | .ok (h1, st2) => .ok (h1, dropbits h0.bits st2)
    else .ok (h0, st1)

/-- fixedtables(state) (infback.c 98-138, BUILDFIXED branch): install the
fixed tables with lenbits 9 and distbits 5. -/
def fixedtables (st : St) : St :=
  {st with lencode := lenfix, lenbits := 9, distcode := distfix, distbits := 5}

/-- The TYPE state (infback.c 368-400): when the previous block was the last,
discard bits to the byte boundary and finish; otherwise read the 3-bit block
header: the last flag, then the type dispatching to STORED, the fixed tables
plus LEN, TABLE, or BAD on type 3. -/
def typeBody (st : St) : Except (Int × St) St :=
  if st.last then
    .ok {bytebits st with mode := Mode.DONE}
  else
    match needbits 3 st with
    | .error e => .error e
    | .ok st1 =>
      let st2 := dropbits 1 {st1 with last := BITSm 1 st1.hold = 1}
      let st3 :=
        match BITSm 2 st2.hold with
        | 0 => {st2 with mode := Mode.STORED}
        | 1 => fixedtables {st2 with mode := Mode.LEN}
        | 2 => {st2 with mode := Mode.TABLE}
        | _ => setBad "invalid block type" st2
      .ok (dropbits 2 st3)

/-- The stored-block copy loop (infback.c 417-429): each iteration PULLs,
makes ROOM, then moves min(length, have, left) bytes from the input to the
window; since that minimum is at least 1, `length` iterations of fuel always
suffice. -/
def storedCopyLoop : Nat → St → Except (Int × St) St
  | 0, st => .ok st
  | fuel+1, st =>
    if st.length = 0 then .ok st
    else
      match pull st with
      | .error e => .error e
      | .ok st1 =>
        match room st1 with
        | .error e => .error e
        | .ok st2 =>
          let copy := min (min st2.length st2.next.length) st2.left
          let taken := st2.next.take copy
          let st3 := {st2 with
            next := st2.next.drop copy,
            window := writeList st2.window st2.put taken,
            put := st2.put + copy,
            left := st2.left - copy,
            length := st2.length - copy,
            written := st2.written ++ taken}
          storedCopyLoop fuel st3

/-- The STORED state (infback.c 402-432): go to the byte boundary, read the
16-bit length and its 16-bit one's complement, reject a mismatch, clear the
accumulator and byte-copy `length` bytes, then return to TYPE. -/
def storedBody (st : St) : Except (Int × St) St :=
  let st0 := bytebits st
  match needbits 32 st0 with
  | .error e => .error e
  | .ok st1 =>
    if st1.hold &&& 0xffff ≠ ((st1.hold >>> 16) ^^^ 0xffff) then
      .ok (setBad "invalid stored block lengths" st1)
    else
      let st2 := initbits {st1 with length := st1.hold &&& 0xffff}
      match storedCopyLoop st2.length st2 with
      | .error e => .error e
      | .ok st3 => .ok {st3 with mode := Mode.TYPE}

/-- The permutation of code-length code lengths (infback.c 345-346). -/
def orderTbl : List Nat := [16, 17, 18, 0, 8, 7, 9, 6, 10] ++ [5, 11, 4, 12, 3, 13, 2, 14, 1, 15]

/-- order[i]. -/
def orderF (i : Nat) : Nat := orderTbl.getD i 0

/-- `while (state->have < state->ncode) { NEEDBITS(3);
lens[order[have++]] = BITS(3); DROPBITS(3); }` (infback.c 453-458); ncode is
at most 19, so 19 units of fuel always suffice. -/
def readCLL : Nat → St → Except (Int × St) St
  | 0, st => .ok st
  | fuel+1, st =>
    if st.havec < st.ncode then
      match needbits 3 st with
      | .error e => .error e
      | .ok st1 =>
        let st2 := {st1 with lens := updF st1.lens (orderF st1.havec) (BITSm 3 st1.hold),
                             havec := st1.havec + 1}
        readCLL fuel (dropbits 3 st2)
    else .ok st

/-- `while (state->have < 19) lens[order[have++]] = 0;` (infback.c 459-460). -/
def zeroFill19 : Nat → St → St
  | 0, st => st
  | fuel+1, st =>
    if st.havec < 19 then
      zeroFill19 fuel {st with lens := updF st.lens (orderF st.havec) 0,
                               havec := st.havec + 1}
    else st

/-- `while (copy--) state->lens[state->have++] = (unsigned short)len;`
(infback.c 517-518). -/
def fillLens (v : Nat) : Nat → St → St
  | 0, st => st
  | c+1, st => fillLens v c {st with lens := updF st.lens st.havec v, havec := st.havec + 1}

/-- The length/distance code-length decode loop (infback.c 474-520): symbols
0..15 are literal lengths, 16 repeats the previous length 3..6 times (an
error if no length exists yet), 17 and 18 write 3..10 resp. 11..138 zeros; a
run past nlen+ndist is an error.  Each iteration grows `have` by at least 1
(a repeat count is at least 3), so nlen+ndist units of fuel suffice. -/
def decodeLensLoop : Nat → St → Except (Int × St) St
  | 0, st => .ok st
  | fuel+1, st =>
    if st.havec < st.nlen + st.ndist then
      match decodeLoop st.lencode (BITSm st.lenbits) 0 st with
      | .error e => .error e
      | .ok (here, st1) =>
        if here.val < 16 then
          let st2 := dropbits here.bits st1
          decodeLensLoop fuel {st2 with lens := updF st2.lens st2.havec here.val,
                                        havec := st2.havec + 1}
        else if here.val = 16 then
          match needbits (here.bits + 2) st1 with
          | .error e => .error e
          | .ok st2 =>
            let st3 := dropbits here.bits st2
            if st3.havec = 0 then .ok (setBad "invalid bit length repeat" st3)
            else
              let len := st3.lens (st3.havec - 1)
              let copy := 3 + BITSm 2 st3.hold
              let st4 := dropbits 2 st3
              if st4.nlen + st4.ndist < st4.havec + copy then
                .ok (setBad "invalid bit length repeat" st4)
              else decodeLensLoop fuel (fillLens len copy st4)
        else if here.val = 17 then
          match needbits (here.bits + 3) st1 with
          | .error e => .error e
          | .ok st2 =>
            let st3 := dropbits here.bits st2
            let copy := 3 + BITSm 3 st3.hold
            let st4 := dropbits 3 st3
            if st4.nlen + st4.ndist < st4.havec + copy then
              .ok (setBad "invalid bit length repeat" st4)
            else decodeLensLoop fuel (fillLens 0 copy st4)
        else
          match needbits (here.bits + 7) st1 with
          | .error e => .error e
          | .ok st2 =>
            let st3 := dropbits here.bits st2
            let copy := 11 + BITSm 7 st3.hold
            let st4 := dropbits 7 st3
            if st4.nlen + st4.ndist < st4.havec + copy then
              .ok (setBad "invalid bit length repeat" st4)
            else decodeLensLoop fuel (fillLens 0 copy st4)
    else .ok st

/-- After the code lengths are in: require a non-zero length for the
end-of-block symbol 256, then build the literal/length table with root bits 9
and the distance table with root bits 6 (infback.c 525-555). -/
def tableFinish (st : St) : Except (Int × St) St :=
  if st.lens 256 = 0 then .ok (setBad "invalid code -- missing end-of-block" st)
  else
    let rl := inflate_table CodeType.LENS st.lens st.nlen 9
    if rl.1 ≠ 0 then .ok (setBad "invalid literal/lengths set" st)
    else
      let st1 := {st with lencode := rl.2.1, lenbits := rl.2.2}
      let rd := inflate_table CodeType.DISTS (fun i => st1.lens (st1.nlen + i)) st1.ndist 6
      if rd.1 ≠ 0 then .ok (setBad "invalid distances set" st1)
      else .ok {st1 with distcode := rd.2.1, distbits := rd.2.2, mode := Mode.LEN}

/-- The TABLE state (infback.c 434-555): read nlen = BITS(5)+257,
ndist = BITS(5)+1, ncode = BITS(4)+4 in that order, reject nlen > 286 or
ndist > 30, read the code-length code lengths in permutation order and zero
fill to 19, build the 19-symbol code with root 7, decode the nlen+ndist
lengths, then build the two main tables.  (The C case falls through into LEN;
setting mode := LEN and re-dispatching is the same computation.) -/
def tableBody (st : St) : Except (Int × St) St :=
  match needbits 14 st with
  | .error e => .error e
  | .ok st1 =>
    let st2 := dropbits 5 {st1 with nlen := BITSm 5 st1.hold + 257}
    let st3 := dropbits 5 {st2 with ndist := BITSm 5 st2.hold + 1}
    let st4 := dropbits 4 {st3 with ncode := BITSm 4 st3.hold + 4}
    if 286 < st4.nlen ∨ 30 < st4.ndist then
      .ok (setBad "too many length or distance symbols" st4)
    else
      match readCLL 19 {st4 with havec := 0} with
      | .error e => .error e
      | .ok st6 =>
        let st7 := zeroFill19 19 st6
        let rc := inflate_table CodeType.CODES st7.lens 19 7
        if rc.1 ≠ 0 then .ok (setBad "invalid code lengths set" st7)
        else
          let st8 := {st7 with lencode := rc.2.1, lenbits := rc.2.2, havec := 0}
          match decodeLensLoop (st8.nlen + st8.ndist) st8 with
          | .error e => .error e
          | .ok st9 =>
            if st9.mode = Mode.BAD then .ok st9
            else tableFinish st9

/-- The distance validity test (infback.c 654-655): the distance is too far
back when it exceeds wsize minus (left, while the window has not yet filled
once, else 0). -/
def distTooFar (st : St) : Bool :=
  decide (st.wsize - (if st.whave < st.wsize then st.left else 0) < st.offset)

/-- The innermost `do { *put++ = *from++; } while (--copy);` byte copy
(infback.c 677-679): strictly sequential, so a source overlapping the
destination re-reads the bytes just written. -/
def copyRun : Nat → Nat → St → St
  | 0, _, st => st
  | c+1, fromIdx, st => copyRun c (fromIdx + 1) (putByte (st.window fromIdx) st)

/-- The match copy loop `do { ROOM(); ... } while (state->length != 0);`
(infback.c 663-680).  The source index: `wsize - offset < left` means the
match begins in the current fill, at put - offset; otherwise it begins in the
older part of the window, at put + (wsize - offset), i.e. put - offset + wsize.
The C code decrements `left` in advance and bumps `put` per byte; writing per
byte with putByte reaches the same state.  Each iteration copies at least one
byte, so `length` units of fuel always suffice. -/
def matchCopyLoop : Nat → St → Except (Int × St) St
  | 0, st => .ok st
  | fuel+1, st =>
    match room st with
    | .error e => .error e
    | .ok st1 =>
      let copy0 := st1.wsize - st1.offset
      let fromIdx := if copy0 < st1.left then st1.put + copy0 else st1.put - st1.offset
      let copy1 := if copy0 < st1.left then st1.left - copy0 else st1.left
      let copy2 := min copy1 st1.length
      let st2 := copyRun copy2 fromIdx {st1 with length := st1.length - copy2}
      if st2.length ≠ 0 then matchCopyLoop fuel st2 else .ok st2

/-- Validate the decoded distance, then copy the match (infback.c 654-681). -/
def lenAfterDist (st : St) : Except (Int × St) St :=
  if distTooFar st then .ok (setBad "invalid distance too far back" st)
  else matchCopyLoop st.length st

/-- The LEN state (infback.c 558-681).  Modelled from the spec: the
inflate_fast dispatch of infback.c 560-567 (inffast.c, not under src/) is a
performance variant of exactly this in-line decode path (§4.4, §4.5), so the
model always takes the in-line path.  Decode a literal/length symbol: a
literal is written to the window; end-of-block returns to TYPE; a length code
reads 0..15 extra bits, then the distance symbol with its extra bits is
decoded the same way, validated, and the match is copied. -/
def lenBody (st : St) : Except (Int × St) St :=
  match decodeSym st.lencode st.lenbits true st with
  | .error e => .error e
  | .ok (here, st2) =>
    let st3 := {dropbits here.bits st2 with length := here.val}
    if here.op = 0 then
      match room st3 with
      | .error e => .error e
      | .ok st4 => .ok (putByte (st4.length % 256) st4)
    else if here.op &&& 32 ≠ 0 then .ok {st3 with mode := Mode.TYPE}
    else if here.op &&& 64 ≠ 0 then .ok (setBad "invalid literal/length code" st3)
    else
      match (if here.op &&& 15 ≠ 0 then
          match needbits (here.op &&& 15) st3 with
          | .error e => .error e
          | .ok s => .ok (dropbits (here.op &&& 15)
              {s with length := s.length + BITSm (here.op &&& 15) s.hold})
        else .ok st3 : Except (Int × St) St) with
      | .error e => .error e
      | .ok st5 =>
        match decodeSym st5.distcode st5.distbits false st5 with
        | .error e => .error e
        | .ok (dh, st7) =>
          let st8 := dropbits dh.bits st7
          if dh.op &&& 64 ≠ 0 then .ok (setBad "invalid distance code" st8)
          else
            match (if dh.op &&& 15 ≠ 0 then
                match needbits (dh.op &&& 15) {st8 with offset := dh.val} with
                | .error e => .error e
                | .ok s => .ok (dropbits (dh.op &&& 15)
                    {s with offset := s.offset + BITSm (dh.op &&& 15) s.hold})
              else .ok {st8 with offset := dh.val} : Except (Int × St) St) with
            | .error e => .error e
            | .ok st11 => lenAfterDist st11

/-- The outcome of one switch-body execution: continue the loop or leave. -/
inductive StepR
  | cont (st : St)
  | leave (ret : Int) (st : St)

/-- Repackage a body result. -/
def mkStep : Except (Int × St) St → StepR
  | .ok st => StepR.cont st
  | .error e => StepR.leave e.1 e.2

/-- One execution of the body of `for (;;) switch (state->mode)` (infback.c
366-696): DONE leaves with Z_STREAM_END, BAD with Z_DATA_ERROR. -/
def stepOnce (st : St) : StepR :=
  match st.mode with
  | Mode.TYPE => mkStep (typeBody st)
  | Mode.STORED => mkStep (storedBody st)
  | Mode.TABLE => mkStep (tableBody st)
  | Mode.LEN => mkStep (lenBody st)
  | Mode.DONE => StepR.leave Z_STREAM_END st
  | Mode.BAD => StepR.leave Z_DATA_ERROR st

/-- inf_leave (infback.c 699-707): flush a partly filled window; an out()
failure downgrades Z_STREAM_END, and only Z_STREAM_END, to Z_BUF_ERROR. -/
def infLeave (ret : Int) (st : St) : Int × St :=
  if st.left < st.wsize then
    match popOut st with
    | (true, st1) => (if ret = Z_STREAM_END then Z_BUF_ERROR else ret, {st1 with outFail := true})
    | (false, st1) => (ret, st1)
  else (ret, st)

/-- The main loop, fuelled by the number of switch dispatches: `none` means
the fuel ran out, never a returned C value. -/
def runLoop : Nat → St → Option (Int × St)
  | 0, _ => none
  | fuel+1, st =>
    match stepOnce st with
    | StepR.cont st' => runLoop fuel st'
    | StepR.leave r st' => some (infLeave r st')

/-- The entry reset of inflateBack (infback.c 353-363): msg, mode, last,
whave, the bit accumulator, and the output cursor; when next_in is Z_NULL no
initial input is available. -/
def resetSt (st : St) : St :=
  {st with msg := none, mode := Mode.TYPE, last := false, whave := 0,
           hold := 0, bits := 0, put := 0, left := st.wsize,
           next := if st.nextNull then [] else st.next,
           inFail := false, outFail := false}

/-- inflateBack(strm, in, in_desc, out, out_desc): `none` models a null strm
or state pointer, returning Z_STREAM_ERROR at once (infback.c 349-350). -/
def inflateBack (strm : Option St) (fuel : Nat) : Option (Int × Option St) :=
  match strm with
  | none => some (Z_STREAM_ERROR, none)
  | some st => (runLoop fuel (resetSt st)).map (fun p => (p.1, some p.2))

/-- inflateBackInit_ (infback.c 47-86): window size 2^windowBits with
windowBits in 8..15, empty history, and the caller's initial input. -/
def inflateBackInit (windowBits : Nat) (window : Nat → Nat)
    (nextIn : Option (List Nat)) (ins : List (List Nat)) (outs : List Bool) :
    Option St :=
  if windowBits < 8 ∨ 15 < windowBits then none
  else some
    { mode := Mode.TYPE, last := false, wsize := 1 <<< windowBits,
      window := window, whave := 0, hold := 0, bits := 0, length := 0,
      offset := 0, lens := fun _ => 0, havec := 0, nlen := 0, ndist := 0,
      ncode := 0, lencode := fun _ => invalidCode, lenbits := 0,
      distcode := fun _ => invalidCode, distbits := 0, msg := none,
      next := nextIn.getD [], nextNull := nextIn.isNone, ins := ins,
      put := 0, left := 1 <<< windowBits, outs := outs, written := [],
      inFail := false, outFail := false }

/-! ### Spec-side observables and invariants -/

/-- The bits of one byte, LSB first (deflate bit order). -/
def byteBits (b : Nat) : List Bool := (List.range 8).map (fun i => b.testBit i)

/-- The live bits of the accumulator, LSB first. -/
def holdBits (hold bits : Nat) : List Bool := (List.range bits).map (fun i => hold.testBit i)

/-- The bit stream still obtainable: accumulator bits, then the obtainable
input bytes, LSB first within each byte. -/
def bitsAvail (st : St) : List Bool :=
  holdBits st.hold st.bits ++ ((remBytes st).map byteBits).flatten

/-- The value of an LSB-first bit sequence. -/
def natOfBits : List Bool → Nat
  | [] => 0
  | b :: t => (if b then 1 else 0) + 2 * natOfBits t

/-- The accumulator holds only its `bits` live bits. -/
def GoodBits (st : St) : Prop := st.hold < 2 ^ st.bits

/-- The circular window agrees with the tail of the output trace: for
1 ≤ j ≤ min |written| wsize, the byte j positions back in the output stream
sits j slots behind the put cursor, circularly (j ≤ put stays in the current
fill, larger j wraps to the top of the window). -/
def AgreeW (st : St) : Prop :=
  ∀ j, 1 ≤ j → j ≤ min st.written.length st.wsize →
    st.window (if j ≤ st.put then st.put - j else st.put + st.wsize - j) =
      st.written.getD (st.written.length - j) 0

/-- Facts holding at the LEN state that the distance check relies on: the put
cursor and left count partition the window, whave is 0 until the window first
fills (and wsize afterwards), and the output trace length matches. -/
def WinInv (st : St) : Prop :=
  st.put + st.left = st.wsize ∧
  (st.whave = 0 ∨ st.whave = st.wsize) ∧
  (st.whave = 0 → st.written.length = st.wsize - st.left) ∧
  (st.whave = st.wsize → st.wsize ≤ st.written.length)

/-- All scripted input bytes are bytes (below 256). -/
def ByteInput (st : St) : Prop :=
  (∀ b ∈ st.next, b < 256) ∧ (∀ c ∈ st.ins, ∀ b ∈ c, b < 256)

/-- The invariant of a run started by inflateBack's reset: no callback has
failed yet, and a null next pointer can only be the caller's initial null
next_in, observed before any input or output activity. -/
def CallInv (st : St) : Prop :=
  st.inFail = false ∧ st.outFail = false ∧
  (st.nextNull = true → st.next = [] ∧ st.bits = 0 ∧ st.left = st.wsize ∧
    st.mode = Mode.TYPE ∧ st.last = false) ∧
  (st.next ≠ [] → st.nextNull = false)

/-- All state fields other than the input cursor (next, ins, nextNull) and
the bit accumulator (hold, bits) agree: what a pure input/accumulator step
leaves untouched. -/
def SameOuter (st st' : St) : Prop :=
  st'.mode = st.mode ∧ st'.last = st.last ∧ st'.wsize = st.wsize ∧
  st'.window = st.window ∧ st'.whave = st.whave ∧ st'.length = st.length ∧
  st'.offset = st.offset ∧ st'.lens = st.lens ∧ st'.havec = st.havec ∧
  st'.nlen = st.nlen ∧ st'.ndist = st.ndist ∧ st'.ncode = st.ncode ∧
  st'.lencode = st.lencode ∧ st'.lenbits = st.lenbits ∧
  st'.distcode = st.distcode ∧ st'.distbits = st.distbits ∧
  st'.msg = st.msg ∧ st'.put = st.put ∧ st'.left = st.left ∧
  st'.outs = st.outs ∧ st'.written = st.written ∧
  st'.inFail = st.inFail ∧ st'.outFail = st.outFail

/-- A concrete STORED-mode state for evaluation: a 2-byte stored block
(length 2, complement correct) followed by the payload. -/
def stored3W : St :=
  { mode := Mode.STORED, last := false, wsize := 4, window := fun _ => 0,
    whave := 0, hold := 0, bits := 0, length := 0, offset := 0,
    lens := fun _ => 0, havec := 0, nlen := 0, ndist := 0, ncode := 0,
    lencode := fun _ => invalidCode, lenbits := 0,
    distcode := fun _ => invalidCode, distbits := 0, msg := none,
    next := [2, 0, 253, 255, 170, 187], nextNull := false, ins := [],
    put := 0, left := 4, outs := [], written := [],
    inFail := false, outFail := false }

/-- A concrete LEN-mode state with one output byte of history and a
distance that exceeds it. -/
def dist5W : St :=
  { mode := Mode.LEN, last := false, wsize := 4, window := fun i => if i = 0 then 9 else 0,
    whave := 0, hold := 0, bits := 0, length := 3, offset := 2,
    lens := fun _ => 0, havec := 0, nlen := 0, ndist := 0, ncode := 0,
    lencode := fun _ => invalidCode, lenbits := 0,
    distcode := fun _ => invalidCode, distbits := 0, msg := none,
    next := [], nextNull := false, ins := [],
    put := 1, left := 3, outs := [], written := [9],
    inFail := false, outFail := false }

/-- A concrete LEN-mode copy state: one output byte of history, a
distance-1 length-3 match (the RLE case). -/
def match6W : St :=
  { mode := Mode.LEN, last := false, wsize := 4, window := fun i => if i = 0 then 9 else 0,
    whave := 0, hold := 0, bits := 0, length := 3, offset := 1,
    lens := fun _ => 0, havec := 0, nlen := 0, ndist := 0, ncode := 0,
    lencode := fun _ => invalidCode, lenbits := 0,
    distcode := fun _ => invalidCode, distbits := 0, msg := none,
    next := [], nextNull := false, ins := [],
    put := 1, left := 3, outs := [], written := [9],
    inFail := false, outFail := false }

/-- The state the match copy on match6W produces. -/
def match6R : St :=
  match matchCopyLoop 3 match6W with
  | .ok s => s
  | .error _ => match6W

/-- A concrete TABLE-mode state for evaluation. -/
def tab4W : St :=
  { mode := Mode.TABLE, last := false, wsize := 4, window := fun _ => 0,
    whave := 0, hold := 0, bits := 0, length := 0, offset := 0,
    lens := fun _ => 0, havec := 0, nlen := 0, ndist := 0, ncode := 0,
    lencode := fun _ => invalidCode, lenbits := 0,
    distcode := fun _ => invalidCode, distbits := 0, msg := none,
    next := [255, 255, 3], nextNull := false, ins := [],
    put := 0, left := 4, outs := [], written := [],
    inFail := false, outFail := false }

/-- No callback has failed and the next pointer is not null: the normal
condition of inflateBack's loop body away from the TYPE entry. -/
def Pre0 (st : St) : Prop :=
  st.inFail = false ∧ st.outFail = false ∧ st.nextNull = false

/-- The state an errored body step leaves: Z_BUF_ERROR, with next null and
inFail set when in() failed, and neither when out() failed. -/
def ErrShape (r : Int) (st' : St) : Prop :=
  r = Z_BUF_ERROR ∧
  ((st'.nextNull = true ∧ st'.inFail = true ∧ st'.outFail = false) ∨
   (st'.nextNull = false ∧ st'.inFail = false ∧ st'.outFail = true))

/-- One sub-step's result: ok keeps the normal condition, the mode and the
last flag; an error has the buffer-error shape. -/
def StepOK (st : St) : Except (Int × St) St → Prop
  | .ok st' => Pre0 st' ∧ st'.mode = st.mode ∧ st'.last = st.last
  | .error e => ErrShape e.1 e.2

/-- Like StepOK, but the step may also enter the BAD mode. -/
def StepOKB (st : St) : Except (Int × St) St → Prop
  | .ok st' => Pre0 st' ∧ (st'.mode = st.mode ∨ st'.mode = Mode.BAD) ∧ st'.last = st.last
  | .error e => ErrShape e.1 e.2

/-- A whole switch-body execution: ok re-establishes the loop invariant
pieces, an error has the buffer-error shape. -/
def BodyOK (st : St) : Except (Int × St) St → Prop
  | .ok st' => Pre0 st' ∧ (st'.mode = Mode.DONE → st'.last = true)
  | .error e => ErrShape e.1 e.2

/-- The loop invariant established by inflateBack's entry reset: no callback
has failed, a null next pointer can only be the caller's initial one (nothing
read yet, still at TYPE with last unset), and DONE implies the final block
was seen. -/
def RunInv (st : St) : Prop :=
  st.inFail = false ∧ st.outFail = false ∧
  (st.nextNull = true → st.next = [] ∧ st.bits = 0 ∧ st.mode = Mode.TYPE ∧
    st.last = false) ∧
  (st.mode = Mode.DONE → st.last = true)

/-! ## Theorems -/

/-! ### Bit-splitting helpers -/

theorem and16_eq_mod (x : Nat) : x &&& 0xffff = x % 65536 := by
  have h := Nat.and_pow_two_sub_one_eq_mod x 16
  norm_num at h
  exact h

theorem lor16_eq (x y : Nat) (hx : x < 65536) : x ||| (y <<< 16) = 65536 * y + x := by
  have e : (2 : Nat) ^ 16 = 65536 := by norm_num
  have h := Nat.mul_add_lt_is_or (b := x) (i := 16) (by rw [e]; exact hx) y
  rw [Nat.shiftLeft_eq, e, Nat.or_comm, Nat.mul_comm y 65536]
  rw [e] at h
  exact h.symm

theorem lor16_low (x y : Nat) (hx : x < 65536) : (x ||| (y <<< 16)) &&& 0xffff = x := by
  rw [lor16_eq x y hx, and16_eq_mod]
  omega

theorem lor16_high (x y : Nat) (hx : x < 65536) : (x ||| (y <<< 16)) >>> 16 = y := by
  rw [lor16_eq x y hx, Nat.shiftRight_eq_div_pow]
  norm_num
  omega

/-! ### Adler-32: closed forms and bounds -/

theorem adlerSum_cons (p : Nat × Nat) (b : Nat) (t : List Nat) :
    adlerSum p (b :: t) = adlerSum (adlerStep p b) t := rfl

theorem adlerSum_append (p : Nat × Nat) (xs ys : List Nat) :
    adlerSum p (xs ++ ys) = adlerSum (adlerSum p xs) ys := by
  simp [adlerSum]

theorem adlerSum_fst (p : Nat × Nat) (bs : List Nat) :
    (adlerSum p bs).1 = p.1 + bs.sum := by
  induction bs generalizing p with
  | nil => simp [adlerSum]
  | cons b t ih =>
    rw [adlerSum_cons, ih]
    simp [adlerStep]
    omega

theorem adlerSum_snd (p : Nat × Nat) (bs : List Nat) :
    (adlerSum p bs).2 = p.2 + bs.length * p.1 + (adlerSum (0, 0) bs).2 := by
  induction bs generalizing p with
  | nil => simp [adlerSum]
  | cons b t ih =>
    rw [adlerSum_cons, ih, adlerSum_cons (0, 0), ih (adlerStep (0, 0) b)]
    simp [adlerStep]
    ring

theorem sum_le_of_bytes (bs : List Nat) (hb : ∀ b ∈ bs, b < 256) :
    bs.sum ≤ 255 * bs.length := by
  induction bs with
  | nil => simp
  | cons b t ih =>
    have h0 := hb b (by simp)
    have ht := ih (fun x hx => hb x (by simp [hx]))
    simp only [List.sum_cons, List.length_cons]
    omega

theorem adlerW_le (bs : List Nat) (hb : ∀ b ∈ bs, b < 256) :
    2 * (adlerSum (0, 0) bs).2 ≤ 255 * (bs.length * (bs.length + 1)) := by
  induction bs with
  | nil => simp [adlerSum]
  | cons b t ih =>
    have h0 := hb b (by simp)
    have ht := ih (fun x hx => hb x (by simp [hx]))
    rw [adlerSum_cons, adlerSum_snd]
    simp only [adlerStep, List.length_cons]
    have hx : 2 * b * (t.length + 1) ≤ 510 * (t.length + 1) :=
      Nat.mul_le_mul_right _ (by omega)
    nlinarith [ht, hx]

theorem doList_eq_adlerSum : ∀ (bs : List Nat) (p : Nat × Nat),
    (∀ b ∈ bs, b < 256) →
    p.1 + 255 * bs.length < M32 →
    2 * p.2 + 2 * (bs.length * p.1) + 255 * (bs.length * (bs.length + 1)) < 2 * M32 →
    doList p bs = adlerSum p bs := by
  intro bs
  induction bs with
  | nil => intro p _ _ _; rfl
  | cons b t ih =>
    intro p hb h1 h2
    have h0 : b < 256 := hb b (by simp)
    have hbt : ∀ x ∈ t, x < 256 := fun x hx => hb x (by simp [hx])
    simp only [List.length_cons] at h1 h2
    have ex1 : (t.length + 1) * p.1 = t.length * p.1 + p.1 := by ring
    have ex2 : (t.length + 1) * (t.length + 1 + 1) =
        t.length * (t.length + 1) + 2 * t.length + 2 := by ring
    have e1 : p.1 + b < M32 := by omega
    have e2 : p.2 + (p.1 + b) < M32 := by linarith [h2, ex1, ex2, Nat.zero_le (t.length * p.1), Nat.zero_le (t.length * (t.length + 1))]
    have hstep : do1 p b = adlerStep p b := by
      unfold do1 adlerStep
      rw [Nat.mod_eq_of_lt e1, Nat.mod_eq_of_lt e2]
      simp [Nat.add_assoc]
    have hrec : doList p (b :: t) = doList (do1 p b) t := rfl
    rw [hrec, hstep, adlerSum_cons]
    have hb2 : t.length * b ≤ t.length * 255 := Nat.mul_le_mul_left _ (by omega)
    have ex3 : t.length * ((adlerStep p b).1) = t.length * p.1 + t.length * b := by
      simp [adlerStep]; ring
    refine ih (adlerStep p b) hbt ?_ ?_
    · simp only [adlerStep]
      omega
    · simp only [adlerStep]
      have goalx : 2 * (p.2 + p.1 + b) + 2 * (t.length * (p.1 + b)) +
          255 * (t.length * (t.length + 1)) < 2 * M32 := by
        have ex4 : t.length * (p.1 + b) = t.length * p.1 + t.length * b := by ring
        linarith [h2, ex1, ex2, hb2, ex4]
      exact goalx

theorem adlerSum_congr_fst (p q : Nat × Nat) (y : List Nat)
    (h1 : p.1 % BASE = q.1 % BASE) :
    (adlerSum p y).1 % BASE = (adlerSum q y).1 % BASE := by
  rw [adlerSum_fst, adlerSum_fst]
  simp only [BASE] at *
  omega

theorem adlerSum_congr_snd (p q : Nat × Nat) (y : List Nat)
    (h1 : p.1 % BASE = q.1 % BASE) (h2 : p.2 % BASE = q.2 % BASE) :
    (adlerSum p y).2 % BASE = (adlerSum q y).2 % BASE := by
  rw [adlerSum_snd p y, adlerSum_snd q y]
  have m1 : p.1 ≡ q.1 [MOD BASE] := h1
  have m2 : p.2 ≡ q.2 [MOD BASE] := h2
  exact (m2.add (m1.mul_left y.length)).add_right _

/-- Bounds making one block of at most NMAX bytes overflow free. -/
theorem doList_block (p : Nat × Nat) (bs : List Nat)
    (hb : ∀ b ∈ bs, b < 256) (hn : bs.length ≤ NMAX)
    (h1 : p.1 < 65536) (h2 : p.2 < 65536) :
    doList p bs = adlerSum p bs := by
  refine doList_eq_adlerSum bs p hb ?_ ?_
  · simp only [NMAX] at hn
    simp only [M32]
    omega
  · have e1 : bs.length * p.1 ≤ 5552 * 65535 := by
      apply Nat.mul_le_mul
      · simpa [NMAX] using hn
      · omega
    have e2 : bs.length * (bs.length + 1) ≤ 5552 * 5553 := by
      apply Nat.mul_le_mul
      · simpa [NMAX] using hn
      · simp only [NMAX] at hn; omega
    simp only [M32]
    omega

theorem adlerNBlocks_spec : ∀ (k : Nat) (p : Nat × Nat) (bs : List Nat),
    (∀ b ∈ bs, b < 256) → k * NMAX ≤ bs.length → p.1 < 65536 → p.2 < 65536 →
    (adlerNBlocks k p bs).2 = bs.drop (k * NMAX) ∧
    (adlerNBlocks k p bs).1.1 % BASE = (adlerSum p (bs.take (k * NMAX))).1 % BASE ∧
    (adlerNBlocks k p bs).1.2 % BASE = (adlerSum p (bs.take (k * NMAX))).2 % BASE ∧
    (0 < k → (adlerNBlocks k p bs).1.1 < BASE ∧ (adlerNBlocks k p bs).1.2 < BASE) ∧
    (k = 0 → adlerNBlocks k p bs = (p, bs)) := by
  intro k
  induction k with
  | zero =>
    intro p bs _ _ _ _
    simp [adlerNBlocks, adlerSum]
  | succ k ih =>
    intro p bs hb hk h1 h2
    have hN : (NMAX : Nat) = 5552 := rfl
    have hNle : NMAX ≤ bs.length := by
      have : 1 * NMAX ≤ (k + 1) * NMAX := Nat.mul_le_mul_right _ (by omega)
      omega
    have htake : (bs.take NMAX).length = NMAX := by
      simp [List.length_take]
      omega
    have hbtake : ∀ x ∈ bs.take NMAX, x < 256 := fun x hx => hb x (List.mem_of_mem_take hx)
    have hbdrop : ∀ x ∈ bs.drop NMAX, x < 256 := fun x hx => hb x (List.mem_of_mem_drop hx)
    have hq : doList p (bs.take NMAX) = adlerSum p (bs.take NMAX) :=
      doList_block p _ hbtake (by omega) h1 h2
    have hstep : adlerNBlocks (k + 1) p bs =
        adlerNBlocks k ((doList p (bs.take NMAX)).1 % BASE, (doList p (bs.take NMAX)).2 % BASE)
          (bs.drop NMAX) := rfl
    have hk' : k * NMAX ≤ (bs.drop NMAX).length := by
      simp [List.length_drop]
      have : (k + 1) * NMAX = k * NMAX + NMAX := by ring
      omega
    have hBlt : (0 : Nat) < BASE := by simp [BASE]
    obtain ⟨ih1, ih2, ih3, ih4, ih5⟩ :=
      ih ((doList p (bs.take NMAX)).1 % BASE, (doList p (bs.take NMAX)).2 % BASE)
        (bs.drop NMAX) hbdrop hk'
        (by have := Nat.mod_lt (doList p (bs.take NMAX)).1 hBlt; simp [BASE] at this ⊢; omega)
        (by have := Nat.mod_lt (doList p (bs.take NMAX)).2 hBlt; simp [BASE] at this ⊢; omega)
    have hdecomp : bs.take ((k + 1) * NMAX) = bs.take NMAX ++ (bs.drop NMAX).take (k * NMAX) := by
      have : (k + 1) * NMAX = NMAX + k * NMAX := by ring
      rw [this, List.take_add]
    have hfold : adlerSum p (bs.take ((k + 1) * NMAX)) =
        adlerSum (adlerSum p (bs.take NMAX)) ((bs.drop NMAX).take (k * NMAX)) := by
      rw [hdecomp, adlerSum_append]
    refine ⟨?_, ?_, ?_, ?_, ?_⟩
    · rw [hstep, ih1, List.drop_drop]
      congr 1
      ring
    · rw [hstep, ih2, hfold, hq]
      exact adlerSum_congr_fst _ _ _ (Nat.mod_mod_of_dvd _ dvd_rfl)
    · rw [hstep, ih3, hfold, hq]
      refine adlerSum_congr_snd _ _ _ ?_ ?_ <;> exact Nat.mod_mod_of_dvd _ dvd_rfl
    · intro _
      rcases Nat.eq_zero_or_pos k with hk0 | hkpos
      · subst hk0
        rw [hstep]
        constructor
        · have := ih5 rfl
          rw [this]
          exact Nat.mod_lt _ hBlt
        · have := ih5 rfl
          rw [this]
          exact Nat.mod_lt _ hBlt
      · rw [hstep]
        exact ih4 hkpos
    · intro h; omega

/-- adler32_z on a real buffer equals the reference accumulator, for any
initial value whose high component sum is already reduced below BASE. -/
theorem adler32_z_buf_eq_ref (a : Nat) (bs : List Nat)
    (hs2 : (a >>> 16) &&& 0xffff < BASE) (hb : ∀ b ∈ bs, b < 256) :
    adler32_z_buf a bs =
      ((adlerSum (a &&& 0xffff, (a >>> 16) &&& 0xffff) bs).1 % BASE) |||
      (((adlerSum (a &&& 0xffff, (a >>> 16) &&& 0xffff) bs).2 % BASE) <<< 16) := by
  have hs1 : a &&& 0xffff < 65536 := by rw [and16_eq_mod]; omega
  have hs2' : (a >>> 16) &&& 0xffff < 65521 := by simpa [BASE] using hs2
  by_cases hc1 : bs.length = 1
  · obtain ⟨b, rfl⟩ := List.length_eq_one.mp hc1
    have hbb : b < 256 := hb b (by simp)
    have lhs : adler32_z_buf a [b] =
        (if BASE ≤ (a &&& 0xffff) + b then (a &&& 0xffff) + b - BASE else (a &&& 0xffff) + b) |||
        ((if BASE ≤ ((a >>> 16) &&& 0xffff) +
              (if BASE ≤ (a &&& 0xffff) + b then (a &&& 0xffff) + b - BASE else (a &&& 0xffff) + b)
            then ((a >>> 16) &&& 0xffff) +
              (if BASE ≤ (a &&& 0xffff) + b then (a &&& 0xffff) + b - BASE else (a &&& 0xffff) + b) - BASE
            else ((a >>> 16) &&& 0xffff) +
              (if BASE ≤ (a &&& 0xffff) + b then (a &&& 0xffff) + b - BASE
               else (a &&& 0xffff) + b)) <<< 16) := rfl
    have rhs1 : (adlerSum ((a &&& 0xffff), ((a >>> 16) &&& 0xffff)) [b]).1 =
        (a &&& 0xffff) + b := rfl
    have rhs2 : (adlerSum ((a &&& 0xffff), ((a >>> 16) &&& 0xffff)) [b]).2 =
        ((a >>> 16) &&& 0xffff) + (a &&& 0xffff) + b := rfl
    rw [lhs, rhs1, rhs2]
    have c1 : (if BASE ≤ (a &&& 0xffff) + b then (a &&& 0xffff) + b - BASE
          else (a &&& 0xffff) + b) = ((a &&& 0xffff) + b) % BASE := by
      simp only [BASE] at hs1 ⊢
      split <;> omega
    rw [c1]
    have c2 : (if BASE ≤ ((a >>> 16) &&& 0xffff) + ((a &&& 0xffff) + b) % BASE
          then ((a >>> 16) &&& 0xffff) + ((a &&& 0xffff) + b) % BASE - BASE
          else ((a >>> 16) &&& 0xffff) + ((a &&& 0xffff) + b) % BASE) =
        (((a >>> 16) &&& 0xffff) + (a &&& 0xffff) + b) % BASE := by
      simp only [BASE] at hs2' ⊢
      split <;> omega
    rw [c2]
  · by_cases hc16 : bs.length < 16
    · have hfold : doList (a &&& 0xffff, (a >>> 16) &&& 0xffff) bs =
          adlerSum (a &&& 0xffff, (a >>> 16) &&& 0xffff) bs := by
        refine doList_block _ _ hb ?_ hs1 (by omega)
        simp only [NMAX]; omega
      simp only [adler32_z_buf, hc1, if_false, hc16, if_true, hfold]
      have hsum := sum_le_of_bytes bs hb
      have c1 : (if BASE ≤ (adlerSum (a &&& 0xffff, (a >>> 16) &&& 0xffff) bs).1
            then (adlerSum (a &&& 0xffff, (a >>> 16) &&& 0xffff) bs).1 - BASE
            else (adlerSum (a &&& 0xffff, (a >>> 16) &&& 0xffff) bs).1) =
          (adlerSum (a &&& 0xffff, (a >>> 16) &&& 0xffff) bs).1 % BASE := by
        rw [adlerSum_fst]
        simp only [BASE]
        split <;> omega
      rw [c1]
    · -- len >= 16: the NMAX block loop plus the remainder
      have h16 : 16 ≤ bs.length := by omega
      have hk : bs.length / NMAX * NMAX ≤ bs.length := Nat.div_mul_le_self _ _
      obtain ⟨e2, e1f, e1s, epos, ezero⟩ :=
        adlerNBlocks_spec (bs.length / NMAX) (a &&& 0xffff, (a >>> 16) &&& 0xffff) bs
          hb hk hs1 (by omega)
      simp only [adler32_z_buf, hc1, if_false, hc16, if_true]
      set r := adlerNBlocks (bs.length / NMAX) (a &&& 0xffff, (a >>> 16) &&& 0xffff) bs with hr
      have hrest_len : r.2.length = bs.length - bs.length / NMAX * NMAX := by
        rw [e2, List.length_drop]
      have hmod : bs.length - bs.length / NMAX * NMAX = bs.length % NMAX := by
        have hdm := Nat.div_add_mod bs.length NMAX
        have hcm : bs.length / NMAX * NMAX = NMAX * (bs.length / NMAX) := Nat.mul_comm _ _
        omega
      have hrlt : r.2.length < NMAX := by
        rw [hrest_len, hmod]
        have : (0 : Nat) < NMAX := by norm_num [NMAX]
        exact Nat.mod_lt _ this
      by_cases hz : r.2.length = 0
      · -- no remainder: the whole buffer was a whole number of NMAX blocks
        simp only [hz, ne_eq, not_true_eq_false, if_false]
        have hkpos : 0 < bs.length / NMAX := by
          rcases Nat.eq_zero_or_pos (bs.length / NMAX) with h | h
          · exfalso
            rw [hrest_len, h, Nat.zero_mul, Nat.sub_zero] at hz
            omega
          · exact h
        obtain ⟨hlt1, hlt2⟩ := epos hkpos
        have htake : bs.take (bs.length / NMAX * NMAX) = bs := by
          apply List.take_of_length_le
          rw [hrest_len] at hz
          omega
        rw [htake] at e1f e1s
        rw [← Nat.mod_eq_of_lt hlt1, ← Nat.mod_eq_of_lt hlt2, e1f, e1s]
      · -- remainder: one more accumulation then MOD of both sums
        simp only [hz, ne_eq, not_false_eq_true, if_true]
        have hbrest : ∀ x ∈ r.2, x < 256 := by
          intro x hx
          rw [e2] at hx
          exact hb x (List.mem_of_mem_drop hx)
        have hple : r.1.1 < 65536 ∧ r.1.2 < 65536 := by
          rcases Nat.eq_zero_or_pos (bs.length / NMAX) with h | h
          · have hz0 := ezero h
            rw [hz0]
            exact ⟨by simpa using hs1, by simp; omega⟩
          · obtain ⟨u1, u2⟩ := epos h
            simp only [BASE] at u1 u2
            omega
        have hfold : doList r.1 r.2 = adlerSum r.1 r.2 :=
          doList_block _ _ hbrest (by omega) hple.1 hple.2
        rw [hfold]
        have hdecomp : bs = bs.take (bs.length / NMAX * NMAX) ++ r.2 := by
          rw [e2, List.take_append_drop]
        have hS : adlerSum (a &&& 0xffff, (a >>> 16) &&& 0xffff) bs =
            adlerSum (adlerSum (a &&& 0xffff, (a >>> 16) &&& 0xffff)
              (bs.take (bs.length / NMAX * NMAX))) r.2 := by
          conv_lhs => rw [hdecomp]
          rw [adlerSum_append]
        rw [hS]
        have cf := adlerSum_congr_fst r.1
          (adlerSum (a &&& 0xffff, (a >>> 16) &&& 0xffff) (bs.take (bs.length / NMAX * NMAX)))
          r.2 e1f
        have cs := adlerSum_congr_snd r.1
          (adlerSum (a &&& 0xffff, (a >>> 16) &&& 0xffff) (bs.take (bs.length / NMAX * NMAX)))
          r.2 e1f e1s
        rw [cf, cs]

/-- The high sum of an adler32_z result is reduced below BASE. -/
theorem adler32_z_buf_high_lt (a : Nat) (bs : List Nat)
    (hs2 : (a >>> 16) &&& 0xffff < BASE) (hb : ∀ b ∈ bs, b < 256) :
    ((adler32_z_buf a bs) >>> 16) &&& 0xffff < BASE := by
  have hin := adler32_z_buf_eq_ref a bs hs2 hb
  have hBpos : (0 : Nat) < BASE := by norm_num [BASE]
  have hx1lt : (adlerSum ((a &&& 0xffff), ((a >>> 16) &&& 0xffff)) bs).1 % BASE < 65536 := by
    have := Nat.mod_lt (adlerSum ((a &&& 0xffff), ((a >>> 16) &&& 0xffff)) bs).1 hBpos
    simp only [BASE] at this ⊢
    omega
  rw [hin, lor16_high _ _ hx1lt, and16_eq_mod]
  have := Nat.mod_lt (adlerSum ((a &&& 0xffff), ((a >>> 16) &&& 0xffff)) bs).2 hBpos
  simp only [BASE] at this ⊢
  omega

/-- Chunked updating composes: a second adler32_z call continues the first. -/
theorem adler32_z_buf_append (a : Nat) (X Y : List Nat)
    (hs2 : (a >>> 16) &&& 0xffff < BASE)
    (hX : ∀ b ∈ X, b < 256) (hY : ∀ b ∈ Y, b < 256) :
    adler32_z_buf (adler32_z_buf a X) Y = adler32_z_buf a (X ++ Y) := by
  have hxy : ∀ b ∈ X ++ Y, b < 256 := by
    intro b hbm
    rcases List.mem_append.mp hbm with h | h
    exacts [hX b h, hY b h]
  have hBpos : (0 : Nat) < BASE := by norm_num [BASE]
  have hin := adler32_z_buf_eq_ref a X hs2 hX
  have hx1lt : (adlerSum ((a &&& 0xffff), ((a >>> 16) &&& 0xffff)) X).1 % BASE < 65536 := by
    have := Nat.mod_lt (adlerSum ((a &&& 0xffff), ((a >>> 16) &&& 0xffff)) X).1 hBpos
    simp only [BASE] at this ⊢
    omega
  have hy1lt : (adlerSum ((a &&& 0xffff), ((a >>> 16) &&& 0xffff)) X).2 % BASE < BASE :=
    Nat.mod_lt _ hBpos
  have hlow : (adler32_z_buf a X) &&& 0xffff =
      (adlerSum ((a &&& 0xffff), ((a >>> 16) &&& 0xffff)) X).1 % BASE := by
    rw [hin]
    exact lor16_low _ _ hx1lt
  have hhigh : ((adler32_z_buf a X) >>> 16) &&& 0xffff =
      (adlerSum ((a &&& 0xffff), ((a >>> 16) &&& 0xffff)) X).2 % BASE := by
    rw [hin, lor16_high _ _ hx1lt, and16_eq_mod]
    apply Nat.mod_eq_of_lt
    simp only [BASE] at hy1lt ⊢
    omega
  have hout := adler32_z_buf_eq_ref (adler32_z_buf a X) Y (by rw [hhigh]; exact hy1lt) hY
  rw [hout, hlow, hhigh, adler32_z_buf_eq_ref a (X ++ Y) hs2 hxy, adlerSum_append]
  have cf := adlerSum_congr_fst
    ((adlerSum ((a &&& 0xffff), ((a >>> 16) &&& 0xffff)) X).1 % BASE,
     (adlerSum ((a &&& 0xffff), ((a >>> 16) &&& 0xffff)) X).2 % BASE)
    (adlerSum ((a &&& 0xffff), ((a >>> 16) &&& 0xffff)) X) Y
    (Nat.mod_mod_of_dvd _ dvd_rfl)
  have cs := adlerSum_congr_snd
    ((adlerSum ((a &&& 0xffff), ((a >>> 16) &&& 0xffff)) X).1 % BASE,
     (adlerSum ((a &&& 0xffff), ((a >>> 16) &&& 0xffff)) X).2 % BASE)
    (adlerSum ((a &&& 0xffff), ((a >>> 16) &&& 0xffff)) X) Y
    (Nat.mod_mod_of_dvd _ dvd_rfl) (Nat.mod_mod_of_dvd _ dvd_rfl)
  rw [cf, cs]

/-- Any partition into successive calls equals the whole-buffer call. -/
theorem adler32_chunks : ∀ (chunks : List (List Nat)) (a : Nat),
    (a >>> 16) &&& 0xffff < BASE →
    (∀ c ∈ chunks, ∀ b ∈ c, b < 256) → chunks ≠ [] →
    chunks.foldl (fun c ch => adler32_z_buf c ch) a = adler32_z_buf a chunks.flatten := by
  intro chunks
  induction chunks with
  | nil => intro a _ _ hne; cases hne rfl
  | cons ch t ih =>
    intro a hs2 hc hne
    have hch : ∀ b ∈ ch, b < 256 := hc ch (by simp)
    have hct : ∀ c ∈ t, ∀ b ∈ c, b < 256 := fun c hcm => hc c (by simp [hcm])
    rcases t with _ | ⟨ch2, t2⟩
    · simp
    · have hs2' := adler32_z_buf_high_lt a ch hs2 hch
      have step : (ch :: ch2 :: t2).foldl (fun c x => adler32_z_buf c x) a =
          (ch2 :: t2).foldl (fun c x => adler32_z_buf c x) (adler32_z_buf a ch) := rfl
      rw [step, ih (adler32_z_buf a ch) hs2' hct (by simp)]
      have hflat : ∀ b ∈ (ch2 :: t2).flatten, b < 256 := by
        intro b hbm
        obtain ⟨c, hcm, hbc⟩ := List.mem_flatten.mp hbm
        exact hct c hcm b hbc
      rw [adler32_z_buf_append a ch (ch2 :: t2).flatten hs2 hch hflat]
      simp

/-- C1, amended: for every initial accumulator a below 2^32 whose high 16
bits are already reduced below 65521 (as they are for 1 and for every value
adler32 returns), adler32 equals the reference accumulator definition, and
updating in chunks - any partition of the input into one or more successive
calls - gives the same result as one whole-buffer call. -/
theorem adler32_matches_reference (a : Nat) (A B : List Nat) (chunks : List (List Nat))
    (ha : a < 4294967296) (hs2 : a >>> 16 < BASE)
    (hA : ∀ b ∈ A, b < 256) (hB : ∀ b ∈ B, b < 256)
    (hchunks : ∀ c ∈ chunks, ∀ b ∈ c, b < 256) (hne : chunks ≠ []) :
    adler32 a (some (A ++ B)) (A ++ B).length = some (adlerRef a (A ++ B)) ∧
    (adler32 a (some A) A.length).bind (fun c => adler32 c (some B) B.length) =
      some (adlerRef a (A ++ B)) ∧
    chunks.foldl (fun c ch => adler32_z_buf c ch) a = adler32_z_buf a chunks.flatten := by
  have hsplit : a >>> 16 < 65536 := by
    rw [Nat.shiftRight_eq_div_pow]
    omega
  have hmask : (a >>> 16) &&& 0xffff = a >>> 16 := by
    rw [and16_eq_mod]
    exact Nat.mod_eq_of_lt hsplit
  have hmask1 : a &&& 0xffff = a % 65536 := and16_eq_mod a
  have hs2m : (a >>> 16) &&& 0xffff < BASE := by rw [hmask]; exact hs2
  have hrefeq : ∀ (bs : List Nat), (∀ b ∈ bs, b < 256) →
      adler32_z_buf a bs = adlerRef a bs := by
    intro bs hbs
    rw [adler32_z_buf_eq_ref a bs hs2m hbs, adlerRef, hmask, hmask1]
  have hxy : ∀ b ∈ A ++ B, b < 256 := by
    intro b hbm
    rcases List.mem_append.mp hbm with h | h
    exacts [hA b h, hB b h]
  refine ⟨?_, ?_, adler32_chunks chunks a hs2m hchunks hne⟩
  · simp only [adler32, adler32_z, le_refl, if_true, List.take_length]
    rw [hrefeq (A ++ B) hxy]
  · simp only [adler32, adler32_z, le_refl, if_true, List.take_length, Option.some_bind]
    rw [adler32_z_buf_append a A B hs2m hA hB, hrefeq (A ++ B) hxy]

/-- C1 witness: the amended statement at a = 1, A = [1,2], B = [3]. -/
theorem adler32_matches_reference_witness :
    adler32 1 (some ([1, 2] ++ [3])) ([1, 2] ++ [3] : List Nat).length =
      some (adlerRef 1 ([1, 2] ++ [3])) ∧
    (adler32 1 (some [1, 2]) ([1, 2] : List Nat).length).bind
      (fun c => adler32 c (some [3]) ([3] : List Nat).length) =
      some (adlerRef 1 ([1, 2] ++ [3])) ∧
    ([[1, 2], [3]] : List (List Nat)).foldl (fun c ch => adler32_z_buf c ch) 1 =
      adler32_z_buf 1 ([[1, 2], [3]] : List (List Nat)).flatten :=
  adler32_matches_reference 1 [1, 2] [3] [[1, 2], [3]] (by norm_num)
    (by decide) (by decide) (by decide) (by decide) (by decide)

/-- C1 counterexample: at the initial accumulator 0xFFFFFFF0 (high sum 65535,
not reduced) with a one-byte buffer, the len == 1 fast path leaves sum2 at
65534 after its single conditional subtraction while the reference reduces
modulo 65521 to 13, so the claim fails as stated for arbitrary initial
accumulators. -/
theorem adler32_reference_counterexample :
    adler32 4294967280 (some [0]) 1 ≠ some (adlerRef 4294967280 [0]) := by decide

/-- adler32_z at the required initial value 1, in reference form. -/
theorem adler32_z_buf_one (X : List Nat) (hX : ∀ b ∈ X, b < 256) :
    adler32_z_buf 1 X =
      ((adlerSum (1, 0) X).1 % BASE) ||| (((adlerSum (1, 0) X).2 % BASE) <<< 16) := by
  have h := adler32_z_buf_eq_ref 1 X (by decide) hX
  rw [show (1 : Nat) &&& 0xffff = 1 from rfl,
      show ((1 : Nat) >>> 16) &&& 0xffff = 0 from rfl] at h
  exact h

set_option maxRecDepth 4000 in
/-- Evaluation of adler32_combine on two recombined checksums with reduced
component sums: all four conditional subtractions together reduce modulo
BASE. -/
theorem combine_eval (x1 y1 x2 y2 len : Nat)
    (hx1 : x1 < BASE) (hy1 : y1 < BASE) (hx2 : x2 < BASE) (hy2 : y2 < BASE) :
    adler32_combine (x1 ||| (y1 <<< 16)) (x2 ||| (y2 <<< 16)) ((len : Nat) : Int) =
      ((x1 + x2 + BASE - 1) % BASE) |||
      ((((len % BASE) * x1 % BASE + y1 + y2 + BASE - len % BASE) % BASE) <<< 16) := by
  have hx1' : x1 < 65536 := by simp only [BASE] at hx1; omega
  have hx2' : x2 < 65536 := by simp only [BASE] at hx2; omega
  have hy1' : y1 < 65536 := by simp only [BASE] at hy1; omega
  have hy2' : y2 < 65536 := by simp only [BASE] at hy2; omega
  have hnn : ¬(((len : Nat) : Int) < 0) := by
    exact not_lt.mpr (Int.natCast_nonneg len)
  simp only [adler32_combine, adler32_combine_, hnn, if_false, Int.toNat_natCast]
  rw [lor16_low x1 y1 hx1', lor16_low x2 y2 hx2']
  rw [lor16_high x1 y1 hx1', lor16_high x2 y2 hx2']
  rw [and16_eq_mod y1, and16_eq_mod y2, Nat.mod_eq_of_lt hy1', Nat.mod_eq_of_lt hy2']
  have hrem : len % BASE < BASE := Nat.mod_lt _ (by norm_num [BASE])
  have hmul : (len % BASE) * x1 % BASE < BASE := Nat.mod_lt _ (by norm_num [BASE])
  have hsh : (BASE <<< 1 : Nat) = 2 * BASE := by
    rw [Nat.shiftLeft_eq]
    simp only [BASE]
  refine congr_arg₂ (fun u v : Nat => u ||| (v <<< 16)) ?_ ?_
  · simp only [BASE] at hx1 hx2 hy1 hy2 ⊢
    split_ifs <;> omega
  · rw [hsh]
    generalize hm : len % BASE * x1 % BASE = m
    have hmul2 : m < BASE := by rw [← hm]; exact hmul
    simp only [BASE] at hmul2 hrem hx1 hx2 hy1 hy2 ⊢
    split_ifs <;> omega

/-- C2: combining the Adler-32 checksums of A and B with only |B| yields the
Adler-32 of the concatenation A ++ B. -/
theorem adler32_combine_concat (A B : List Nat)
    (hA : ∀ b ∈ A, b < 256) (hB : ∀ b ∈ B, b < 256) :
    adler32 1 (some (A ++ B)) (A ++ B).length =
      some (adler32_combine (adler32_z_buf 1 A) (adler32_z_buf 1 B) (B.length : Int)) := by
  have hAB : ∀ b ∈ A ++ B, b < 256 := by
    intro b hbm
    rcases List.mem_append.mp hbm with h | h
    exacts [hA b h, hB b h]
  have hBpos : (0 : Nat) < BASE := by norm_num [BASE]
  simp only [adler32, adler32_z, le_refl, if_true, List.take_length]
  rw [adler32_z_buf_one A hA, adler32_z_buf_one B hB, adler32_z_buf_one (A ++ B) hAB]
  rw [combine_eval _ _ _ _ B.length (Nat.mod_lt _ hBpos) (Nat.mod_lt _ hBpos)
      (Nat.mod_lt _ hBpos) (Nat.mod_lt _ hBpos)]
  refine congrArg some (congr_arg₂ (fun u v : Nat => u ||| (v <<< 16)) ?_ ?_)
  · have f1 : (adlerSum (1, 0) (A ++ B)).1 = (adlerSum (1, 0) A).1 + B.sum := by
      rw [adlerSum_append, adlerSum_fst]
    have f2 : (adlerSum (1, 0) B).1 = 1 + B.sum := by
      rw [adlerSum_fst]
    have f3 : 1 ≤ (adlerSum (1, 0) A).1 := by
      rw [adlerSum_fst]
      omega
    simp only [BASE]
    simp only [BASE] at f1 f2 f3
    omega
  · have g1 : (adlerSum (1, 0) (A ++ B)).2 = (adlerSum (1, 0) A).2 +
        B.length * (adlerSum (1, 0) A).1 + (adlerSum (0, 0) B).2 := by
      rw [adlerSum_append, adlerSum_snd]
    have g2 : (adlerSum (1, 0) B).2 = B.length + (adlerSum (0, 0) B).2 := by
      rw [adlerSum_snd]
      simp
    have hP : (B.length % BASE) * ((adlerSum (1, 0) A).1 % BASE) % BASE =
        (B.length * (adlerSum (1, 0) A).1) % BASE :=
      (Nat.ModEq.mul (Nat.mod_modEq _ _) (Nat.mod_modEq _ _))
    simp only [BASE]
    simp only [BASE] at hP
    omega

/-- C2 witness: the combine law at A = [5, 6], B = [7]. -/
theorem adler32_combine_concat_witness :
    adler32 1 (some ([5, 6] ++ [7])) (([5, 6] ++ [7] : List Nat)).length =
      some (adler32_combine (adler32_z_buf 1 [5, 6]) (adler32_z_buf 1 [7])
        (([7] : List Nat).length : Int)) :=
  adler32_combine_concat [5, 6] [7] (by decide) (by decide)

/-- C9: starting one NMAX block from reduced sums, the exact component sums
of every intermediate state (every taken initial segment) fit in 32 bits, so
the mod-2^32 accumulation of the block equals the exact one. -/
theorem adler32_nmax_no_overflow (p : Nat × Nat) (bs : List Nat)
    (h1 : p.1 < BASE) (h2 : p.2 < BASE) (hn : bs.length ≤ NMAX)
    (hb : ∀ b ∈ bs, b < 256) :
    (∀ k, (adlerSum p (bs.take k)).1 ≤ 4294967295 ∧
      (adlerSum p (bs.take k)).2 ≤ 4294967295) ∧
    doList p bs = adlerSum p bs := by
  constructor
  · intro k
    have hbk : ∀ x ∈ bs.take k, x < 256 := fun x hx => hb x (List.mem_of_mem_take hx)
    have hlk : (bs.take k).length ≤ 5552 := by
      have h := List.length_take k bs
      simp only [NMAX] at hn
      omega
    have hf := adlerSum_fst p (bs.take k)
    have hsle := sum_le_of_bytes _ hbk
    have hsnd := adlerSum_snd p (bs.take k)
    have hW := adlerW_le _ hbk
    have hm1 : (bs.take k).length * p.1 ≤ 5552 * 65520 := by
      apply Nat.mul_le_mul hlk
      simp only [BASE] at h1
      omega
    have hm2 : (bs.take k).length * ((bs.take k).length + 1) ≤ 5552 * 5553 :=
      Nat.mul_le_mul hlk (by omega)
    constructor
    · simp only [BASE] at h1
      omega
    · simp only [BASE] at h2
      omega
  · refine doList_block p bs hb hn ?_ ?_ <;> simp only [BASE] at h1 h2 <;> omega

/-- C9 witness: the no-overflow statement at p = (1, 0), bs = [10, 20, 255]. -/
theorem adler32_nmax_no_overflow_witness :
    (∀ k, (adlerSum (1, 0) (([10, 20, 255] : List Nat).take k)).1 ≤ 4294967295 ∧
      (adlerSum (1, 0) (([10, 20, 255] : List Nat).take k)).2 ≤ 4294967295) ∧
    doList (1, 0) [10, 20, 255] = adlerSum (1, 0) [10, 20, 255] :=
  adler32_nmax_no_overflow (1, 0) [10, 20, 255] (by decide) (by decide)
    (by decide) (by decide)

/-- C10: with a Z_NULL buffer and len different from 1, adler32 and adler32_z
return the initial checksum value 1 whatever the running value and length;
len = 1 would dereference the null buffer, so the guarantee carries the
precondition len different from 1. -/
theorem adler32_null_buffer (a len : Nat) (h : len ≠ 1) :
    adler32_z a none len = some 1 ∧ adler32 a none len = some 1 := by
  constructor <;> simp [adler32, adler32_z, h]

/-- C10 witness: a = 12345, len = 0. -/
theorem adler32_null_buffer_witness :
    adler32_z 12345 none 0 = some 1 ∧ adler32 12345 none 0 = some 1 :=
  adler32_null_buffer 12345 0 (by decide)

/-! ### Bit accumulator and input stream lemmas -/

theorem natOfBits_testBits : ∀ (n x : Nat),
    natOfBits ((List.range n).map (fun i => x.testBit i)) = x % 2 ^ n := by
  intro n
  induction n with
  | zero => intro x; simp [natOfBits, Nat.mod_one]
  | succ n ih =>
    intro x
    rw [List.range_succ_eq_map, List.map_cons, List.map_map]
    have hc : (fun i => x.testBit i) ∘ Nat.succ = fun i => (x / 2).testBit i := by
      funext i
      simp [Function.comp, Nat.testBit_succ]
    rw [hc]
    simp only [natOfBits, ih (x / 2)]
    have hp : 2 ^ (n + 1) = 2 * 2 ^ n := by ring
    have hmm : x % (2 * 2 ^ n) = x % 2 + 2 * (x / 2 % 2 ^ n) := Nat.mod_mul
    rw [hp, hmm]
    rcases Nat.mod_two_eq_zero_or_one x with h | h <;>
      simp [Nat.testBit_zero, h] <;> omega

theorem holdBits_length (hold bits : Nat) : (holdBits hold bits).length = bits := by
  simp [holdBits]

theorem take_holdBits (hold bits n : Nat) (h : n ≤ bits) :
    (holdBits hold bits).take n = holdBits hold n := by
  simp only [holdBits]
  rw [← List.map_take]
  congr 1
  apply List.ext_getElem
  · simp
    omega
  · intro i h1 h2
    simp

theorem natOfBits_holdBits (hold n : Nat) :
    natOfBits (holdBits hold n) = hold % 2 ^ n := natOfBits_testBits n hold

/-- BITS(n) reads the first n obtainable stream bits when they are held. -/
theorem BITSm_eq_stream (st : St) (n : Nat) (hn : n ≤ st.bits) :
    BITSm n st.hold = natOfBits ((bitsAvail st).take n) := by
  have h1pow : (1 : Nat) <<< n = 2 ^ n := by
    rw [Nat.shiftLeft_eq]
    omega
  have hmask : BITSm n st.hold = st.hold % 2 ^ n := by
    rw [BITSm, h1pow, Nat.and_pow_two_sub_one_eq_mod]
  rw [hmask, bitsAvail, List.take_append_of_le_length (by rw [holdBits_length]; exact hn),
    take_holdBits _ _ _ hn, natOfBits_holdBits]

theorem dropbits_bitsAvail (st : St) (n : Nat) (hg : GoodBits st) (hn : n ≤ st.bits) :
    bitsAvail (dropbits n st) = (bitsAvail st).drop n ∧ GoodBits (dropbits n st) ∧
    (dropbits n st).bits = st.bits - n := by
  have hg' : GoodBits (dropbits n st) := by
    simp only [GoodBits, dropbits] at hg ⊢
    rw [Nat.shiftRight_eq_div_pow]
    have : st.hold < 2 ^ n * 2 ^ (st.bits - n) := by
      rw [← Nat.pow_add]
      have : n + (st.bits - n) = st.bits := by omega
      rw [this]
      exact hg
    exact Nat.div_lt_of_lt_mul (by omega)
  refine ⟨?_, hg', rfl⟩
  simp only [bitsAvail]
  have hrem : remBytes (dropbits n st) = remBytes st := rfl
  rw [hrem, List.drop_append_of_le_length (by rw [holdBits_length]; exact hn)]
  congr 1
  simp only [holdBits, dropbits]
  have hlen : st.bits - n = (List.range st.bits).length - n := by simp
  rw [← List.map_drop]
  have hr : (List.range st.bits).drop n = (List.range (st.bits - n)).map (fun i => n + i) := by
    apply List.ext_getElem
    · simp
    · intro i h1 h2
      simp only [List.getElem_drop, List.getElem_map, List.getElem_range]
  rw [hr, List.map_map]
  congr 1
  funext i
  simp only [Function.comp]
  rw [Nat.testBit_shiftRight]

/-- Extending the accumulator with one byte appends its eight bits. -/
theorem holdBits_add (hold bits b : Nat) (hg : hold < 2 ^ bits) :
    holdBits (hold + (b <<< bits)) (bits + 8) = holdBits hold bits ++ byteBits b := by
  simp only [holdBits, byteBits]
  have hsplit : List.range (bits + 8) =
      List.range bits ++ (List.range 8).map (fun i => bits + i) := by
    apply List.ext_getElem
    · simp
    · intro i h1 h2
      by_cases hlt : i < bits
      · rw [List.getElem_append_left (by simpa using hlt)]
        simp [List.getElem_range]
      · rw [List.getElem_append_right (by simpa using hlt)]
        simp only [List.getElem_map, List.getElem_range, List.length_range]
        simp only [List.length_range] at h1
        omega
  rw [hsplit, List.map_append, List.map_map]
  congr 1
  · apply List.map_congr_left
    intro i hi
    simp only [List.mem_range] at hi
    have e1 : (hold + (b <<< bits)) % 2 ^ bits = hold % 2 ^ bits := by
      rw [Nat.shiftLeft_eq, Nat.mul_comm, Nat.add_mul_mod_self_left]
    have t1 := Nat.testBit_mod_two_pow (hold + (b <<< bits)) bits i
    have t2 := Nat.testBit_mod_two_pow hold bits i
    rw [e1, t2] at t1
    have hd : decide (i < bits) = true := by simp [hi]
    rw [hd] at t1
    simp only [Bool.true_and] at t1
    exact t1.symm
  · apply List.map_congr_left
    intro i _
    simp only [Function.comp]
    have hshift : (hold + (b <<< bits)) >>> bits = b := by
      rw [Nat.shiftRight_eq_div_pow, Nat.shiftLeft_eq,
        Nat.add_mul_div_right _ _ (Nat.two_pow_pos bits), Nat.div_eq_of_lt hg]
      omega
    have := Nat.testBit_shiftRight (hold + (b <<< bits)) (i := bits) (j := i)
    rw [hshift] at this
    exact this.symm

/-- A successful PULLBYTE moves the first obtainable byte into the
accumulator: the obtainable bit stream is unchanged, eight more bits are
held, and everything outside the input cursor and accumulator is untouched. -/
theorem pullByte_ok_spec (st st' : St) (h : pullByte st = Except.ok st')
    (hg : GoodBits st) (hB : ByteInput st) :
    bitsAvail st' = bitsAvail st ∧ GoodBits st' ∧ ByteInput st' ∧
    st'.bits = st.bits + 8 ∧
    st'.mode = st.mode ∧ st'.last = st.last ∧ st'.wsize = st.wsize ∧
    st'.window = st.window ∧ st'.whave = st.whave ∧ st'.length = st.length ∧
    st'.offset = st.offset ∧ st'.lens = st.lens ∧ st'.havec = st.havec ∧
    st'.nlen = st.nlen ∧ st'.ndist = st.ndist ∧ st'.ncode = st.ncode ∧
    st'.lencode = st.lencode ∧ st'.lenbits = st.lenbits ∧
    st'.distcode = st.distcode ∧ st'.distbits = st.distbits ∧
    st'.msg = st.msg ∧ st'.put = st.put ∧ st'.left = st.left ∧
    st'.outs = st.outs ∧ st'.written = st.written ∧
    st'.inFail = st.inFail ∧ st'.outFail = st.outFail := by
  have goodStep : ∀ b : Nat, b < 256 → st.hold + (b <<< st.bits) < 2 ^ (st.bits + 8) := by
    intro b hb
    have h2 : b <<< st.bits = b * 2 ^ st.bits := Nat.shiftLeft_eq b st.bits
    have h3 : 2 ^ (st.bits + 8) = 2 ^ st.bits * 256 := by rw [Nat.pow_add]
    have h4 : b * 2 ^ st.bits ≤ 255 * 2 ^ st.bits := Nat.mul_le_mul_right _ (by omega)
    have h1 : st.hold < 2 ^ st.bits := hg
    omega
  unfold pullByte at h
  split at h
  case h_1 b rest heq =>
    cases h
    have hb : b < 256 := hB.1 b (by rw [heq]; simp)
    have hrm : remBytes st = b :: remBytes {st with next := rest, hold := st.hold + (b <<< st.bits), bits := st.bits + 8} := by
      simp [remBytes, heq]
    refine ⟨?_, goodStep b hb, ⟨fun x hx => hB.1 x (by rw [heq]; simp [hx]), hB.2⟩,
      rfl, rfl, rfl, rfl, rfl, rfl, rfl, rfl, rfl, rfl, rfl, rfl, rfl, rfl,
      rfl, rfl, rfl, rfl, rfl, rfl, rfl, rfl, rfl, rfl⟩
    simp only [bitsAvail]
    rw [hrm, holdBits_add st.hold st.bits b hg]
    simp [List.append_assoc]
  case h_2 heq =>
    split at h
    case h_1 => cases h
    case h_2 =>
      split at h
      case h_1 => cases h
      case h_2 =>
        cases h
        rename_i rest chunk b cr heq2
        have hb : b < 256 := hB.2 (b :: cr) (by rw [heq2]; simp) b (by simp)
        have hrm : remBytes st = b :: remBytes {st with next := cr, ins := rest, nextNull := false, hold := st.hold + (b <<< st.bits), bits := st.bits + 8} := by
          simp [remBytes, heq, heq2]
        have hBI : ByteInput {st with next := cr, ins := rest, nextNull := false, hold := st.hold + (b <<< st.bits), bits := st.bits + 8} := by
          constructor
          · intro x hx
            exact hB.2 (b :: cr) (by rw [heq2]; simp) x (by simp [hx])
          · intro c hc
            refine hB.2 c ?_
            rw [heq2]
            simp
            exact Or.inr hc
        refine ⟨?_, goodStep b hb, hBI,
          rfl, rfl, rfl, rfl, rfl, rfl, rfl, rfl, rfl, rfl, rfl, rfl, rfl, rfl,
          rfl, rfl, rfl, rfl, rfl, rfl, rfl, rfl, rfl, rfl⟩
        simp only [bitsAvail]
        rw [hrm, holdBits_add st.hold st.bits b hg]
        simp [List.append_assoc]


/-! ### Byte-pull chains preserve the obtainable bit stream -/

theorem SameOuter_refl (st : St) : SameOuter st st := by
  simp [SameOuter]

theorem SameOuter_trans (a b c : St) (h1 : SameOuter a b) (h2 : SameOuter b c) :
    SameOuter a c := by
  obtain ⟨a1,a2,a3,a4,a5,a6,a7,a8,a9,a10,a11,a12,a13,a14,a15,a16,a17,a18,a19,a20,a21,a22,a23⟩ := h1
  obtain ⟨b1,b2,b3,b4,b5,b6,b7,b8,b9,b10,b11,b12,b13,b14,b15,b16,b17,b18,b19,b20,b21,b22,b23⟩ := h2
  exact ⟨b1.trans a1, b2.trans a2, b3.trans a3, b4.trans a4, b5.trans a5, b6.trans a6,
    b7.trans a7, b8.trans a8, b9.trans a9, b10.trans a10, b11.trans a11, b12.trans a12,
    b13.trans a13, b14.trans a14, b15.trans a15, b16.trans a16, b17.trans a17,
    b18.trans a18, b19.trans a19, b20.trans a20, b21.trans a21, b22.trans a22, b23.trans a23⟩

theorem pullByte_ok_outer (st st' : St) (h : pullByte st = Except.ok st')
    (hg : GoodBits st) (hB : ByteInput st) :
    bitsAvail st' = bitsAvail st ∧ GoodBits st' ∧ ByteInput st' ∧
    st'.bits = st.bits + 8 ∧ SameOuter st st' := by
  have H := pullByte_ok_spec st st' h hg hB
  exact ⟨H.1, H.2.1, H.2.2.1, H.2.2.2.1, H.2.2.2.2⟩

theorem pullBytes_ok_spec (k : Nat) (st st' : St) (h : pullBytes k st = Except.ok st')
    (hg : GoodBits st) (hB : ByteInput st) :
    bitsAvail st' = bitsAvail st ∧ GoodBits st' ∧ ByteInput st' ∧
    st'.bits = st.bits + 8 * k ∧ SameOuter st st' := by
  induction k generalizing st with
  | zero =>
    simp only [pullBytes] at h
    cases h
    exact ⟨rfl, hg, hB, by omega, SameOuter_refl st'⟩
  | succ k ih =>
    rw [pullBytes] at h
    cases heq : pullByte st with
    | error e => rw [heq] at h; cases h
    | ok stm =>
      rw [heq] at h
      obtain ⟨e1, g1, b1, q1, s1⟩ := pullByte_ok_outer st stm heq hg hB
      obtain ⟨e2, g2, b2, q2, s2⟩ := ih stm h g1 b1
      exact ⟨e2.trans e1, g2, b2, by omega, SameOuter_trans st stm st' s1 s2⟩

theorem needbits_ok_spec (n : Nat) (st st' : St) (h : needbits n st = Except.ok st')
    (hg : GoodBits st) (hB : ByteInput st) :
    bitsAvail st' = bitsAvail st ∧ GoodBits st' ∧ ByteInput st' ∧ n ≤ st'.bits ∧
    st'.bits = (if st.bits < n then st.bits + 8 * ((n - st.bits + 7) / 8) else st.bits) ∧
    SameOuter st st' := by
  unfold needbits at h
  split at h
  case isTrue hlt =>
    obtain ⟨e, g, b, q, sm⟩ := pullBytes_ok_spec _ st st' h hg hB
    refine ⟨e, g, b, by omega, by simp only [if_pos hlt]; omega, sm⟩
  case isFalse hge =>
    cases h
    exact ⟨rfl, hg, hB, by omega, by simp only [if_neg hge], SameOuter_refl st⟩


/-! ### The stored-block path -/

theorem pull_ok_spec (st st' : St) (h : pull st = Except.ok st') :
    remBytes st' = remBytes st ∧ st'.next ≠ [] ∧ st'.hold = st.hold ∧
    st'.bits = st.bits ∧ SameOuter st st' := by
  unfold pull at h
  split at h
  case isTrue hemp =>
    split at h
    case h_1 => cases h
    case h_2 chunk rest heq =>
      split at h
      case isTrue => cases h
      case isFalse hne =>
        cases h
        have hnil : st.next = [] := List.isEmpty_iff.mp hemp
        have hne' : chunk.isEmpty = false := by
          cases hc : chunk.isEmpty
          · rfl
          · exact absurd hc hne
        refine ⟨?_, ?_, rfl, rfl, by simp [SameOuter]⟩
        · simp [remBytes, hnil, heq, List.takeWhile_cons, hne']
        · simp only []
          intro hc
          rw [hc] at hne'
          simp [List.isEmpty] at hne'
  case isFalse hemp =>
    cases h
    refine ⟨rfl, ?_, rfl, rfl, SameOuter_refl st⟩
    intro hc
    exact hemp (by simp [hc])

theorem room_ok_spec (st st' : St) (h : room st = Except.ok st') :
    st'.next = st.next ∧ st'.ins = st.ins ∧ st'.hold = st.hold ∧
    st'.bits = st.bits ∧ st'.written = st.written ∧ st'.length = st.length ∧
    st'.wsize = st.wsize ∧ st'.mode = st.mode ∧ st'.last = st.last ∧
    (0 < st.wsize → 0 < st'.left) := by
  unfold room at h
  split at h
  case isTrue hz =>
    dsimp only at h
    rcases hp : popOut {st with put := 0, left := st.wsize, whave := st.wsize} with ⟨b, st2⟩
    rw [hp] at h
    have hfacts : st2.next = st.next ∧ st2.ins = st.ins ∧ st2.hold = st.hold ∧
        st2.bits = st.bits ∧ st2.written = st.written ∧ st2.length = st.length ∧
        st2.wsize = st.wsize ∧ st2.mode = st.mode ∧ st2.last = st.last ∧
        st2.left = st.wsize := by
      unfold popOut at hp
      split at hp <;> cases hp <;> simp
    cases b
    · cases h
      obtain ⟨t1, t2, t3, t4, t5, t6, t7, t8, t9, t10⟩ := hfacts
      exact ⟨t1, t2, t3, t4, t5, t6, t7, t8, t9, fun hw => by omega⟩
    · cases h
  case isFalse hz =>
    cases h
    exact ⟨rfl, rfl, rfl, rfl, rfl, rfl, rfl, rfl, rfl, fun _ => by omega⟩

theorem storedCopyLoop_ok (fuel : Nat) (st st' : St)
    (h : storedCopyLoop fuel st = Except.ok st')
    (hf : st.length ≤ fuel) (hw : 0 < st.wsize) :
    st'.written = st.written ++ (remBytes st).take st.length ∧
    st.length ≤ (remBytes st).length := by
  induction fuel generalizing st with
  | zero =>
    simp only [storedCopyLoop] at h
    cases h
    have h0 : st'.length = 0 := Nat.le_zero.mp hf
    simp [h0]
  | succ fuel ih =>
    rw [storedCopyLoop] at h
    by_cases h0 : st.length = 0
    · rw [if_pos h0] at h
      cases h
      simp [h0]
    · rw [if_neg h0] at h
      cases hpull : pull st with
      | error e => rw [hpull] at h; cases h
      | ok st1 =>
        rw [hpull] at h
        dsimp only at h
        obtain ⟨hrem1, hne1, _, _, hs1⟩ := pull_ok_spec st st1 hpull
        obtain ⟨m1, m2, m3, m4, m5, m6, m7, m8, m9, m10, m11, m12, m13, m14, m15, m16,
          m17, m18, m19, m20, m21, m22, m23⟩ := hs1
        cases hroom : room st1 with
        | error e => rw [hroom] at h; cases h
        | ok st2 =>
          rw [hroom] at h
          dsimp only at h
          obtain ⟨rn, ri, _, _, rwr, rl, rws, _, _, rleft⟩ := room_ok_spec st1 st2 hroom
          have hw1 : 0 < st1.wsize := by rw [m3]; exact hw
          have hl2 : st2.length = st.length := by rw [rl, m6]
          have hw2 : st2.written = st.written := by rw [rwr, m21]
          have hrem2 : remBytes st2 = remBytes st := by
            rw [remBytes, rn, ri, ← remBytes, hrem1]
          have hne2 : st2.next ≠ [] := by rw [rn]; exact hne1
          have hlp : 0 < st2.left := rleft hw1
          have hcpos : 0 < min (min st2.length st2.next.length) st2.left := by
            have h1 : 0 < st2.length := by omega
            have h2 : 0 < st2.next.length := List.length_pos.mpr hne2
            omega
          set copy := min (min st2.length st2.next.length) st2.left with hcopy
          have hcle : copy ≤ st2.next.length := by omega
          have hclen : copy ≤ st2.length := by omega
          set st3 : St := {st2 with
            next := st2.next.drop copy,
            window := writeList st2.window st2.put (st2.next.take copy),
            put := st2.put + copy,
            left := st2.left - copy,
            length := st2.length - copy,
            written := st2.written ++ st2.next.take copy} with hst3
          have hf3 : st3.length ≤ fuel := by
            simp only [hst3]
            omega
          have hw3 : 0 < st3.wsize := by
            simp only [hst3]
            rw [rws]
            exact hw1
          have hrem3 : remBytes st3 = (remBytes st2).drop copy := by
            simp only [hst3, remBytes]
            rw [List.drop_append_of_le_length hcle]
          have htake : (remBytes st2).take copy = st2.next.take copy := by
            rw [remBytes, List.take_append_of_le_length hcle]
          obtain ⟨ihw, ihl⟩ := ih st3 h hf3 hw3
          constructor
          · have l1 : st3.written = st.written ++ (remBytes st).take copy := by
              simp only [hst3]
              rw [hw2, ← htake, hrem2]
            have l2 : (remBytes st3).take st3.length =
                ((remBytes st).drop copy).take (st.length - copy) := by
              rw [hrem3, hrem2]
              congr 1
              simp only [hst3]
              omega
            rw [ihw, l1, l2, List.append_assoc, ← List.take_add]
            have hcl : copy + (st.length - copy) = st.length := by omega
            rw [hcl]
          · have hlen3 : st3.length = st.length - copy := by simp only [hst3]; omega
            have hr3 : (remBytes st3).length = (remBytes st).length - copy := by
              rw [hrem3, hrem2, List.length_drop]
            rw [hlen3, hr3] at ihl
            have hcr : copy ≤ (remBytes st).length := by
              rw [← hrem2, remBytes, List.length_append]
              omega
            omega

theorem infLeave_fst (r : Int) (st : St) (hne : r ≠ Z_STREAM_END) :
    (infLeave r st).1 = r := by
  unfold infLeave
  split
  · rcases hp : popOut st with ⟨b, st1⟩
    cases b
    · rfl
    · simp [if_neg hne]
  · rfl

theorem runLoop_data_error (fuel : Nat) (st : St) (h : st.mode = Mode.BAD) :
    ∃ stf, runLoop (fuel + 1) st = some (Z_DATA_ERROR, stf) := by
  have hs : stepOnce st = StepR.leave Z_DATA_ERROR st := by
    rw [stepOnce, h]
  rcases hp : infLeave Z_DATA_ERROR st with ⟨r1, s1⟩
  have h1 : r1 = Z_DATA_ERROR := by
    have := infLeave_fst Z_DATA_ERROR st (by decide)
    rw [hp] at this
    exact this
  refine ⟨s1, ?_⟩
  rw [runLoop, hs]
  dsimp only
  rw [hp, h1]

theorem storedBody_eval (st st1 : St) (h1 : needbits 32 (bytebits st) = Except.ok st1) :
    storedBody st =
      (if st1.hold &&& 0xffff ≠ ((st1.hold >>> 16) ^^^ 0xffff) then
        Except.ok (setBad "invalid stored block lengths" st1)
      else
        match storedCopyLoop (st1.hold &&& 0xffff)
            (initbits {st1 with length := st1.hold &&& 0xffff}) with
        | .error e => .error e
        | .ok st3 => .ok {st3 with mode := Mode.TYPE}) := by
  simp only [storedBody]
  rw [h1]
  rfl

/-- C3: inflateBack's stored-block handling: the bit stream is first aligned
to a byte boundary, then the next two 16-bit fields are read; if they are not
exact one's complements the block is rejected with Z_DATA_ERROR and message
"invalid stored block lengths", and otherwise exactly `len` raw input bytes
(the 16-bit length read) are appended to the output before returning to the
block-type state. -/
theorem inflateBack_stored_block (st : St) (hg : GoodBits st) (hB : ByteInput st)
    (hb : st.bits ≤ 32) (hw : 0 < st.wsize) :
    ∀ st1, needbits 32 (bytebits st) = Except.ok st1 →
      ((st1.hold &&& 0xffff) = natOfBits (((bitsAvail st).drop (st.bits % 8)).take 16) ∧
       (st1.hold >>> 16) = natOfBits ((((bitsAvail st).drop (st.bits % 8)).drop 16).take 16)) ∧
      ((st1.hold &&& 0xffff) ≠ ((st1.hold >>> 16) ^^^ 0xffff) →
        storedBody st = Except.ok (setBad "invalid stored block lengths" st1) ∧
        (setBad "invalid stored block lengths" st1).mode = Mode.BAD ∧
        (setBad "invalid stored block lengths" st1).msg = some "invalid stored block lengths" ∧
        ∀ fuel, ∃ stf, runLoop (fuel + 1) (setBad "invalid stored block lengths" st1) =
          some (Z_DATA_ERROR, stf)) ∧
      ((st1.hold &&& 0xffff) = ((st1.hold >>> 16) ^^^ 0xffff) →
        ∀ st', storedBody st = Except.ok st' →
          st'.mode = Mode.TYPE ∧
          st'.written = st.written ++ (remBytes st1).take (st1.hold &&& 0xffff) ∧
          (st1.hold &&& 0xffff) ≤ (remBytes st1).length) := by
  intro st1 h1
  have hand7 : st.bits &&& 7 = st.bits % 8 := by
    have h := Nat.and_pow_two_sub_one_eq_mod st.bits 3
    norm_num at h
    exact h
  have hble : st.bits &&& 7 ≤ st.bits := by rw [hand7]; omega
  obtain ⟨d1, d2, d3⟩ := dropbits_bitsAvail st (st.bits &&& 7) hg hble
  obtain ⟨e1, g1, b1, hge, hbits1, sm1⟩ := needbits_ok_spec 32 (bytebits st) st1 h1 d2 hB
  obtain ⟨n1, n2, n3, n4, n5, n6, n7, n8, n9, n10, n11, n12, n13, n14, n15, n16,
    n17, n18, n19, n20, n21, n22, n23⟩ := sm1
  have hbits0 : (bytebits st).bits = st.bits - st.bits % 8 := by
    have : (bytebits st).bits = st.bits - (st.bits &&& 7) := d3
    rw [this, hand7]
  have hb1 : st1.bits = 32 := by
    rw [hbits1, hbits0]
    split_ifs with hc
    · omega
    · omega
  have hg32 : st1.hold < 4294967296 := by
    have h := g1
    rw [GoodBits, hb1] at h
    norm_num at h
    exact h
  have hstream1 : bitsAvail st1 = (bitsAvail st).drop (st.bits % 8) := by
    rw [e1]
    have : bitsAvail (bytebits st) = (bitsAvail st).drop (st.bits &&& 7) := d1
    rw [this, hand7]
  have hlow : st1.hold &&& 0xffff =
      natOfBits (((bitsAvail st).drop (st.bits % 8)).take 16) := by
    have hh := BITSm_eq_stream st1 16 (by omega)
    rw [hstream1] at hh
    have hBm : BITSm 16 st1.hold = st1.hold &&& 0xffff := by
      have e : (1 : Nat) <<< 16 - 1 = 0xffff := by decide
      rw [BITSm, e]
    rw [← hBm]
    exact hh
  have hhigh : st1.hold >>> 16 =
      natOfBits ((((bitsAvail st).drop (st.bits % 8)).drop 16).take 16) := by
    obtain ⟨dd1, dd2, dd3⟩ := dropbits_bitsAvail st1 16 g1 (by omega)
    have hbitsd : (dropbits 16 st1).bits = 16 := by rw [dd3, hb1]
    have hgd : (dropbits 16 st1).hold < 65536 := by
      have h := dd2
      rw [GoodBits, hbitsd] at h
      norm_num at h
      exact h
    have hh := BITSm_eq_stream (dropbits 16 st1) 16 (by rw [hbitsd])
    rw [dd1, hstream1] at hh
    have hBm : BITSm 16 (dropbits 16 st1).hold = (dropbits 16 st1).hold := by
      have e : (1 : Nat) <<< 16 - 1 = 0xffff := by decide
      rw [BITSm, e, and16_eq_mod]
      exact Nat.mod_eq_of_lt hgd
    have hdh : (dropbits 16 st1).hold = st1.hold >>> 16 := rfl
    rw [← hdh, ← hBm]
    exact hh
  refine ⟨⟨hlow, hhigh⟩, ?_, ?_⟩
  · intro hne
    refine ⟨?_, rfl, rfl, fun fuel => runLoop_data_error fuel _ rfl⟩
    rw [storedBody_eval st st1 h1, if_pos hne]
  · intro heq st' hok
    have hne' : ¬(st1.hold &&& 0xffff ≠ ((st1.hold >>> 16) ^^^ 0xffff)) :=
      fun hc => hc heq
    rw [storedBody_eval st st1 h1, if_neg hne'] at hok
    set st2 : St := initbits {st1 with length := st1.hold &&& 0xffff} with hst2
    cases hsc : storedCopyLoop (st1.hold &&& 0xffff) st2 with
    | error e => rw [hsc] at hok; cases hok
    | ok st3 =>
      rw [hsc] at hok
      dsimp only at hok
      cases hok
      have hlen2 : st2.length = st1.hold &&& 0xffff := by rw [hst2]; rfl
      have hw2 : 0 < st2.wsize := by
        have hws : st2.wsize = st.wsize := by rw [hst2]; exact n3
        rw [hws]
        exact hw
      have hsc' : storedCopyLoop st2.length st2 = Except.ok st3 := by
        rw [hlen2]
        exact hsc
      obtain ⟨cw, cl⟩ := storedCopyLoop_ok st2.length st2 st3 hsc' (le_refl _) hw2
      have hwr2 : st2.written = st.written := by rw [hst2]; exact n21
      have hrem2 : remBytes st2 = remBytes st1 := by rw [hst2]; rfl
      refine ⟨rfl, ?_, ?_⟩
      · show st3.written = _
        rw [cw, hwr2, hrem2, hlen2]
      · rw [hlen2, hrem2] at cl
        exact cl

theorem inflateBack_stored_block_witness :
    GoodBits stored3W ∧ ByteInput stored3W ∧ stored3W.bits ≤ 32 ∧ 0 < stored3W.wsize ∧
    (∀ st1, needbits 32 (bytebits stored3W) = Except.ok st1 →
      ((st1.hold &&& 0xffff) =
        natOfBits (((bitsAvail stored3W).drop (stored3W.bits % 8)).take 16) ∧
       (st1.hold >>> 16) =
        natOfBits ((((bitsAvail stored3W).drop (stored3W.bits % 8)).drop 16).take 16)) ∧
      ((st1.hold &&& 0xffff) ≠ ((st1.hold >>> 16) ^^^ 0xffff) →
        storedBody stored3W = Except.ok (setBad "invalid stored block lengths" st1) ∧
        (setBad "invalid stored block lengths" st1).mode = Mode.BAD ∧
        (setBad "invalid stored block lengths" st1).msg = some "invalid stored block lengths" ∧
        ∀ fuel, ∃ stf, runLoop (fuel + 1) (setBad "invalid stored block lengths" st1) =
          some (Z_DATA_ERROR, stf)) ∧
      ((st1.hold &&& 0xffff) = ((st1.hold >>> 16) ^^^ 0xffff) →
        ∀ st', storedBody stored3W = Except.ok st' →
          st'.mode = Mode.TYPE ∧
          st'.written = stored3W.written ++ (remBytes st1).take (st1.hold &&& 0xffff) ∧
          (st1.hold &&& 0xffff) ≤ (remBytes st1).length)) :=
  by
  have hg : GoodBits stored3W := by
    show stored3W.hold < 2 ^ stored3W.bits
    decide
  have hB : ByteInput stored3W := by
    constructor
    · decide
    · decide
  exact ⟨hg, hB, by decide, by decide,
    inflateBack_stored_block stored3W hg hB (by decide) (by decide)⟩

/-! ### The distance validity check -/

/-- C5: inflateBack rejects a decoded distance exactly when it exceeds the
output history produced so far (the bytes already written, capped at the
window size): the too-far test is equivalent to that comparison, a too-far
distance sets BAD with message "invalid distance too far back" and the call
returns Z_DATA_ERROR, and a distance within the history proceeds straight to
the match copy. -/
theorem inflateBack_distance_check (st : St) (hW : WinInv st) :
    (distTooFar st = true ↔ min st.written.length st.wsize < st.offset) ∧
    (min st.written.length st.wsize < st.offset →
      lenAfterDist st = Except.ok (setBad "invalid distance too far back" st) ∧
      (setBad "invalid distance too far back" st).mode = Mode.BAD ∧
      (setBad "invalid distance too far back" st).msg = some "invalid distance too far back" ∧
      ∀ fuel, ∃ stf, runLoop (fuel + 1) (setBad "invalid distance too far back" st) =
        some (Z_DATA_ERROR, stf)) ∧
    (st.offset ≤ min st.written.length st.wsize →
      lenAfterDist st = matchCopyLoop st.length st) := by
  obtain ⟨w1, w2, w3, w4⟩ := hW
  have hiff : distTooFar st = true ↔ min st.written.length st.wsize < st.offset := by
    rw [distTooFar, decide_eq_true_iff]
    rcases w2 with h0 | h1
    · have hwr := w3 h0
      split_ifs with hc
      · omega
      · omega
    · have hwr := w4 h1
      split_ifs with hc
      · omega
      · omega
  refine ⟨hiff, ?_, ?_⟩
  · intro hlt
    have ht : distTooFar st = true := hiff.mpr hlt
    refine ⟨?_, rfl, rfl, fun fuel => runLoop_data_error fuel _ rfl⟩
    rw [lenAfterDist, if_pos ht]
  · intro hle
    have hf : ¬ distTooFar st = true := by
      rw [hiff]
      omega
    rw [lenAfterDist, if_neg hf]

theorem inflateBack_distance_check_witness :
    WinInv dist5W ∧
    ((distTooFar dist5W = true ↔ min dist5W.written.length dist5W.wsize < dist5W.offset) ∧
     (min dist5W.written.length dist5W.wsize < dist5W.offset →
       lenAfterDist dist5W = Except.ok (setBad "invalid distance too far back" dist5W) ∧
       (setBad "invalid distance too far back" dist5W).mode = Mode.BAD ∧
       (setBad "invalid distance too far back" dist5W).msg =
         some "invalid distance too far back" ∧
       ∀ fuel, ∃ stf, runLoop (fuel + 1) (setBad "invalid distance too far back" dist5W) =
         some (Z_DATA_ERROR, stf)) ∧
     (dist5W.offset ≤ min dist5W.written.length dist5W.wsize →
       lenAfterDist dist5W = matchCopyLoop dist5W.length dist5W)) := by
  have hW : WinInv dist5W := by
    refine ⟨by decide, by decide, by decide, by decide⟩
  exact ⟨hW, inflateBack_distance_check dist5W hW⟩

/-! ### The overlap-aware match copy -/

theorem putByte_step (st : St) (b : Nat) (hA : AgreeW st)
    (hpl : st.put + st.left = st.wsize) (hl : 1 ≤ st.left) :
    AgreeW (putByte b st) ∧ (putByte b st).written = st.written ++ [b] ∧
    (putByte b st).put = st.put + 1 ∧ (putByte b st).left = st.left - 1 := by
  refine ⟨?_, rfl, rfl, rfl⟩
  intro j hj1 hj2
  simp only [putByte, updF, List.length_append, List.length_cons,
    List.length_nil] at hj2 ⊢
  by_cases hj : j = 1
  · subst hj
    rw [if_pos (by omega : 1 ≤ st.put + 1)]
    have hidx : st.put + 1 - 1 = st.put := by omega
    rw [hidx, if_pos rfl]
    have hL : st.written.length ≤ st.written.length + 1 - 1 := by omega
    rw [List.getD_append_right _ _ _ _ hL]
    simp
  · have hj2l : 2 ≤ j := by omega
    have hLj : j - 1 ≤ st.written.length := by omega
    have hL1 : 1 ≤ st.written.length := by omega
    have hAj := hA (j - 1) (by omega) (by omega)
    have hidx : (if j ≤ st.put + 1 then st.put + 1 - j else st.put + 1 + st.wsize - j) =
        (if j - 1 ≤ st.put then st.put - (j - 1) else st.put + st.wsize - (j - 1)) := by
      split_ifs <;> omega
    have hne : (if j ≤ st.put + 1 then st.put + 1 - j else st.put + 1 + st.wsize - j) ≠
        st.put := by
      split_ifs with hcase
      · omega
      · omega
    rw [hidx] at hne
    rw [hidx, if_neg hne, hAj]
    have hlt : st.written.length + 1 - j < st.written.length := by omega
    rw [List.getD_append _ _ _ _ hlt]
    congr 1
    omega

theorem room_inv (st st' : St) (h : room st = Except.ok st')
    (hA : AgreeW st) (hW : WinInv st) (hw : 0 < st.wsize) :
    AgreeW st' ∧ WinInv st' ∧ 0 < st'.left ∧
    st'.written = st.written ∧ st'.window = st.window ∧ st'.offset = st.offset ∧
    st'.length = st.length ∧ st'.wsize = st.wsize ∧ st'.next = st.next ∧
    st'.ins = st.ins ∧ st'.nextNull = st.nextNull ∧ st'.hold = st.hold ∧
    st'.bits = st.bits ∧ st'.mode = st.mode ∧ st'.last = st.last ∧
    st'.msg = st.msg ∧ st'.inFail = st.inFail ∧ st'.outFail = st.outFail := by
  obtain ⟨w1, w2, w3, w4⟩ := hW
  unfold room at h
  split at h
  case isTrue hz =>
    dsimp only at h
    rcases hp : popOut {st with put := 0, left := st.wsize, whave := st.wsize} with ⟨bb, st2⟩
    rw [hp] at h
    have hfields : st2.put = 0 ∧ st2.left = st.wsize ∧ st2.whave = st.wsize ∧
        st2.written = st.written ∧ st2.window = st.window ∧ st2.offset = st.offset ∧
        st2.length = st.length ∧ st2.wsize = st.wsize ∧ st2.next = st.next ∧
        st2.ins = st.ins ∧ st2.nextNull = st.nextNull ∧ st2.hold = st.hold ∧
        st2.bits = st.bits ∧ st2.mode = st.mode ∧ st2.last = st.last ∧
        st2.msg = st.msg ∧ st2.inFail = st.inFail ∧ st2.outFail = st.outFail := by
      unfold popOut at hp
      split at hp <;> cases hp <;> simp
    cases bb
    · cases h
      obtain ⟨f1, f2, f3, f4, f5, f6, f7, f8, f9, f10, f11, f12, f13, f14, f15,
        f16, f17, f18⟩ := hfields
      have hput : st.put = st.wsize := by omega
      have hwr : st.whave = 0 → st.written.length = st.wsize := by
        intro h0
        have := w3 h0
        omega
      have hwlen : st.wsize ≤ st.written.length := by
        rcases w2 with h0 | h1
        · have := hwr h0
          omega
        · exact w4 h1
      refine ⟨?_, ⟨?_, ?_, ?_, ?_⟩, ?_, f4, f5, f6, f7, f8, f9, f10, f11, f12,
        f13, f14, f15, f16, f17, f18⟩
      · intro j hj1 hj2
        rw [f4, f8] at hj2
        have hAj := hA j hj1 hj2
        rw [hput, if_pos (by omega : j ≤ st.wsize)] at hAj
        rw [f5, f4, f1, f8, if_neg (by omega : ¬ j ≤ 0)]
        have he : 0 + st.wsize - j = st.wsize - j := by omega
        rw [he]
        exact hAj
      · rw [f1, f2, f8]
        omega
      · right
        rw [f3, f8]
      · intro hc
        rw [f3] at hc
        omega
      · intro _
        rw [f8, f4]
        exact hwlen
      · rw [f2]
        exact hw
    · cases h
  case isFalse hz =>
    cases h
    exact ⟨hA, ⟨w1, w2, w3, w4⟩, by omega, rfl, rfl, rfl, rfl, rfl, rfl, rfl,
      rfl, rfl, rfl, rfl, rfl, rfl, rfl, rfl⟩

theorem copyRun_spec (c : Nat) (st : St) (d fromIdx : Nat)
    (hA : AgreeW st) (hpl : st.put + st.left = st.wsize)
    (hd1 : 1 ≤ d) (hdw : d ≤ min st.written.length st.wsize)
    (hc : c ≤ st.left)
    (hf : 0 < c → (fromIdx = st.put + st.wsize - d ∧ st.put + c ≤ d) ∨
      (fromIdx = st.put - d ∧ d ≤ st.put)) :
    (copyRun c fromIdx st).written.length = st.written.length + c ∧
    (∃ ext, (copyRun c fromIdx st).written = st.written ++ ext) ∧
    (∀ i, i < c → (copyRun c fromIdx st).written.getD (st.written.length + i) 0 =
      (copyRun c fromIdx st).written.getD (st.written.length + i - d) 0) ∧
    AgreeW (copyRun c fromIdx st) ∧
    (copyRun c fromIdx st).put = st.put + c ∧
    (copyRun c fromIdx st).left = st.left - c ∧
    (copyRun c fromIdx st).wsize = st.wsize ∧
    (copyRun c fromIdx st).whave = st.whave ∧
    (copyRun c fromIdx st).offset = st.offset ∧
    (copyRun c fromIdx st).length = st.length := by
  induction c generalizing st fromIdx with
  | zero =>
    refine ⟨by simp [copyRun], ⟨[], by simp [copyRun]⟩, fun i hi => absurd hi (by omega),
      ?_, ?_, ?_, ?_, ?_, ?_, ?_⟩ <;> simp [copyRun]
    exact hA
  | succ c ih =>
    have hl1 : 1 ≤ st.left := by omega
    have hdL : d ≤ st.written.length := by omega
    have hdws : d ≤ st.wsize := by omega
    obtain hf' := hf (by omega)
    have hbyte : st.window fromIdx = st.written.getD (st.written.length - d) 0 := by
      have hAd := hA d hd1 hdw
      rcases hf' with ⟨hfi, hwrap⟩ | ⟨hfi, hnw⟩
      · rw [hfi]
        rw [if_neg (by omega : ¬ d ≤ st.put)] at hAd
        exact hAd
      · rw [hfi]
        rw [if_pos hnw] at hAd
        exact hAd
    obtain ⟨pA, pw, pp, pl⟩ := putByte_step st (st.window fromIdx) hA hpl hl1
    have pws : (putByte (st.window fromIdx) st).wsize = st.wsize := rfl
    have pwh : (putByte (st.window fromIdx) st).whave = st.whave := rfl
    have pof : (putByte (st.window fromIdx) st).offset = st.offset := rfl
    have pln : (putByte (st.window fromIdx) st).length = st.length := rfl
    have pwl : (putByte (st.window fromIdx) st).written.length = st.written.length + 1 := by
      rw [pw]
      simp
    have ihres := ih (putByte (st.window fromIdx) st) (fromIdx + 1) pA
      (by rw [pp, pl, pws]; omega) (by rw [pwl, pws]; omega) (by rw [pl]; omega)
      (by
        intro hc0
        rcases hf' with ⟨hfi, hwrap⟩ | ⟨hfi, hnw⟩
        · left
          rw [pp, pws]
          constructor
          · omega
          · omega
        · right
          rw [pp]
          constructor
          · omega
          · omega)
    rw [copyRun]
    obtain ⟨i1, ⟨ext1, i2⟩, i3, i4, i5, i6, i7, i8, i9, i10⟩ := ihres
    have hW : (copyRun c (fromIdx + 1) (putByte (st.window fromIdx) st)).written =
        st.written ++ ((st.window fromIdx) :: ext1) := by
      rw [i2, pw]
      simp
    refine ⟨?_, ⟨(st.window fromIdx) :: ext1, hW⟩, ?_, i4, ?_, ?_, ?_, ?_, ?_, ?_⟩
    · rw [i1, pwl]
      omega
    · intro i hi
      cases i with
      | zero =>
        rw [hW]
        have hlt : st.written.length + 0 - d < st.written.length := by omega
        rw [List.getD_append _ _ _ _ hlt]
        have hge : st.written.length ≤ st.written.length + 0 := by omega
        rw [List.getD_append_right _ _ _ _ hge]
        have e2 : st.written.length + 0 - st.written.length = 0 := by omega
        have e3 : st.written.length + 0 - d = st.written.length - d := by omega
        rw [e2, e3, ← hbyte]
        rfl
      | succ i' =>
        have hi' : i' < c := by omega
        have := i3 i' hi'
        rw [pwl] at this
        have e1 : st.written.length + 1 + i' = st.written.length + (i' + 1) := by omega
        have e2 : st.written.length + 1 + i' - d = st.written.length + (i' + 1) - d := by
          omega
        rw [e2, e1] at this
        exact this
    · rw [i5, pp]
      omega
    · rw [i6, pl]
      omega
    · rw [i7, pws]
    · rw [i8, pwh]
    · rw [i9, pof]
    · rw [i10, pln]

theorem St_setLength (st : St) (L : Nat) :
    ({st with length := L} : St).put = st.put ∧
    ({st with length := L} : St).left = st.left ∧
    ({st with length := L} : St).wsize = st.wsize ∧
    ({st with length := L} : St).offset = st.offset ∧
    ({st with length := L} : St).written = st.written ∧
    ({st with length := L} : St).whave = st.whave ∧
    ({st with length := L} : St).length = L :=
  ⟨rfl, rfl, rfl, rfl, rfl, rfl, rfl⟩

theorem matchCopy_round (st1 : St) (copy2 fromIdx : Nat)
    (rA : AgreeW st1) (hv1 : st1.put + st1.left = st1.wsize)
    (v2 : st1.whave = 0 ∨ st1.whave = st1.wsize)
    (v3 : st1.whave = 0 → st1.written.length = st1.wsize - st1.left)
    (v4 : st1.whave = st1.wsize → st1.wsize ≤ st1.written.length)
    (hd1 : 1 ≤ st1.offset) (hdw : st1.offset ≤ min st1.written.length st1.wsize)
    (hcle : copy2 ≤ st1.left)
    (hf : 0 < copy2 →
      (fromIdx = st1.put + st1.wsize - st1.offset ∧ st1.put + copy2 ≤ st1.offset) ∨
      (fromIdx = st1.put - st1.offset ∧ st1.offset ≤ st1.put)) :
    (copyRun copy2 fromIdx {st1 with length := st1.length - copy2}).written.length =
      st1.written.length + copy2 ∧
    (∃ ext, (copyRun copy2 fromIdx {st1 with length := st1.length - copy2}).written =
      st1.written ++ ext) ∧
    (∀ i, i < copy2 →
      (copyRun copy2 fromIdx {st1 with length := st1.length - copy2}).written.getD
          (st1.written.length + i) 0 =
        (copyRun copy2 fromIdx {st1 with length := st1.length - copy2}).written.getD
          (st1.written.length + i - st1.offset) 0) ∧
    AgreeW (copyRun copy2 fromIdx {st1 with length := st1.length - copy2}) ∧
    WinInv (copyRun copy2 fromIdx {st1 with length := st1.length - copy2}) ∧
    (copyRun copy2 fromIdx {st1 with length := st1.length - copy2}).offset = st1.offset ∧
    (copyRun copy2 fromIdx {st1 with length := st1.length - copy2}).wsize = st1.wsize ∧
    (copyRun copy2 fromIdx {st1 with length := st1.length - copy2}).length =
      st1.length - copy2 := by
  obtain ⟨s1, s2, s3, s4, s5, s6, s7⟩ := St_setLength st1 (st1.length - copy2)
  have hmA : AgreeW {st1 with length := st1.length - copy2} := rA
  obtain ⟨c1, c2, c3, c4, c5, c6, c7, c8, c9, c10⟩ :=
    copyRun_spec copy2 {st1 with length := st1.length - copy2} st1.offset fromIdx hmA
      (by rw [s1, s2, s3]; exact hv1) hd1 (by rw [s5, s3]; exact hdw)
      (by rw [s2]; exact hcle)
      (by
        intro hc0
        rcases hf hc0 with ⟨h1, h2⟩ | ⟨h1, h2⟩
        · left
          rw [s1, s3]
          exact ⟨h1, h2⟩
        · right
          rw [s1]
          exact ⟨h1, h2⟩)
  rw [s5] at c1 c2 c3
  rw [s1] at c5
  rw [s2] at c6
  rw [s3] at c7
  rw [s6] at c8
  rw [s4] at c9
  rw [s7] at c10
  refine ⟨c1, c2, c3, c4, ⟨by rw [c5, c6, c7]; omega, by rw [c8, c7]; exact v2, ?_, ?_⟩,
    c9, c7, c10⟩
  · intro h0
    rw [c8] at h0
    have hv := v3 h0
    rw [c1, c6, c7]
    omega
  · intro h1
    rw [c8, c7] at h1
    have hv := v4 h1
    rw [c1, c7]
    omega

theorem matchCopyLoop_spec (fuel : Nat) (st st' : St)
    (h : matchCopyLoop fuel st = Except.ok st')
    (hfuel : st.length ≤ fuel)
    (hA : AgreeW st) (hW : WinInv st) (hw : 0 < st.wsize)
    (hd1 : 1 ≤ st.offset) (hdw : st.offset ≤ min st.written.length st.wsize) :
    st'.written.length = st.written.length + st.length ∧
    (∃ ext, st'.written = st.written ++ ext) ∧
    (∀ i, i < st.length → st'.written.getD (st.written.length + i) 0 =
      st'.written.getD (st.written.length + i - st.offset) 0) ∧
    st'.offset = st.offset ∧ AgreeW st' ∧ WinInv st' ∧ st'.wsize = st.wsize := by
  induction fuel generalizing st with
  | zero =>
    simp only [matchCopyLoop] at h
    cases h
    have h0 : st'.length = 0 := Nat.le_zero.mp hfuel
    exact ⟨by omega, ⟨[], by simp⟩, fun i hi => absurd hi (by omega), rfl, hA, hW, rfl⟩
  | succ fuel ih =>
    rw [matchCopyLoop] at h
    cases hroom : room st with
    | error e => rw [hroom] at h; cases h
    | ok st1 =>
      rw [hroom] at h
      dsimp only at h
      obtain ⟨rA, rW, rl, rwr, rwin, rof, rln, rws, _, _, _, _, _, _, _, _, _, _⟩ :=
        room_inv st st1 hroom hA hW hw
      obtain ⟨v1, v2, v3, v4⟩ := rW
      have hw1 : 0 < st1.wsize := by rw [rws]; exact hw
      have hd1a : 1 ≤ st1.offset := by rw [rof]; exact hd1
      have hdwa : st1.offset ≤ min st1.written.length st1.wsize := by
        rw [rof, rwr, rws]
        exact hdw
      have how : st1.offset ≤ st1.wsize := by omega
      by_cases hcase : st1.wsize - st1.offset < st1.left
      · simp only [if_pos hcase] at h
        obtain ⟨r1, r2, r3, r4, r5, r6, r7, r8⟩ :=
          matchCopy_round st1 (min (st1.left - (st1.wsize - st1.offset)) st1.length)
            (st1.put + (st1.wsize - st1.offset)) rA v1 v2 v3 v4 hd1a hdwa
            (by omega)
            (by
              intro _
              left
              constructor
              · omega
              · omega)
        set copy2 := min (st1.left - (st1.wsize - st1.offset)) st1.length with hc2
        set st2 := copyRun copy2 (st1.put + (st1.wsize - st1.offset))
          {st1 with length := st1.length - copy2} with hst2
        have hcp1 : st1.length ≠ 0 → 1 ≤ copy2 := by
          intro hln
          omega
        obtain ⟨u1, u2, u3, u4⟩ := r5
        by_cases hz : st2.length ≠ 0
        · rw [if_pos hz] at h
          rw [r8] at hz
          have hln1 : 1 ≤ st1.length := by omega
          have hcpp : 1 ≤ copy2 := hcp1 (by omega)
          obtain ⟨j1, ⟨ext2, j2⟩, j3, j4, j5, j6, j7⟩ := ih st2 h
            (by rw [r8, rln]; rw [rln] at *; omega) r4 ⟨u1, u2, u3, u4⟩
            (by rw [r7]; exact hw1)
            (by rw [r6]; exact hd1a)
            (by rw [r6, r1, r7]; omega)
          obtain ⟨ext1, hext1⟩ := r2
          refine ⟨?_, ⟨ext1 ++ ext2, by rw [j2, hext1, rwr, List.append_assoc]⟩,
            ?_, ?_, j5, j6, ?_⟩
          · rw [j1, r1, r8, rwr, rln]
            omega
          · intro i hi
            rw [← rln] at hi
            by_cases hii : i < copy2
            · have hrow := r3 i hii
              rw [rwr, rof] at hrow
              have hidx1 : st.written.length + i < st2.written.length := by
                rw [r1, rwr]
                omega
              have hidx2 : st.written.length + i - st.offset < st2.written.length := by
                rw [r1, rwr]
                omega
              have hsub : ∀ n, n < st2.written.length →
                  st'.written.getD n 0 = st2.written.getD n 0 := by
                intro n hn
                rw [j2, List.getD_append _ _ _ _ hn]
              rw [hsub _ hidx1, hsub _ hidx2]
              exact hrow
            · have hi' : i - copy2 < st2.length := by rw [r8, rln]; omega
              have hrow := j3 (i - copy2) hi'
              have e2 : st2.written.length + (i - copy2) - st2.offset =
                  st.written.length + i - st.offset := by
                rw [r1, rwr, r6, rof]
                omega
              have e1 : st2.written.length + (i - copy2) = st.written.length + i := by
                rw [r1, rwr]
                omega
              rw [e2, e1] at hrow
              exact hrow
          · rw [j4, r6, rof]
          · rw [j7, r7, rws]
        · rw [if_neg hz] at h
          injection h with h2
          subst h2
          rw [r8] at hz
          have hcl : copy2 = st1.length := by omega
          obtain ⟨ext1, hext1⟩ := r2
          refine ⟨?_, ⟨ext1, by rw [hext1, rwr]⟩, ?_, by rw [r6, rof],
            r4, ⟨u1, u2, u3, u4⟩, by rw [r7, rws]⟩
          · rw [r1, rwr, hcl, rln]
          · intro i hi
            rw [← rln, ← hcl] at hi
            have hrow := r3 i hi
            rw [rwr, rof] at hrow
            exact hrow
      · simp only [if_neg hcase] at h
        obtain ⟨r1, r2, r3, r4, r5, r6, r7, r8⟩ :=
          matchCopy_round st1 (min st1.left st1.length) (st1.put - st1.offset)
            rA v1 v2 v3 v4 hd1a hdwa
            (by omega)
            (by
              intro _
              right
              exact ⟨rfl, by omega⟩)
        set copy2 := min st1.left st1.length with hc2
        set st2 := copyRun copy2 (st1.put - st1.offset)
          {st1 with length := st1.length - copy2} with hst2
        have hcp1 : st1.length ≠ 0 → 1 ≤ copy2 := by
          intro hln
          omega
        obtain ⟨u1, u2, u3, u4⟩ := r5
        by_cases hz : st2.length ≠ 0
        · rw [if_pos hz] at h
          rw [r8] at hz
          have hln1 : 1 ≤ st1.length := by omega
          have hcpp : 1 ≤ copy2 := hcp1 (by omega)
          obtain ⟨j1, ⟨ext2, j2⟩, j3, j4, j5, j6, j7⟩ := ih st2 h
            (by rw [r8, rln]; rw [rln] at *; omega) r4 ⟨u1, u2, u3, u4⟩
            (by rw [r7]; exact hw1)
            (by rw [r6]; exact hd1a)
            (by rw [r6, r1, r7]; omega)
          obtain ⟨ext1, hext1⟩ := r2
          refine ⟨?_, ⟨ext1 ++ ext2, by rw [j2, hext1, rwr, List.append_assoc]⟩,
            ?_, ?_, j5, j6, ?_⟩
          · rw [j1, r1, r8, rwr, rln]
            omega
          · intro i hi
            rw [← rln] at hi
            by_cases hii : i < copy2
            · have hrow := r3 i hii
              rw [rwr, rof] at hrow
              have hidx1 : st.written.length + i < st2.written.length := by
                rw [r1, rwr]
                omega
              have hidx2 : st.written.length + i - st.offset < st2.written.length := by
                rw [r1, rwr]
                omega
              have hsub : ∀ n, n < st2.written.length →
                  st'.written.getD n 0 = st2.written.getD n 0 := by
                intro n hn
                rw [j2, List.getD_append _ _ _ _ hn]
              rw [hsub _ hidx1, hsub _ hidx2]
              exact hrow
            · have hi' : i - copy2 < st2.length := by rw [r8, rln]; omega
              have hrow := j3 (i - copy2) hi'
              have e2 : st2.written.length + (i - copy2) - st2.offset =
                  st.written.length + i - st.offset := by
                rw [r1, rwr, r6, rof]
                omega
              have e1 : st2.written.length + (i - copy2) = st.written.length + i := by
                rw [r1, rwr]
                omega
              rw [e2, e1] at hrow
              exact hrow
          · rw [j4, r6, rof]
          · rw [j7, r7, rws]
        · rw [if_neg hz] at h
          injection h with h2
          subst h2
          rw [r8] at hz
          have hcl : copy2 = st1.length := by omega
          obtain ⟨ext1, hext1⟩ := r2
          refine ⟨?_, ⟨ext1, by rw [hext1, rwr]⟩, ?_, by rw [r6, rof],
            r4, ⟨u1, u2, u3, u4⟩, by rw [r7, rws]⟩
          · rw [r1, rwr, hcl, rln]
          · intro i hi
            rw [← rln, ← hcl] at hi
            have hrow := r3 i hi
            rw [rwr, rof] at hrow
            exact hrow

/-- C6: inflateBack's match copy with length n and distance d writes, for
each i < n, exactly the byte that lies d positions back in the output stream
at the moment byte i is written: the output trace grows by exactly n bytes
obeying the d-periodic recurrence, and in particular d = 1 replicates the
previous byte n times — the overlap-aware byte-by-byte semantics, not a
block move of pre-existing bytes. -/
theorem inflateBack_match_overlap (st : St) (fuel : Nat) (st' : St)
    (h : matchCopyLoop fuel st = Except.ok st') (hfuel : st.length ≤ fuel)
    (hA : AgreeW st) (hW : WinInv st) (hw : 0 < st.wsize)
    (hd1 : 1 ≤ st.offset) (hdw : st.offset ≤ min st.written.length st.wsize) :
    (∃ ext, st'.written = st.written ++ ext ∧ ext.length = st.length) ∧
    (∀ i, i < st.length →
      st'.written.getD (st.written.length + i) 0 =
        st'.written.getD (st.written.length + i - st.offset) 0) ∧
    (st.offset = 1 → ∀ i, i < st.length →
      st'.written.getD (st.written.length + i) 0 =
        st.written.getD (st.written.length - 1) 0) := by
  obtain ⟨m1, ⟨ext, m2⟩, m3, m4, m5, m6, m7⟩ :=
    matchCopyLoop_spec fuel st st' h hfuel hA hW hw hd1 hdw
  have hL1 : 1 ≤ st.written.length := by omega
  have hextlen : ext.length = st.length := by
    have hm := m1
    rw [m2, List.length_append] at hm
    omega
  refine ⟨⟨ext, m2, hextlen⟩, m3, ?_⟩
  intro ho1 i
  induction i with
  | zero =>
    intro h0
    have hs := m3 0 h0
    rw [ho1] at hs
    rw [hs]
    have e : st.written.length + 0 - 1 = st.written.length - 1 := by omega
    rw [e]
    have hidx : st.written.length - 1 < st.written.length := by omega
    rw [m2, List.getD_append _ _ _ _ hidx]
  | succ i ihh =>
    intro hsi
    have hstep := m3 (i + 1) hsi
    rw [ho1] at hstep
    have e : st.written.length + (i + 1) - 1 = st.written.length + i := by omega
    rw [e] at hstep
    rw [hstep]
    exact ihh (by omega)

theorem inflateBack_match_overlap_witness :
    matchCopyLoop 3 match6W = Except.ok match6R ∧
    ((∃ ext, match6R.written = match6W.written ++ ext ∧ ext.length = match6W.length) ∧
     (∀ i, i < match6W.length →
       match6R.written.getD (match6W.written.length + i) 0 =
         match6R.written.getD (match6W.written.length + i - match6W.offset) 0) ∧
     (match6W.offset = 1 → ∀ i, i < match6W.length →
       match6R.written.getD (match6W.written.length + i) 0 =
         match6W.written.getD (match6W.written.length - 1) 0)) := by
  have h : matchCopyLoop 3 match6W = Except.ok match6R := rfl
  have hA : AgreeW match6W := by
    intro j hj1 hj2
    have hj2' : j ≤ 1 := by simpa [match6W] using hj2
    interval_cases j
    rfl
  have hW : WinInv match6W := ⟨by decide, by decide, by decide, by decide⟩
  exact ⟨h, inflateBack_match_overlap match6W 3 match6R h (by decide) hA hW
    (by decide) (by decide) (by decide)⟩

/-! ### The dynamic-block header path -/

theorem pullByte_fields (st st' : St) (h : pullByte st = Except.ok st') :
    SameOuter st st' := by
  unfold pullByte at h
  repeat' split at h
  all_goals cases h
  all_goals simp [SameOuter]

theorem pullByte_remIn (st st' : St) (h : pullByte st = Except.ok st') :
    remIn st' < remIn st := by
  unfold pullByte at h
  repeat' split at h
  all_goals cases h
  all_goals simp_all [remIn]

theorem pullBytes_fields (k : Nat) (st st' : St) (h : pullBytes k st = Except.ok st') :
    SameOuter st st' := by
  induction k generalizing st with
  | zero =>
    simp only [pullBytes] at h
    cases h
    exact SameOuter_refl _
  | succ k ih =>
    rw [pullBytes] at h
    cases heq : pullByte st with
    | error e => rw [heq] at h; cases h
    | ok stm =>
      rw [heq] at h
      exact SameOuter_trans st stm st' (pullByte_fields st stm heq) (ih stm h)

theorem needbits_fields (n : Nat) (st st' : St) (h : needbits n st = Except.ok st') :
    SameOuter st st' := by
  unfold needbits at h
  split at h
  · exact pullBytes_fields _ st st' h
  · cases h
    exact SameOuter_refl _

theorem dropbits_sameOuter (n : Nat) (st : St) : SameOuter st (dropbits n st) := by
  simp [SameOuter, dropbits]

theorem decodeLoop_fields (tbl : Nat → Code) (idx : Nat → Nat) (extra : Nat) :
    ∀ n st, remIn st = n → ∀ c st', decodeLoop tbl idx extra st = Except.ok (c, st') →
      SameOuter st st' := by
  intro n
  induction n using Nat.strong_induction_on with
  | _ n ihn =>
    intro st hst c st' h
    rw [decodeLoop] at h
    split at h
    · cases h
      exact SameOuter_refl _
    · split at h
      case h_1 => cases h
      case h_2 stm heq =>
        exact SameOuter_trans st stm st' (pullByte_fields st stm heq)
          (ihn (remIn stm) (hst ▸ pullByte_remIn st stm heq) stm rfl c st' h)

theorem decodeLoop_ok_spec (tbl : Nat → Code) (idx : Nat → Nat) (extra : Nat) :
    ∀ n st, remIn st = n → ∀ c st', decodeLoop tbl idx extra st = Except.ok (c, st') →
      GoodBits st → ByteInput st →
      bitsAvail st' = bitsAvail st ∧ GoodBits st' ∧ ByteInput st' ∧
      st.bits ≤ st'.bits ∧ c = tbl (idx st'.hold) ∧ c.bits + extra ≤ st'.bits ∧
      SameOuter st st' := by
  intro n
  induction n using Nat.strong_induction_on with
  | _ n ihn =>
    intro st hst c st' h hg hB
    rw [decodeLoop] at h
    split at h
    case isTrue hle =>
      cases h
      exact ⟨rfl, hg, hB, le_refl _, rfl, hle, SameOuter_refl st⟩
    case isFalse hgt =>
      split at h
      case h_1 => cases h
      case h_2 stm heq =>
        obtain ⟨e1, g1, b1, q1, s1⟩ := pullByte_ok_outer st stm heq hg hB
        obtain ⟨f1, f2, f3, f4, f5, f6, fs⟩ :=
          ihn (remIn stm) (hst ▸ pullByte_remIn st stm heq) stm rfl c st' h g1 b1
        exact ⟨f1.trans e1, f2, f3, by omega, f5, f6, SameOuter_trans st stm st' s1 fs⟩

theorem orderF_inj : ∀ i, i < 19 → ∀ j, j < 19 → orderF i = orderF j → i = j := by
  decide

theorem readCLL_spec (fuel : Nat) : ∀ (s s6 : St), readCLL fuel s = Except.ok s6 →
    GoodBits s → ByteInput s → s.ncode ≤ s.havec + fuel → s.ncode ≤ 19 →
    (∀ i, s.havec ≤ i → i < s.ncode →
      s6.lens (orderF i) = natOfBits (((bitsAvail s).drop (3 * (i - s.havec))).take 3)) ∧
    (∀ j, (∀ i, s.havec ≤ i → i < s.ncode → orderF i ≠ j) → s6.lens j = s.lens j) ∧
    s6.havec = max s.havec s.ncode ∧
    bitsAvail s6 = (bitsAvail s).drop (3 * (s.ncode - s.havec)) ∧
    GoodBits s6 ∧ ByteInput s6 ∧
    s6.nlen = s.nlen ∧ s6.ndist = s.ndist ∧ s6.ncode = s.ncode ∧
    s6.mode = s.mode ∧ s6.last = s.last ∧ s6.written = s.written ∧
    s6.msg = s.msg ∧ s6.wsize = s.wsize := by
  induction fuel with
  | zero =>
    intro s s6 h hg hB hfuel hn
    simp only [readCLL] at h
    injection h with h2
    subst h2
    refine ⟨fun i hi1 hi2 => absurd (lt_of_le_of_lt hi1 hi2) (by omega),
      fun j _ => rfl, by omega, ?_, hg, hB, rfl, rfl, rfl, rfl, rfl, rfl, rfl, rfl⟩
    simp [show s.ncode - s.havec = 0 from by omega]
  | succ fuel ih =>
    intro s s6 h hg hB hfuel hn
    rw [readCLL] at h
    split at h
    case isTrue hlt =>
      cases heq : needbits 3 s with
      | error e => rw [heq] at h; cases h
      | ok s1 =>
        rw [heq] at h
        dsimp only at h
        obtain ⟨e1, g1, b1, hge, _, sm1⟩ := needbits_ok_spec 3 s s1 heq hg hB
        obtain ⟨n1, n2, n3, n4, n5, n6, n7, n8, n9, n10, n11, n12, n13, n14, n15,
          n16, n17, n18, n19, n20, n21, n22, n23⟩ := sm1
        set s2 : St := {s1 with lens := updF s1.lens (orderF s1.havec) (BITSm 3 s1.hold),
                                havec := s1.havec + 1} with hs2
        have hg2 : GoodBits s2 := g1
        have hble : 3 ≤ s2.bits := hge
        obtain ⟨dd1, dd2, dd3⟩ := dropbits_bitsAvail s2 3 hg2 hble
        have hstream2 : bitsAvail s2 = bitsAvail s := by
          rw [← e1]
          rfl
        have hB2 : ByteInput (dropbits 3 s2) := b1
        have hhv : s2.havec = s.havec + 1 := by rw [hs2]; show s1.havec + 1 = _; rw [n9]
        have hnc : s2.ncode = s.ncode := by rw [hs2]; show s1.ncode = _; exact n12
        obtain ⟨p1, p2, p3, p4, p5, p6, q1, q2, q3, q4, q5, q6, q7, q8⟩ :=
          ih (dropbits 3 s2) s6 h dd2 hB2
            (by
              show (dropbits 3 s2).ncode ≤ (dropbits 3 s2).havec + fuel
              have e1' : (dropbits 3 s2).ncode = s.ncode := hnc
              have e2' : (dropbits 3 s2).havec = s.havec + 1 := hhv
              rw [e1', e2']
              omega)
            (by
              show (dropbits 3 s2).ncode ≤ 19
              have e1' : (dropbits 3 s2).ncode = s.ncode := hnc
              rw [e1']
              exact hn)
        have hstream3 : bitsAvail (dropbits 3 s2) = (bitsAvail s).drop 3 := by
          rw [dd1, hstream2]
        have hlens2 : s2.lens = updF s1.lens (orderF s.havec) (BITSm 3 s1.hold) := by
          rw [hs2]
          show updF s1.lens (orderF s1.havec) (BITSm 3 s1.hold) = _
          rw [n9]
        have hdl : (dropbits 3 s2).lens = s2.lens := rfl
        have hdh : (dropbits 3 s2).havec = s.havec + 1 := hhv
        have hdn : (dropbits 3 s2).ncode = s.ncode := hnc
        have hval : BITSm 3 s1.hold = natOfBits ((bitsAvail s).take 3) := by
          rw [BITSm_eq_stream s1 3 hge, e1]
        refine ⟨?_, ?_, ?_, ?_, p5, p6, ?_, ?_, ?_, ?_, ?_, ?_, ?_, ?_⟩
        · intro i hi1 hi2
          by_cases hieq : i = s.havec
          · subst hieq
            have hnohit : ∀ i', (dropbits 3 s2).havec ≤ i' → i' < (dropbits 3 s2).ncode →
                orderF i' ≠ orderF s.havec := by
              intro i' hi1' hi2' hcon
              rw [hdh] at hi1'
              rw [hdn] at hi2'
              have := orderF_inj i' (by omega) s.havec (by omega) hcon
              omega
            rw [p2 (orderF s.havec) hnohit, hdl, hlens2]
            simp [updF, hval]
          · have hi1' : (dropbits 3 s2).havec ≤ i := by rw [hdh]; omega
            have hi2' : i < (dropbits 3 s2).ncode := by rw [hdn]; omega
            have hp := p1 i hi1' hi2'
            rw [hstream3, hdh, List.drop_drop] at hp
            have e : 3 + 3 * (i - (s.havec + 1)) = 3 * (i - s.havec) := by omega
            rw [e] at hp
            exact hp
        · intro j hj
          have hnohit : ∀ i', (dropbits 3 s2).havec ≤ i' → i' < (dropbits 3 s2).ncode →
              orderF i' ≠ j := by
            intro i' hi1' hi2'
            rw [hdh] at hi1'
            rw [hdn] at hi2'
            exact hj i' (by omega) hi2'
          rw [p2 j hnohit, hdl, hlens2]
          simp only [updF]
          have hne2 : ¬ j = orderF s.havec := fun hc => hj s.havec (le_refl _) hlt hc.symm
          rw [if_neg hne2, n8]
        · rw [p3, hdh, hdn]
          omega
        · rw [p4, hstream3, hdh, hdn, List.drop_drop]
          congr 1
          omega
        · rw [q1]; show s1.nlen = s.nlen; exact n10
        · rw [q2]; show s1.ndist = s.ndist; exact n11
        · rw [q3]; show s1.ncode = s.ncode; exact n12
        · rw [q4]; show s1.mode = s.mode; exact n1
        · rw [q5]; show s1.last = s.last; exact n2
        · rw [q6]; show s1.written = s.written; exact n21
        · rw [q7]; show s1.msg = s.msg; exact n17
        · rw [q8]; show s1.wsize = s.wsize; exact n3
    case isFalse hge =>
      injection h with h2
      subst h2
      refine ⟨fun i hi1 hi2 => absurd (lt_of_le_of_lt hi1 hi2) (by omega),
        fun j _ => rfl, by omega, ?_, hg, hB, rfl, rfl, rfl, rfl, rfl, rfl, rfl, rfl⟩
      simp [show s.ncode - s.havec = 0 from by omega]

theorem zeroFill19_spec (fuel : Nat) : ∀ s : St, 19 ≤ s.havec + fuel →
    (∀ i, s.havec ≤ i → i < 19 → (zeroFill19 fuel s).lens (orderF i) = 0) ∧
    (∀ j, (∀ i, s.havec ≤ i → i < 19 → orderF i ≠ j) → (zeroFill19 fuel s).lens j = s.lens j) ∧
    (zeroFill19 fuel s).havec = max s.havec 19 ∧
    (zeroFill19 fuel s).hold = s.hold ∧ (zeroFill19 fuel s).bits = s.bits ∧
    (zeroFill19 fuel s).next = s.next ∧ (zeroFill19 fuel s).ins = s.ins ∧
    (zeroFill19 fuel s).nlen = s.nlen ∧ (zeroFill19 fuel s).ndist = s.ndist ∧
    (zeroFill19 fuel s).ncode = s.ncode ∧ (zeroFill19 fuel s).mode = s.mode ∧
    (zeroFill19 fuel s).last = s.last ∧ (zeroFill19 fuel s).written = s.written ∧
    (zeroFill19 fuel s).msg = s.msg := by
  induction fuel with
  | zero =>
    intro s hfuel
    exact ⟨fun i hi1 hi2 => absurd (lt_of_le_of_lt hi1 hi2) (by omega),
      fun j _ => rfl, by simp [zeroFill19]; omega, rfl, rfl, rfl, rfl, rfl, rfl,
      rfl, rfl, rfl, rfl, rfl⟩
  | succ fuel ih =>
    intro s hfuel
    rw [zeroFill19]
    split
    case isTrue hlt =>
      set s2 : St := {s with lens := updF s.lens (orderF s.havec) 0,
                             havec := s.havec + 1} with hs2
      have hhv : s2.havec = s.havec + 1 := by rw [hs2]
      obtain ⟨p1, p2, p3, p4, p5, p6, p7, p8, p9, p10, p11, p12, p13, p14⟩ :=
        ih s2 (by rw [hhv]; omega)
      have hlens2 : s2.lens = updF s.lens (orderF s.havec) 0 := by rw [hs2]
      refine ⟨?_, ?_, ?_, p4, p5, p6, p7, p8, p9, p10, p11, p12, p13, p14⟩
      · intro i hi1 hi2
        by_cases hieq : i = s.havec
        · subst hieq
          have hnohit : ∀ i', s2.havec ≤ i' → i' < 19 → orderF i' ≠ orderF s.havec := by
            intro i' hi1' hi2' hcon
            rw [hhv] at hi1'
            have := orderF_inj i' (by omega) s.havec (by omega) hcon
            omega
          rw [p2 (orderF s.havec) hnohit, hlens2]
          simp [updF]
        · have := p1 i (by rw [hhv]; omega) hi2
          exact this
      · intro j hj
        have hnohit : ∀ i', s2.havec ≤ i' → i' < 19 → orderF i' ≠ j := by
          intro i' hi1' hi2'
          rw [hhv] at hi1'
          exact hj i' (by omega) hi2'
        rw [p2 j hnohit, hlens2]
        simp only [updF]
        have hne2 : ¬ j = orderF s.havec := fun hc => hj s.havec (le_refl _) hlt hc.symm
        rw [if_neg hne2]
      · rw [p3, hhv]
        omega
    case isFalse hge =>
      exact ⟨fun i hi1 hi2 => absurd (lt_of_le_of_lt hi1 hi2) (by omega),
        fun j _ => rfl, by omega, rfl, rfl, rfl, rfl, rfl, rfl, rfl, rfl, rfl,
        rfl, rfl⟩

theorem fillLens_fields (v : Nat) (c : Nat) : ∀ s : St,
    (fillLens v c s).nlen = s.nlen ∧ (fillLens v c s).ndist = s.ndist ∧
    (fillLens v c s).ncode = s.ncode ∧ (fillLens v c s).mode = s.mode ∧
    (fillLens v c s).havec = s.havec + c ∧ (fillLens v c s).hold = s.hold ∧
    (fillLens v c s).bits = s.bits ∧ (fillLens v c s).last = s.last ∧
    (fillLens v c s).next = s.next ∧ (fillLens v c s).ins = s.ins ∧
    (fillLens v c s).written = s.written ∧ (fillLens v c s).msg = s.msg := by
  induction c with
  | zero =>
    intro s
    exact ⟨rfl, rfl, rfl, rfl, rfl, rfl, rfl, rfl, rfl, rfl, rfl, rfl⟩
  | succ c ih =>
    intro s
    rw [fillLens]
    obtain ⟨p1, p2, p3, p4, p5, p6, p7, p8, p9, p10, p11, p12⟩ :=
      ih {s with lens := updF s.lens s.havec v, havec := s.havec + 1}
    exact ⟨p1, p2, p3, p4, by rw [p5]; show s.havec + 1 + c = _; omega, p6, p7,
      p8, p9, p10, p11, p12⟩

theorem decodeLensLoop_pres (fuel : Nat) : ∀ s s' : St,
    decodeLensLoop fuel s = Except.ok s' →
    s'.nlen = s.nlen ∧ s'.ndist = s.ndist ∧ s'.ncode = s.ncode := by
  induction fuel with
  | zero =>
    intro s s' h
    simp only [decodeLensLoop] at h
    injection h with h2
    subst h2
    exact ⟨rfl, rfl, rfl⟩
  | succ fuel ih =>
    intro s s' h
    rw [decodeLensLoop] at h
    split at h
    case isFalse =>
      injection h with h2
      subst h2
      exact ⟨rfl, rfl, rfl⟩
    case isTrue hlt =>
      cases hdl : decodeLoop s.lencode (BITSm s.lenbits) 0 s with
      | error e => rw [hdl] at h; cases h
      | ok pr =>
        obtain ⟨here, s1⟩ := pr
        rw [hdl] at h
        dsimp only at h
        obtain ⟨m1, m2, m3, m4, m5, m6, m7, m8, m9, m10, m11, m12, m13, m14, m15,
          m16, m17, m18, m19, m20, m21, m22, m23⟩ :=
          decodeLoop_fields s.lencode (BITSm s.lenbits) 0 (remIn s) s rfl here s1 hdl
        split at h
        · obtain ⟨r1, r2, r3⟩ := ih _ _ h
          exact ⟨r1.trans m10, r2.trans m11, r3.trans m12⟩
        · split at h
          · cases hnb : needbits (here.bits + 2) s1 with
            | error e => rw [hnb] at h; cases h
            | ok s2 =>
              rw [hnb] at h
              dsimp only at h
              obtain ⟨k1, k2, k3, k4, k5, k6, k7, k8, k9, k10, k11, k12, k13, k14,
                k15, k16, k17, k18, k19, k20, k21, k22, k23⟩ := needbits_fields _ s1 s2 hnb
              split at h
              · injection h with h2
                subst h2
                exact ⟨k10.trans m10, k11.trans m11, k12.trans m12⟩
              · split at h
                · injection h with h2
                  subst h2
                  exact ⟨k10.trans m10, k11.trans m11, k12.trans m12⟩
                · obtain ⟨r1, r2, r3⟩ := ih _ _ h
                  exact ⟨r1.trans ((fillLens_fields _ _ _).1.trans (k10.trans m10)),
                    r2.trans ((fillLens_fields _ _ _).2.1.trans (k11.trans m11)),
                    r3.trans ((fillLens_fields _ _ _).2.2.1.trans (k12.trans m12))⟩
          · split at h
            · cases hnb : needbits (here.bits + 3) s1 with
              | error e => rw [hnb] at h; cases h
              | ok s2 =>
                rw [hnb] at h
                dsimp only at h
                obtain ⟨k1, k2, k3, k4, k5, k6, k7, k8, k9, k10, k11, k12, k13, k14,
                  k15, k16, k17, k18, k19, k20, k21, k22, k23⟩ := needbits_fields _ s1 s2 hnb
                split at h
                · injection h with h2
                  subst h2
                  exact ⟨k10.trans m10, k11.trans m11, k12.trans m12⟩
                · obtain ⟨r1, r2, r3⟩ := ih _ _ h
                  exact ⟨r1.trans ((fillLens_fields _ _ _).1.trans (k10.trans m10)),
                    r2.trans ((fillLens_fields _ _ _).2.1.trans (k11.trans m11)),
                    r3.trans ((fillLens_fields _ _ _).2.2.1.trans (k12.trans m12))⟩
            · cases hnb : needbits (here.bits + 7) s1 with
              | error e => rw [hnb] at h; cases h
              | ok s2 =>
                rw [hnb] at h
                dsimp only at h
                obtain ⟨k1, k2, k3, k4, k5, k6, k7, k8, k9, k10, k11, k12, k13, k14,
                  k15, k16, k17, k18, k19, k20, k21, k22, k23⟩ := needbits_fields _ s1 s2 hnb
                split at h
                · injection h with h2
                  subst h2
                  exact ⟨k10.trans m10, k11.trans m11, k12.trans m12⟩
                · obtain ⟨r1, r2, r3⟩ := ih _ _ h
                  exact ⟨r1.trans ((fillLens_fields _ _ _).1.trans (k10.trans m10)),
                    r2.trans ((fillLens_fields _ _ _).2.1.trans (k11.trans m11)),
                    r3.trans ((fillLens_fields _ _ _).2.2.1.trans (k12.trans m12))⟩

theorem tableFinish_pres (s s' : St) (h : tableFinish s = Except.ok s') :
    s'.nlen = s.nlen ∧ s'.ndist = s.ndist ∧ s'.ncode = s.ncode := by
  unfold tableFinish at h
  split at h
  · injection h with h2
    subst h2
    exact ⟨rfl, rfl, rfl⟩
  · dsimp only at h
    split at h
    · injection h with h2
      subst h2
      exact ⟨rfl, rfl, rfl⟩
    · split at h
      · injection h with h2
        subst h2
        exact ⟨rfl, rfl, rfl⟩
      · injection h with h2
        subst h2
        exact ⟨rfl, rfl, rfl⟩

theorem tableBody_eval (st st1 : St) (h1 : needbits 14 st = Except.ok st1) :
    tableBody st =
      (let st2 := dropbits 5 {st1 with nlen := BITSm 5 st1.hold + 257}
       let st3 := dropbits 5 {st2 with ndist := BITSm 5 st2.hold + 1}
       let st4 := dropbits 4 {st3 with ncode := BITSm 4 st3.hold + 4}
       if 286 < st4.nlen ∨ 30 < st4.ndist then
         Except.ok (setBad "too many length or distance symbols" st4)
       else
         match readCLL 19 {st4 with havec := 0} with
         | .error e => .error e
         | .ok st6 =>
           let st7 := zeroFill19 19 st6
           let rc := inflate_table CodeType.CODES st7.lens 19 7
           if rc.1 ≠ 0 then Except.ok (setBad "invalid code lengths set" st7)
           else
             let st8 := {st7 with lencode := rc.2.1, lenbits := rc.2.2, havec := 0}
             match decodeLensLoop (st8.nlen + st8.ndist) st8 with
             | .error e => .error e
             | .ok st9 =>
               if st9.mode = Mode.BAD then Except.ok st9 else tableFinish st9) := by
  simp only [tableBody]
  rw [h1]

/-- C4: inflateBack's dynamic-block header: nlen = BITS(5)+257,
ndist = BITS(5)+1, ncode = BITS(4)+4 are read in that order from the stream,
nlen > 286 or ndist > 30 is rejected with "too many length or distance
symbols"; the ncode 3-bit code-length-code lengths are read in the
permutation order 16,17,18,0,8,... (zero-filling the rest of the 19); a
repeat symbol 16 before any length, or a repeat running past nlen+ndist,
fails with "invalid bit length repeat"; a zero length for symbol 256 fails
with "invalid code -- missing end-of-block"; and the literal/length and
distance tables are built with root bits 9 and 6. -/
theorem inflateBack_dynamic_header (st : St) (hg : GoodBits st) (hB : ByteInput st) :
    (∀ st1, needbits 14 st = Except.ok st1 →
      (∀ st', tableBody st = Except.ok st' →
        st'.nlen = natOfBits ((bitsAvail st).take 5) + 257 ∧
        st'.ndist = natOfBits (((bitsAvail st).drop 5).take 5) + 1 ∧
        st'.ncode = natOfBits (((bitsAvail st).drop 10).take 4) + 4) ∧
      (286 < natOfBits ((bitsAvail st).take 5) + 257 ∨
          30 < natOfBits (((bitsAvail st).drop 5).take 5) + 1 →
        ∃ stb, tableBody st = Except.ok stb ∧ stb.mode = Mode.BAD ∧
          stb.msg = some "too many length or distance symbols")) ∧
    (∀ s : St, GoodBits s → ByteInput s → s.havec = 0 → s.ncode ≤ 19 →
      ∀ s6, readCLL 19 s = Except.ok s6 →
        (∀ i, i < s.ncode →
          s6.lens (orderF i) = natOfBits (((bitsAvail s).drop (3 * i)).take 3)) ∧
        s6.havec = s.ncode ∧
        (∀ i, s.ncode ≤ i → i < 19 → (zeroFill19 19 s6).lens (orderF i) = 0) ∧
        (∀ i, i < s.ncode →
          (zeroFill19 19 s6).lens (orderF i) = s6.lens (orderF i))) ∧
    (∀ (s : St) (fuel : Nat) (here : Code) (s1 s2 : St),
      s.havec = 0 → s.havec < s.nlen + s.ndist →
      decodeLoop s.lencode (BITSm s.lenbits) 0 s = Except.ok (here, s1) →
      here.val = 16 →
      needbits (here.bits + 2) s1 = Except.ok s2 →
      decodeLensLoop (fuel + 1) s =
        Except.ok (setBad "invalid bit length repeat" (dropbits here.bits s2))) ∧
    (∀ (s : St) (fuel : Nat) (here : Code) (s1 s2 : St),
      s.havec ≠ 0 → s.havec < s.nlen + s.ndist →
      decodeLoop s.lencode (BITSm s.lenbits) 0 s = Except.ok (here, s1) →
      here.val = 16 →
      needbits (here.bits + 2) s1 = Except.ok s2 →
      s.nlen + s.ndist < s.havec + (3 + BITSm 2 ((dropbits here.bits s2).hold)) →
      decodeLensLoop (fuel + 1) s =
        Except.ok (setBad "invalid bit length repeat"
          (dropbits 2 (dropbits here.bits s2)))) ∧
    (∀ s : St, s.lens 256 = 0 →
      tableFinish s = Except.ok (setBad "invalid code -- missing end-of-block" s) ∧
      (setBad "invalid code -- missing end-of-block" s).mode = Mode.BAD) ∧
    (∀ s : St, s.lens 256 ≠ 0 →
      (inflate_table CodeType.LENS s.lens s.nlen 9).1 = 0 →
      (inflate_table CodeType.DISTS (fun i => s.lens (s.nlen + i)) s.ndist 6).1 = 0 →
      tableFinish s = Except.ok
        {s with lencode := (inflate_table CodeType.LENS s.lens s.nlen 9).2.1,
                lenbits := (inflate_table CodeType.LENS s.lens s.nlen 9).2.2,
                distcode := (inflate_table CodeType.DISTS
                  (fun i => s.lens (s.nlen + i)) s.ndist 6).2.1,
                distbits := (inflate_table CodeType.DISTS
                  (fun i => s.lens (s.nlen + i)) s.ndist 6).2.2,
                mode := Mode.LEN}) := by
  refine ⟨?_, ?_, ?_, ?_, ?_, ?_⟩
  · intro st1 h1
    obtain ⟨e1, g1, b1, hge, _, sm1⟩ := needbits_ok_spec 14 st st1 h1 hg hB
    have hv5 : BITSm 5 st1.hold = natOfBits ((bitsAvail st).take 5) := by
      rw [BITSm_eq_stream st1 5 (by omega), e1]
    obtain ⟨dd1, dd2, dd3⟩ :=
      dropbits_bitsAvail {st1 with nlen := BITSm 5 st1.hold + 257} 5 g1
        (show 5 ≤ st1.bits by omega)
    set st2 : St := dropbits 5 {st1 with nlen := BITSm 5 st1.hold + 257} with hst2
    have hb2 : st2.bits = st1.bits - 5 := dd3
    have hs2 : bitsAvail st2 = (bitsAvail st).drop 5 := by
      rw [dd1]
      show (bitsAvail st1).drop 5 = _
      rw [e1]
    have hv5b : BITSm 5 st2.hold = natOfBits (((bitsAvail st).drop 5).take 5) := by
      rw [BITSm_eq_stream st2 5 (by rw [hb2]; omega), hs2]
    obtain ⟨ff1, ff2, ff3⟩ :=
      dropbits_bitsAvail {st2 with ndist := BITSm 5 st2.hold + 1} 5 dd2
        (show 5 ≤ st2.bits by rw [hb2]; omega)
    set st3 : St := dropbits 5 {st2 with ndist := BITSm 5 st2.hold + 1} with hst3
    have hb3 : st3.bits = st2.bits - 5 := ff3
    have hs3 : bitsAvail st3 = (bitsAvail st).drop 10 := by
      rw [ff1]
      show (bitsAvail st2).drop 5 = _
      rw [hs2, List.drop_drop]
    have hv4 : BITSm 4 st3.hold = natOfBits (((bitsAvail st).drop 10).take 4) := by
      rw [BITSm_eq_stream st3 4 (by rw [hb3, hb2]; omega), hs3]
    obtain ⟨gg1, gg2, gg3⟩ :=
      dropbits_bitsAvail {st3 with ncode := BITSm 4 st3.hold + 4} 4 ff2
        (show 4 ≤ st3.bits by rw [hb3, hb2]; omega)
    set st4 : St := dropbits 4 {st3 with ncode := BITSm 4 st3.hold + 4} with hst4
    have hf4n : st4.nlen = natOfBits ((bitsAvail st).take 5) + 257 := by
      rw [hst4]
      show st3.nlen = _
      rw [hst3]
      show st2.nlen = _
      rw [hst2]
      show BITSm 5 st1.hold + 257 = _
      rw [hv5]
    have hf4d : st4.ndist = natOfBits (((bitsAvail st).drop 5).take 5) + 1 := by
      rw [hst4]
      show st3.ndist = _
      rw [hst3]
      show BITSm 5 st2.hold + 1 = _
      rw [hv5b]
    have hf4c : st4.ncode = natOfBits (((bitsAvail st).drop 10).take 4) + 4 := by
      rw [hst4]
      show BITSm 4 st3.hold + 4 = _
      rw [hv4]
    have hB4 : BITSm 4 st3.hold ≤ 15 := by
      rw [BITSm]
      exact le_trans Nat.and_le_right (by decide)
    have hnc4 : st4.ncode ≤ 19 := by
      rw [hst4]
      show BITSm 4 st3.hold + 4 ≤ 19
      omega
    constructor
    · intro st' h'
      rw [tableBody_eval st st1 h1] at h'
      dsimp only at h'
      rw [← hst2, ← hst3, ← hst4] at h'
      split at h'
      case isTrue hcond =>
        injection h' with h2
        subst h2
        exact ⟨hf4n, hf4d, hf4c⟩
      case isFalse hcond =>
        cases hrc : readCLL 19 {st4 with havec := 0} with
        | error e => rw [hrc] at h'; cases h'
        | ok st6 =>
          rw [hrc] at h'
          dsimp only at h'
          have hgs4 : GoodBits ({st4 with havec := 0} : St) := gg2
          have hbs4 : ByteInput ({st4 with havec := 0} : St) := b1
          obtain ⟨_, _, _, _, _, _, q1, q2, q3, _, _, _, _, _⟩ :=
            readCLL_spec 19 {st4 with havec := 0} st6 hrc hgs4 hbs4
              (show st4.ncode ≤ 0 + 19 by omega) hnc4
          obtain ⟨_, _, _, _, _, _, _, z8, z9, z10, _, _, _, _⟩ :=
            zeroFill19_spec 19 st6 (by omega)
          split at h'
          case isTrue =>
            injection h' with h2
            subst h2
            exact ⟨z8.trans (q1.trans hf4n), z9.trans (q2.trans hf4d),
              z10.trans (q3.trans hf4c)⟩
          case isFalse =>
            try dsimp only at h'
            split at h'
            case h_1 => cases h'
            case h_2 st9 heq =>
              obtain ⟨w1, w2, w3⟩ := decodeLensLoop_pres _ _ _ heq
              have hw1 : st9.nlen = natOfBits ((bitsAvail st).take 5) + 257 :=
                w1.trans (z8.trans (q1.trans hf4n))
              have hw2 : st9.ndist = natOfBits (((bitsAvail st).drop 5).take 5) + 1 :=
                w2.trans (z9.trans (q2.trans hf4d))
              have hw3 : st9.ncode = natOfBits (((bitsAvail st).drop 10).take 4) + 4 :=
                w3.trans (z10.trans (q3.trans hf4c))
              split at h'
              case isTrue =>
                injection h' with h2
                subst h2
                exact ⟨hw1, hw2, hw3⟩
              case isFalse =>
                obtain ⟨t1, t2, t3⟩ := tableFinish_pres st9 st' h'
                exact ⟨t1.trans hw1, t2.trans hw2, t3.trans hw3⟩
    · intro hbig
      have hcond : 286 < st4.nlen ∨ 30 < st4.ndist := by
        rw [hf4n, hf4d]
        exact hbig
      refine ⟨setBad "too many length or distance symbols" st4, ?_, rfl, rfl⟩
      rw [tableBody_eval st st1 h1]
      dsimp only
      rw [← hst2, ← hst3, ← hst4, if_pos hcond]
  · intro s hgs hBs hz hn s6 h6
    obtain ⟨p1, p2, p3, _, _, _, _, _, _, _, _, _, _, _⟩ :=
      readCLL_spec 19 s s6 h6 hgs hBs (by omega) hn
    have hhv : s6.havec = s.ncode := by rw [p3]; omega
    obtain ⟨z1, z2, _, _, _, _, _, _, _, _, _, _, _, _⟩ :=
      zeroFill19_spec 19 s6 (by omega)
    refine ⟨?_, hhv, ?_, ?_⟩
    · intro i hi
      have hp := p1 i (by omega) hi
      rw [hz] at hp
      simpa using hp
    · intro i hi1 hi2
      exact z1 i (by omega) hi2
    · intro i hi
      refine z2 (orderF i) ?_
      intro i' hi1' hi2' hcon
      rw [hhv] at hi1'
      have := orderF_inj i' hi2' i (by omega) hcon
      omega
  · intro s fuel here s1 s2 hz hlt hdl hv16 hnb
    obtain ⟨m1, m2, m3, m4, m5, m6, m7, m8, m9, m10, m11, m12, m13, m14, m15,
      m16, m17, m18, m19, m20, m21, m22, m23⟩ :=
      decodeLoop_fields s.lencode (BITSm s.lenbits) 0 (remIn s) s rfl here s1 hdl
    obtain ⟨k1, k2, k3, k4, k5, k6, k7, k8, k9, k10, k11, k12, k13, k14, k15,
      k16, k17, k18, k19, k20, k21, k22, k23⟩ := needbits_fields _ s1 s2 hnb
    rw [decodeLensLoop, if_pos hlt, hdl]
    dsimp only
    rw [if_neg (by omega : ¬ here.val < 16), if_pos hv16, hnb]
    dsimp only
    have hcc : (dropbits here.bits s2).havec = 0 := by
      show s2.havec = 0
      rw [k9, m9]
      exact hz
    rw [if_pos hcc]
  · intro s fuel here s1 s2 hz hlt hdl hv16 hnb hrun
    obtain ⟨m1, m2, m3, m4, m5, m6, m7, m8, m9, m10, m11, m12, m13, m14, m15,
      m16, m17, m18, m19, m20, m21, m22, m23⟩ :=
      decodeLoop_fields s.lencode (BITSm s.lenbits) 0 (remIn s) s rfl here s1 hdl
    obtain ⟨k1, k2, k3, k4, k5, k6, k7, k8, k9, k10, k11, k12, k13, k14, k15,
      k16, k17, k18, k19, k20, k21, k22, k23⟩ := needbits_fields _ s1 s2 hnb
    rw [decodeLensLoop, if_pos hlt, hdl]
    dsimp only
    rw [if_neg (by omega : ¬ here.val < 16), if_pos hv16, hnb]
    dsimp only
    have hcc : ¬ (dropbits here.bits s2).havec = 0 := by
      show ¬ s2.havec = 0
      rw [k9, m9]
      exact hz
    rw [if_neg hcc]
    try dsimp only
    have hcond : (dropbits 2 (dropbits here.bits s2)).nlen +
        (dropbits 2 (dropbits here.bits s2)).ndist <
        (dropbits 2 (dropbits here.bits s2)).havec +
          (3 + BITSm 2 (dropbits here.bits s2).hold) := by
      show s2.nlen + s2.ndist < s2.havec + _
      rw [k10, m10, k11, m11, k9, m9]
      exact hrun
    rw [if_pos hcond]
  · intro s hz
    refine ⟨?_, rfl⟩
    unfold tableFinish
    rw [if_pos hz]
  · intro s hne h9 h6
    simp only [tableFinish]
    rw [if_neg hne]
    try dsimp only
    split
    case isTrue hbad => exact absurd h9 hbad
    case isFalse =>
      try dsimp only
      split
      case isTrue hbad2 => exact absurd h6 hbad2
      case isFalse => rfl

theorem inflateBack_dynamic_header_witness :
    GoodBits tab4W ∧ ByteInput tab4W ∧
    (286 < natOfBits ((bitsAvail tab4W).take 5) + 257 ∨
      30 < natOfBits (((bitsAvail tab4W).drop 5).take 5) + 1) ∧
    (∀ st1, needbits 14 tab4W = Except.ok st1 →
      (∀ st', tableBody tab4W = Except.ok st' →
        st'.nlen = natOfBits ((bitsAvail tab4W).take 5) + 257 ∧
        st'.ndist = natOfBits (((bitsAvail tab4W).drop 5).take 5) + 1 ∧
        st'.ncode = natOfBits (((bitsAvail tab4W).drop 10).take 4) + 4) ∧
      (286 < natOfBits ((bitsAvail tab4W).take 5) + 257 ∨
          30 < natOfBits (((bitsAvail tab4W).drop 5).take 5) + 1 →
        ∃ stb, tableBody tab4W = Except.ok stb ∧ stb.mode = Mode.BAD ∧
          stb.msg = some "too many length or distance symbols")) := by
  have hg : GoodBits tab4W := by
    show tab4W.hold < 2 ^ tab4W.bits
    decide
  have hB : ByteInput tab4W := by
    constructor
    · decide
    · decide
  refine ⟨hg, hB, ?_, (inflateBack_dynamic_header tab4W hg hB).1⟩
  left
  decide

/-! ### Return-value classification -/

theorem popOut_fields (s : St) (b : Bool) (s2 : St) (hp : popOut s = (b, s2)) :
    s2.nextNull = s.nextNull ∧ s2.inFail = s.inFail ∧ s2.outFail = s.outFail ∧
    s2.mode = s.mode ∧ s2.last = s.last := by
  unfold popOut at hp
  split at hp <;> cases hp <;> exact ⟨rfl, rfl, rfl, rfl, rfl⟩

theorem pullByte_Step (st : St) (h1 : st.inFail = false) (h2 : st.outFail = false)
    (h3 : st.nextNull = true → st.next = []) : StepOK st (pullByte st) := by
  unfold pullByte
  split
  case h_1 b rest heq =>
    have hnn : st.nextNull = false := by
      cases hc : st.nextNull
      · rfl
      · rw [h3 hc] at heq
        cases heq
    exact ⟨⟨h1, h2, hnn⟩, rfl, rfl⟩
  case h_2 heq =>
    split
    · exact ⟨rfl, Or.inl ⟨rfl, rfl, h2⟩⟩
    · split
      · exact ⟨rfl, Or.inl ⟨rfl, rfl, h2⟩⟩
      · exact ⟨⟨h1, h2, rfl⟩, rfl, rfl⟩

theorem pullBytes_StepOK (k : Nat) : ∀ st : St, Pre0 st → StepOK st (pullBytes k st) := by
  induction k with
  | zero =>
    intro st hp
    exact ⟨hp, rfl, rfl⟩
  | succ k ih =>
    intro st hp
    have hpb := pullByte_Step st hp.1 hp.2.1
      (by intro hc; rw [hp.2.2] at hc; cases hc)
    rw [pullBytes]
    cases heq : pullByte st with
    | error e =>
      rw [heq] at hpb
      exact hpb
    | ok stm =>
      rw [heq] at hpb
      obtain ⟨hp1, hm1, hl1⟩ := hpb
      have hih := ih stm hp1
      dsimp only
      cases heq2 : pullBytes k stm with
      | error e =>
        rw [heq2] at hih
        exact hih
      | ok st2 =>
        rw [heq2] at hih
        obtain ⟨hp2, hm2, hl2⟩ := hih
        exact ⟨hp2, hm2.trans hm1, hl2.trans hl1⟩

theorem needbits_StepOK (n : Nat) (st : St) (hp : Pre0 st) :
    StepOK st (needbits n st) := by
  unfold needbits
  split
  · exact pullBytes_StepOK _ st hp
  · exact ⟨hp, rfl, rfl⟩

theorem needbits_Step1 (n : Nat) (st : St) (hlt : st.bits < n)
    (h1 : st.inFail = false) (h2 : st.outFail = false)
    (h3 : st.nextNull = true → st.next = []) : StepOK st (needbits n st) := by
  unfold needbits
  rw [if_pos hlt]
  obtain ⟨k, hk⟩ : ∃ k, (n - st.bits + 7) / 8 = k + 1 := ⟨(n - st.bits + 7) / 8 - 1, by omega⟩
  rw [hk, pullBytes]
  have hpb := pullByte_Step st h1 h2 h3
  cases heq : pullByte st with
  | error e =>
    rw [heq] at hpb
    exact hpb
  | ok stm =>
    rw [heq] at hpb
    obtain ⟨hp1, hm1, hl1⟩ := hpb
    have hih := pullBytes_StepOK k stm hp1
    dsimp only
    cases heq2 : pullBytes k stm with
    | error e =>
      rw [heq2] at hih
      exact hih
    | ok st2 =>
      rw [heq2] at hih
      obtain ⟨hp2, hm2, hl2⟩ := hih
      exact ⟨hp2, hm2.trans hm1, hl2.trans hl1⟩

theorem room_StepOK (st : St) (hp : Pre0 st) : StepOK st (room st) := by
  obtain ⟨h1, h2, h3⟩ := hp
  unfold room
  split
  case isTrue hz =>
    dsimp only
    rcases hpp : popOut {st with put := 0, left := st.wsize, whave := st.wsize} with ⟨bb, st2⟩
    obtain ⟨f1, f2, f3, f4, f5⟩ := popOut_fields _ bb st2 hpp
    cases bb
    · exact ⟨⟨f2.trans h1, f3.trans h2, f1.trans h3⟩, f4, f5⟩
    · exact ⟨rfl, Or.inr ⟨f1.trans h3, f2.trans h1, rfl⟩⟩
  case isFalse =>
    exact ⟨⟨h1, h2, h3⟩, rfl, rfl⟩

theorem decodeLoop_flags (tbl : Nat → Code) (idx : Nat → Nat) (extra : Nat) :
    ∀ n st, remIn st = n → Pre0 st →
    (∀ e, decodeLoop tbl idx extra st = Except.error e → ErrShape e.1 e.2) ∧
    (∀ c st', decodeLoop tbl idx extra st = Except.ok (c, st') → Pre0 st') := by
  intro n
  induction n using Nat.strong_induction_on with
  | _ n ihn =>
    intro st hst hp
    constructor
    · intro e he
      rw [decodeLoop] at he
      split at he
      · cases he
      · split at he
        case h_1 e0 heq =>
          cases he
          have hpb := pullByte_Step st hp.1 hp.2.1
            (by intro hc; rw [hp.2.2] at hc; cases hc)
          rw [heq] at hpb
          exact hpb
        case h_2 stm heq =>
          have hpb := pullByte_Step st hp.1 hp.2.1
            (by intro hc; rw [hp.2.2] at hc; cases hc)
          rw [heq] at hpb
          exact (ihn (remIn stm) (hst ▸ pullByte_remIn st stm heq) stm rfl hpb.1).1 e he
    · intro c st' he
      rw [decodeLoop] at he
      split at he
      · cases he
        exact hp
      · split at he
        case h_1 => cases he
        case h_2 stm heq =>
          have hpb := pullByte_Step st hp.1 hp.2.1
            (by intro hc; rw [hp.2.2] at hc; cases hc)
          rw [heq] at hpb
          exact (ihn (remIn stm) (hst ▸ pullByte_remIn st stm heq) stm rfl hpb.1).2 c st' he

theorem decodeSym_flags (tbl : Nat → Code) (tbits : Nat) (needOp : Bool) (st : St)
    (hp : Pre0 st) :
    (∀ e, decodeSym tbl tbits needOp st = Except.error e → ErrShape e.1 e.2) ∧
    (∀ c st', decodeSym tbl tbits needOp st = Except.ok (c, st') →
      Pre0 st' ∧ st'.mode = st.mode ∧ st'.last = st.last) := by
  obtain ⟨dErr, dOk⟩ := decodeLoop_flags tbl (BITSm tbits) 0 (remIn st) st rfl hp
  constructor
  · intro e he
    unfold decodeSym at he
    split at he
    case h_1 e0 heq =>
      cases he
      exact dErr _ heq
    case h_2 h0 st1 heq =>
      split at he
      · split at he
        case h_1 e1 heq2 =>
          cases he
          have hp1 : Pre0 st1 := dOk h0 st1 heq
          obtain ⟨sErr, _⟩ := decodeLoop_flags tbl
            (fun h => h0.val + (BITSm (h0.bits + h0.op) h >>> h0.bits)) h0.bits
            (remIn st1) st1 rfl hp1
          exact sErr _ heq2
        case h_2 => cases he
      · cases he
  · intro c st' he
    unfold decodeSym at he
    split at he
    case h_1 => cases he
    case h_2 h0 st1 heq =>
      have hp1 : Pre0 st1 := dOk h0 st1 heq
      have hf1 := decodeLoop_fields tbl (BITSm tbits) 0 (remIn st) st rfl h0 st1 heq
      split at he
      · split at he
        case h_1 => cases he
        case h_2 h1 st2 heq2 =>
          cases he
          obtain ⟨sErr, sOk⟩ := decodeLoop_flags tbl
            (fun h => h0.val + (BITSm (h0.bits + h0.op) h >>> h0.bits)) h0.bits
            (remIn st1) st1 rfl hp1
          have hp2 : Pre0 st2 := sOk _ st2 heq2
          have hf2 := decodeLoop_fields tbl
            (fun h => h0.val + (BITSm (h0.bits + h0.op) h >>> h0.bits)) h0.bits
            (remIn st1) st1 rfl _ st2 heq2
          exact ⟨hp2, hf2.1.trans hf1.1, hf2.2.1.trans hf1.2.1⟩
      · cases he
        exact ⟨hp1, hf1.1, hf1.2.1⟩

theorem StepOK_mono (a b : St) (r : Except (Int × St) St) (hm : b.mode = a.mode)
    (hl : b.last = a.last) (h : StepOK b r) : StepOK a r := by
  cases r with
  | ok st' => exact ⟨h.1, h.2.1.trans hm, h.2.2.trans hl⟩
  | error e => exact h

theorem StepOKB_mono (a b : St) (r : Except (Int × St) St) (hm : b.mode = a.mode)
    (hl : b.last = a.last) (h : StepOKB b r) : StepOKB a r := by
  cases r with
  | ok st' =>
    refine ⟨h.1, ?_, h.2.2.trans hl⟩
    rcases h.2.1 with hc | hc
    · exact Or.inl (hc.trans hm)
    · exact Or.inr hc
  | error e => exact h

theorem StepOK_toB (a : St) (r : Except (Int × St) St) (h : StepOK a r) :
    StepOKB a r := by
  cases r with
  | ok st' => exact ⟨h.1, Or.inl h.2.1, h.2.2⟩
  | error e => exact h

theorem pull_Step (st : St) (hp : Pre0 st) : StepOK st (pull st) := by
  obtain ⟨h1, h2, h3⟩ := hp
  unfold pull
  split
  case isTrue hemp =>
    split
    · exact ⟨rfl, Or.inl ⟨rfl, rfl, h2⟩⟩
    · split
      · exact ⟨rfl, Or.inl ⟨rfl, rfl, h2⟩⟩
      · exact ⟨⟨h1, h2, rfl⟩, rfl, rfl⟩
  case isFalse =>
    exact ⟨⟨h1, h2, h3⟩, rfl, rfl⟩

theorem storedCopyLoop_StepOK (fuel : Nat) : ∀ st : St, Pre0 st →
    StepOK st (storedCopyLoop fuel st) := by
  induction fuel with
  | zero =>
    intro st hp
    exact ⟨hp, rfl, rfl⟩
  | succ fuel ih =>
    intro st hp
    rw [storedCopyLoop]
    split
    · exact ⟨hp, rfl, rfl⟩
    · have hpl := pull_Step st hp
      cases heq : pull st with
      | error e =>
        rw [heq] at hpl
        exact hpl
      | ok st1 =>
        rw [heq] at hpl
        obtain ⟨hp1, hm1, hl1⟩ := hpl
        dsimp only
        have hro := room_StepOK st1 hp1
        cases heq2 : room st1 with
        | error e =>
          rw [heq2] at hro
          exact hro
        | ok st2 =>
          rw [heq2] at hro
          obtain ⟨hp2, hm2, hl2⟩ := hro
          dsimp only
          exact StepOK_mono st _ _ (hm2.trans hm1) (hl2.trans hl1) (ih _ hp2)

theorem readCLL_StepOK (fuel : Nat) : ∀ st : St, Pre0 st →
    StepOK st (readCLL fuel st) := by
  induction fuel with
  | zero =>
    intro st hp
    exact ⟨hp, rfl, rfl⟩
  | succ fuel ih =>
    intro st hp
    rw [readCLL]
    split
    · have hnb := needbits_StepOK 3 st hp
      cases heq : needbits 3 st with
      | error e =>
        rw [heq] at hnb
        exact hnb
      | ok st1 =>
        rw [heq] at hnb
        obtain ⟨hp1, hm1, hl1⟩ := hnb
        dsimp only
        exact StepOK_mono st _ _ hm1 hl1 (ih _ hp1)
    · exact ⟨hp, rfl, rfl⟩

theorem fillLens_flags (v : Nat) (c : Nat) : ∀ s : St,
    (fillLens v c s).inFail = s.inFail ∧ (fillLens v c s).outFail = s.outFail ∧
    (fillLens v c s).nextNull = s.nextNull := by
  induction c with
  | zero =>
    intro s
    exact ⟨rfl, rfl, rfl⟩
  | succ c ih =>
    intro s
    rw [fillLens]
    obtain ⟨p1, p2, p3⟩ := ih {s with lens := updF s.lens s.havec v, havec := s.havec + 1}
    exact ⟨p1, p2, p3⟩

theorem decodeLensLoop_StepOKB (fuel : Nat) : ∀ st : St, Pre0 st →
    StepOKB st (decodeLensLoop fuel st) := by
  induction fuel with
  | zero =>
    intro st hp
    exact ⟨hp, Or.inl rfl, rfl⟩
  | succ fuel ih =>
    intro st hp
    rw [decodeLensLoop]
    split
    case isFalse => exact ⟨hp, Or.inl rfl, rfl⟩
    case isTrue hlt =>
      obtain ⟨dErr, dOk⟩ := decodeLoop_flags st.lencode (BITSm st.lenbits) 0
        (remIn st) st rfl hp
      cases hdl : decodeLoop st.lencode (BITSm st.lenbits) 0 st with
      | error e => exact dErr e hdl
      | ok pr =>
        obtain ⟨here, s1⟩ := pr
        have hp1 : Pre0 s1 := dOk here s1 hdl
        obtain ⟨m1, m2, _⟩ := decodeLoop_fields st.lencode (BITSm st.lenbits) 0
          (remIn st) st rfl here s1 hdl
        dsimp only
        split
        · exact StepOKB_mono st _ _ m1 m2 (ih _ hp1)
        · split
          · have hnbS := needbits_StepOK (here.bits + 2) s1 hp1
            cases hnb : needbits (here.bits + 2) s1 with
            | error e =>
              rw [hnb] at hnbS
              exact hnbS
            | ok s2 =>
              rw [hnb] at hnbS
              obtain ⟨hp2, hm2, hl2⟩ := hnbS
              dsimp only
              split
              · exact ⟨hp2, Or.inr rfl, hl2.trans m2⟩
              · try dsimp only
                split
                · exact ⟨hp2, Or.inr rfl, hl2.trans m2⟩
                · obtain ⟨g1, g2, g3⟩ := fillLens_flags _ _
                    (dropbits 2 (dropbits here.bits s2))
                  refine StepOKB_mono st _ _ ?_ ?_ (ih _ ?_)
                  · exact ((fillLens_fields _ _ _).2.2.2.1).trans (hm2.trans m1)
                  · exact ((fillLens_fields _ _ _).2.2.2.2.2.2.2.1).trans (hl2.trans m2)
                  · exact ⟨g1.trans hp2.1, g2.trans hp2.2.1, g3.trans hp2.2.2⟩
          · split
            · have hnbS := needbits_StepOK (here.bits + 3) s1 hp1
              cases hnb : needbits (here.bits + 3) s1 with
              | error e =>
                rw [hnb] at hnbS
                exact hnbS
              | ok s2 =>
                rw [hnb] at hnbS
                obtain ⟨hp2, hm2, hl2⟩ := hnbS
                dsimp only
                split
                · exact ⟨hp2, Or.inr rfl, hl2.trans m2⟩
                · obtain ⟨g1, g2, g3⟩ := fillLens_flags _ _
                    (dropbits 3 (dropbits here.bits s2))
                  refine StepOKB_mono st _ _ ?_ ?_ (ih _ ?_)
                  · exact ((fillLens_fields _ _ _).2.2.2.1).trans (hm2.trans m1)
                  · exact ((fillLens_fields _ _ _).2.2.2.2.2.2.2.1).trans (hl2.trans m2)
                  · exact ⟨g1.trans hp2.1, g2.trans hp2.2.1, g3.trans hp2.2.2⟩
            · have hnbS := needbits_StepOK (here.bits + 7) s1 hp1
              cases hnb : needbits (here.bits + 7) s1 with
              | error e =>
                rw [hnb] at hnbS
                exact hnbS
              | ok s2 =>
                rw [hnb] at hnbS
                obtain ⟨hp2, hm2, hl2⟩ := hnbS
                dsimp only
                split
                · exact ⟨hp2, Or.inr rfl, hl2.trans m2⟩
                · obtain ⟨g1, g2, g3⟩ := fillLens_flags _ _
                    (dropbits 7 (dropbits here.bits s2))
                  refine StepOKB_mono st _ _ ?_ ?_ (ih _ ?_)
                  · exact ((fillLens_fields _ _ _).2.2.2.1).trans (hm2.trans m1)
                  · exact ((fillLens_fields _ _ _).2.2.2.2.2.2.2.1).trans (hl2.trans m2)
                  · exact ⟨g1.trans hp2.1, g2.trans hp2.2.1, g3.trans hp2.2.2⟩

theorem tableFinish_flags (s : St) (hp : Pre0 s) : ∀ s', tableFinish s = Except.ok s' →
    Pre0 s' ∧ (s'.mode = Mode.BAD ∨ s'.mode = Mode.LEN) ∧ s'.last = s.last := by
  intro s' h
  unfold tableFinish at h
  split at h
  · injection h with h2
    subst h2
    exact ⟨hp, Or.inl rfl, rfl⟩
  · dsimp only at h
    split at h
    · injection h with h2
      subst h2
      exact ⟨hp, Or.inl rfl, rfl⟩
    · split at h
      · injection h with h2
        subst h2
        exact ⟨hp, Or.inl rfl, rfl⟩
      · injection h with h2
        subst h2
        exact ⟨hp, Or.inr rfl, rfl⟩

theorem copyRun_flags (c : Nat) : ∀ (fromIdx : Nat) (s : St),
    (copyRun c fromIdx s).inFail = s.inFail ∧
    (copyRun c fromIdx s).outFail = s.outFail ∧
    (copyRun c fromIdx s).nextNull = s.nextNull ∧
    (copyRun c fromIdx s).mode = s.mode ∧
    (copyRun c fromIdx s).last = s.last := by
  induction c with
  | zero =>
    intro fromIdx s
    exact ⟨rfl, rfl, rfl, rfl, rfl⟩
  | succ c ih =>
    intro fromIdx s
    rw [copyRun]
    obtain ⟨p1, p2, p3, p4, p5⟩ := ih (fromIdx + 1) (putByte (s.window fromIdx) s)
    exact ⟨p1, p2, p3, p4, p5⟩

theorem matchCopyLoop_StepOK (fuel : Nat) : ∀ st : St, Pre0 st →
    StepOK st (matchCopyLoop fuel st) := by
  induction fuel with
  | zero =>
    intro st hp
    exact ⟨hp, rfl, rfl⟩
  | succ fuel ih =>
    intro st hp
    rw [matchCopyLoop]
    have hro := room_StepOK st hp
    cases heq : room st with
    | error e =>
      rw [heq] at hro
      exact hro
    | ok st1 =>
      rw [heq] at hro
      obtain ⟨hp1, hm1, hl1⟩ := hro
      dsimp only
      by_cases hcase : st1.wsize - st1.offset < st1.left
      · simp only [if_pos hcase]
        obtain ⟨g1, g2, g3, g4, g5⟩ := copyRun_flags
          (min (st1.left - (st1.wsize - st1.offset)) st1.length)
          (st1.put + (st1.wsize - st1.offset))
          {st1 with length := st1.length - min (st1.left - (st1.wsize - st1.offset)) st1.length}
        split
        · refine StepOK_mono st _ _ ?_ ?_ (ih _ ?_)
          · exact g4.trans hm1
          · exact g5.trans hl1
          · exact ⟨g1.trans hp1.1, g2.trans hp1.2.1, g3.trans hp1.2.2⟩
        · exact ⟨⟨g1.trans hp1.1, g2.trans hp1.2.1, g3.trans hp1.2.2⟩,
            g4.trans hm1, g5.trans hl1⟩
      · simp only [if_neg hcase]
        obtain ⟨g1, g2, g3, g4, g5⟩ := copyRun_flags
          (min st1.left st1.length)
          (st1.put - st1.offset)
          {st1 with length := st1.length - min st1.left st1.length}
        split
        · refine StepOK_mono st _ _ ?_ ?_ (ih _ ?_)
          · exact g4.trans hm1
          · exact g5.trans hl1
          · exact ⟨g1.trans hp1.1, g2.trans hp1.2.1, g3.trans hp1.2.2⟩
        · exact ⟨⟨g1.trans hp1.1, g2.trans hp1.2.1, g3.trans hp1.2.2⟩,
            g4.trans hm1, g5.trans hl1⟩

theorem mode_bad_ne_done : Mode.BAD ≠ Mode.DONE := fun h => Mode.noConfusion h

theorem mode_type_ne_done : Mode.TYPE ≠ Mode.DONE := fun h => Mode.noConfusion h

theorem mode_stored_ne_done : Mode.STORED ≠ Mode.DONE := fun h => Mode.noConfusion h

theorem mode_table_ne_done : Mode.TABLE ≠ Mode.DONE := fun h => Mode.noConfusion h

theorem mode_len_ne_done : Mode.LEN ≠ Mode.DONE := fun h => Mode.noConfusion h

theorem zeroFill19_flags (fuel : Nat) : ∀ s : St,
    (zeroFill19 fuel s).inFail = s.inFail ∧ (zeroFill19 fuel s).outFail = s.outFail ∧
    (zeroFill19 fuel s).nextNull = s.nextNull := by
  induction fuel with
  | zero =>
    intro s
    exact ⟨rfl, rfl, rfl⟩
  | succ fuel ih =>
    intro s
    rw [zeroFill19]
    split
    · obtain ⟨p1, p2, p3⟩ := ih {s with lens := updF s.lens (orderF s.havec) 0, havec := s.havec + 1}
      exact ⟨p1, p2, p3⟩
    · exact ⟨rfl, rfl, rfl⟩

theorem tableFinish_BodyOK (a s : St) (hp : Pre0 s) : BodyOK a (tableFinish s) := by
  unfold tableFinish
  split
  · exact ⟨hp, fun hd => absurd hd mode_bad_ne_done⟩
  · dsimp only
    split
    · exact ⟨hp, fun hd => absurd hd mode_bad_ne_done⟩
    · split
      · exact ⟨hp, fun hd => absurd hd mode_bad_ne_done⟩
      · exact ⟨hp, fun hd => absurd hd mode_len_ne_done⟩

theorem lenAfterDist_BodyOK (a s : St) (hp : Pre0 s) (hm : s.mode = a.mode)
    (hmne : a.mode ≠ Mode.DONE) : BodyOK a (lenAfterDist s) := by
  unfold lenAfterDist
  split
  · exact ⟨hp, fun hd => absurd hd mode_bad_ne_done⟩
  · have hmc := matchCopyLoop_StepOK s.length s hp
    cases hq : matchCopyLoop s.length s with
    | error e =>
      rw [hq] at hmc
      exact hmc
    | ok s2 =>
      rw [hq] at hmc
      exact ⟨hmc.1, fun hd => absurd ((hmc.2.1.trans hm).symm.trans hd) hmne⟩

theorem storedBody_BodyOK (st : St) (hp : Pre0 st) : BodyOK st (storedBody st) := by
  unfold storedBody
  dsimp only
  have hnbS := needbits_StepOK 32 (bytebits st) hp
  cases hnb : needbits 32 (bytebits st) with
  | error e =>
    rw [hnb] at hnbS
    exact hnbS
  | ok s1 =>
    rw [hnb] at hnbS
    obtain ⟨hp1, hm1, hl1⟩ := hnbS
    dsimp only
    split
    · exact ⟨hp1, fun hd => absurd hd mode_bad_ne_done⟩
    · have hscS := storedCopyLoop_StepOK (initbits {s1 with length := s1.hold &&& 0xffff}).length (initbits {s1 with length := s1.hold &&& 0xffff}) hp1
      cases hsc : storedCopyLoop (initbits {s1 with length := s1.hold &&& 0xffff}).length (initbits {s1 with length := s1.hold &&& 0xffff}) with
      | error e =>
        rw [hsc] at hscS
        exact hscS
      | ok s3 =>
        rw [hsc] at hscS
        exact ⟨hscS.1, fun hd => absurd hd mode_type_ne_done⟩

theorem typeBody_BodyOK (st : St) (hr : RunInv st) : BodyOK st (typeBody st) := by
  unfold typeBody
  split
  case isTrue hlast =>
    have hnn : st.nextNull = false := by
      cases hc : st.nextNull
      · rfl
      · have hlf := (hr.2.2.1 hc).2.2.2
        rw [hlf] at hlast
        exact Bool.noConfusion hlast
    exact ⟨⟨hr.1, hr.2.1, hnn⟩, fun _ => hlast⟩
  case isFalse hlast =>
    have hnb : StepOK st (needbits 3 st) := by
      cases hc : st.nextNull
      · exact needbits_StepOK 3 st ⟨hr.1, hr.2.1, hc⟩
      · obtain ⟨hne, hbz, _, _⟩ := hr.2.2.1 hc
        exact needbits_Step1 3 st (by omega) hr.1 hr.2.1 (fun _ => hne)
    cases heq : needbits 3 st with
    | error e =>
      rw [heq] at hnb
      exact hnb
    | ok s1 =>
      rw [heq] at hnb
      obtain ⟨hp1, hm1, hl1⟩ := hnb
      dsimp only
      rcases hb2 : BITSm 2 (dropbits 1 {s1 with last := decide (BITSm 1 s1.hold = 1)}).hold with _ | _ | _ | k
      · exact ⟨hp1, fun hd => absurd hd mode_stored_ne_done⟩
      · exact ⟨hp1, fun hd => absurd hd mode_len_ne_done⟩
      · exact ⟨hp1, fun hd => absurd hd mode_table_ne_done⟩
      · exact ⟨hp1, fun hd => absurd hd mode_bad_ne_done⟩

theorem tableBody_BodyOK (st : St) (hp : Pre0 st) : BodyOK st (tableBody st) := by
  unfold tableBody
  have hnbS := needbits_StepOK 14 st hp
  cases hnb : needbits 14 st with
  | error e =>
    rw [hnb] at hnbS
    exact hnbS
  | ok s1 =>
    rw [hnb] at hnbS
    obtain ⟨hp1, hm1, hl1⟩ := hnbS
    dsimp only
    set s2 : St := dropbits 5 {s1 with nlen := BITSm 5 s1.hold + 257} with hs2
    set s3 : St := dropbits 5 {s2 with ndist := BITSm 5 s2.hold + 1} with hs3
    set s4 : St := dropbits 4 {s3 with ncode := BITSm 4 s3.hold + 4} with hs4
    split
    · exact ⟨hp1, fun hd => absurd hd mode_bad_ne_done⟩
    · have hrcS := readCLL_StepOK 19 {s4 with havec := 0} hp1
      cases hrc : readCLL 19 {s4 with havec := 0} with
      | error e =>
        rw [hrc] at hrcS
        exact hrcS
      | ok s6 =>
        rw [hrc] at hrcS
        obtain ⟨hp6, hm6, hl6⟩ := hrcS
        dsimp only
        set s7 : St := zeroFill19 19 s6 with hs7
        obtain ⟨z1, z2, z3⟩ := zeroFill19_flags 19 s6
        have hp7 : Pre0 s7 := ⟨z1.trans hp6.1, z2.trans hp6.2.1, z3.trans hp6.2.2⟩
        split
        · exact ⟨hp7, fun hd => absurd hd mode_bad_ne_done⟩
        · set s8 : St := {s7 with lencode := (inflate_table CodeType.CODES s7.lens 19 7).2.1, lenbits := (inflate_table CodeType.CODES s7.lens 19 7).2.2, havec := 0} with hs8
          have hdlS := decodeLensLoop_StepOKB (s8.nlen + s8.ndist) s8 hp7
          cases hdl : decodeLensLoop (s8.nlen + s8.ndist) s8 with
          | error e =>
            rw [hdl] at hdlS
            exact hdlS
          | ok s9 =>
            rw [hdl] at hdlS
            obtain ⟨hp9, _, _⟩ := hdlS
            dsimp only
            split
            case isTrue hbad =>
              exact ⟨hp9, fun hd => absurd (hbad.symm.trans hd) mode_bad_ne_done⟩
            case isFalse =>
              exact tableFinish_BodyOK st s9 hp9

theorem lenBody_BodyOK (st : St) (hp : Pre0 st) (hmne : st.mode ≠ Mode.DONE) :
    BodyOK st (lenBody st) := by
  unfold lenBody
  obtain ⟨dErr, dOk⟩ := decodeSym_flags st.lencode st.lenbits true st hp
  cases hds : decodeSym st.lencode st.lenbits true st with
  | error e => exact dErr e hds
  | ok pr =>
    obtain ⟨here, st2⟩ := pr
    obtain ⟨hp2, hm2, hl2⟩ := dOk here st2 hds
    dsimp only
    set st3 : St := {dropbits here.bits st2 with length := here.val} with hst3
    split
    case isTrue hop0 =>
      have hroS := room_StepOK st3 hp2
      cases hro : room st3 with
      | error e =>
        rw [hro] at hroS
        exact hroS
      | ok st4 =>
        rw [hro] at hroS
        obtain ⟨hp4, hm4, hl4⟩ := hroS
        exact ⟨hp4, fun hd => absurd ((hm4.trans hm2).symm.trans hd) hmne⟩
    case isFalse =>
      split
      case isTrue =>
        exact ⟨hp2, fun hd => absurd hd mode_type_ne_done⟩
      case isFalse =>
        split
        case isTrue =>
          exact ⟨hp2, fun hd => absurd hd mode_bad_ne_done⟩
        case isFalse =>
          by_cases hex : here.op &&& 15 ≠ 0
          · rw [if_pos hex]
            have hnbS := needbits_StepOK (here.op &&& 15) st3 hp2
            cases hnb : needbits (here.op &&& 15) st3 with
            | error e =>
              rw [hnb] at hnbS
              exact hnbS
            | ok s5 =>
              rw [hnb] at hnbS
              obtain ⟨hp5a, hm5a, hl5a⟩ := hnbS
              dsimp only
              set st5 : St := dropbits (here.op &&& 15) {s5 with length := s5.length + BITSm (here.op &&& 15) s5.hold} with hst5
              have hp5 : Pre0 st5 := hp5a
              have hm5t : st5.mode = st.mode := hm5a.trans hm2
              obtain ⟨eErr, eOk⟩ := decodeSym_flags st5.distcode st5.distbits false st5 hp5
              cases hds2 : decodeSym st5.distcode st5.distbits false st5 with
              | error e => exact eErr e hds2
              | ok pr2 =>
                obtain ⟨dh, st7⟩ := pr2
                obtain ⟨hp7, hm7, hl7⟩ := eOk dh st7 hds2
                dsimp only
                split
                · exact ⟨hp7, fun hd => absurd hd mode_bad_ne_done⟩
                · by_cases hex2 : dh.op &&& 15 ≠ 0
                  · rw [if_pos hex2]
                    have hnb2S := needbits_StepOK (dh.op &&& 15) {dropbits dh.bits st7 with offset := dh.val} hp7
                    cases hnb2 : needbits (dh.op &&& 15) {dropbits dh.bits st7 with offset := dh.val} with
                    | error e =>
                      rw [hnb2] at hnb2S
                      exact hnb2S
                    | ok s9 =>
                      rw [hnb2] at hnb2S
                      obtain ⟨hp9, hm9, hl9⟩ := hnb2S
                      dsimp only
                      exact lenAfterDist_BodyOK st _ hp9 ((hm9.trans hm7).trans hm5t) hmne
                  · rw [if_neg hex2]
                    dsimp only
                    exact lenAfterDist_BodyOK st _ hp7 (hm7.trans hm5t) hmne
          · rw [if_neg hex]
            dsimp only
            have hm2b : st3.mode = st.mode := hm2
            obtain ⟨eErr, eOk⟩ := decodeSym_flags st3.distcode st3.distbits false st3 hp2
            cases hds2 : decodeSym st3.distcode st3.distbits false st3 with
            | error e => exact eErr e hds2
            | ok pr2 =>
              obtain ⟨dh, st7⟩ := pr2
              obtain ⟨hp7, hm7, hl7⟩ := eOk dh st7 hds2
              dsimp only
              split
              · exact ⟨hp7, fun hd => absurd hd mode_bad_ne_done⟩
              · by_cases hex2 : dh.op &&& 15 ≠ 0
                · rw [if_pos hex2]
                  have hnb2S := needbits_StepOK (dh.op &&& 15) {dropbits dh.bits st7 with offset := dh.val} hp7
                  cases hnb2 : needbits (dh.op &&& 15) {dropbits dh.bits st7 with offset := dh.val} with
                  | error e =>
                    rw [hnb2] at hnb2S
                    exact hnb2S
                  | ok s9 =>
                    rw [hnb2] at hnb2S
                    obtain ⟨hp9, hm9, hl9⟩ := hnb2S
                    dsimp only
                    exact lenAfterDist_BodyOK st _ hp9 ((hm9.trans hm7).trans hm2b) hmne
                · rw [if_neg hex2]
                  dsimp only
                  exact lenAfterDist_BodyOK st _ hp7 (hm7.trans hm2b) hmne


theorem infLeave_shape (ret : Int) (s : St) : ∀ r stf, infLeave ret s = (r, stf) →
    stf.nextNull = s.nextNull ∧ stf.inFail = s.inFail ∧ stf.last = s.last ∧
    (r = ret ∨ (r = Z_BUF_ERROR ∧ ret = Z_STREAM_END)) := by
  intro r stf h
  unfold infLeave at h
  split at h
  · rcases hpp : popOut s with ⟨b, s1⟩
    rw [hpp] at h
    obtain ⟨q1, q2, q3, _, q5⟩ := popOut_fields s b s1 hpp
    cases b
    · dsimp only at h
      injection h with ha hb
      subst ha
      subst hb
      exact ⟨q1, q2, q5, Or.inl rfl⟩
    · dsimp only at h
      injection h with ha hb
      subst hb
      refine ⟨q1, q2, q5, ?_⟩
      by_cases hre : ret = Z_STREAM_END
      · rw [if_pos hre] at ha
        exact Or.inr ⟨ha.symm, hre⟩
      · rw [if_neg hre] at ha
        exact Or.inl ha.symm
  · injection h with ha hb
    subst ha
    subst hb
    exact ⟨rfl, rfl, rfl, Or.inl rfl⟩

theorem resetSt_RunInv (st : St) : RunInv (resetSt st) := by
  refine ⟨rfl, rfl, fun hn => ⟨?_, rfl, rfl, rfl⟩, fun hd => absurd hd mode_type_ne_done⟩
  show (if st.nextNull then [] else st.next) = []
  exact if_pos hn

theorem runLoop_class (fuel : Nat) : ∀ st : St, RunInv st → ∀ r stf,
    runLoop fuel st = some (r, stf) →
    (r = Z_STREAM_END ∨ r = Z_DATA_ERROR ∨ r = Z_BUF_ERROR) ∧
    (r = Z_BUF_ERROR → (stf.nextNull = true ↔ stf.inFail = true)) ∧
    (r = Z_STREAM_END → stf.last = true) := by
  induction fuel with
  | zero =>
    intro st hr r stf h
    exact Option.noConfusion h
  | succ fuel ih =>
    intro st hr r stf h
    rw [runLoop] at h
    cases hmode : st.mode
    case TYPE =>
      have hso : stepOnce st = mkStep (typeBody st) := by
        unfold stepOnce
        rw [hmode]
      have hb := typeBody_BodyOK st hr
      rw [hso] at h
      cases hbody : typeBody st with
      | ok s1 =>
        rw [hbody] at h hb
        dsimp only [mkStep] at h
        have hb2 : Pre0 s1 ∧ (s1.mode = Mode.DONE → s1.last = true) := hb
        exact ih s1 ⟨hb2.1.1, hb2.1.2.1, fun hn => Bool.noConfusion (hb2.1.2.2.symm.trans hn), hb2.2⟩ r stf h
      | error e =>
        rw [hbody] at h hb
        dsimp only [mkStep] at h
        injection h with h2
        have hb3 : ErrShape e.1 e.2 := hb
        obtain ⟨he1, hsh⟩ := hb3
        obtain ⟨f1, f2, f3, f4⟩ := infLeave_shape e.1 e.2 r stf h2
        have hrB : r = Z_BUF_ERROR := by
          rcases f4 with hc | ⟨hc, _⟩
          · exact hc.trans he1
          · exact hc
        refine ⟨Or.inr (Or.inr hrB), fun _ => ?_, fun hre => absurd (hrB.symm.trans hre) (by decide)⟩
        rcases hsh with ⟨hn, hi, _⟩ | ⟨hn, hi, _⟩
        · rw [f1, f2, hn, hi]
        · rw [f1, f2, hn, hi]
    case STORED =>
      have hnn : st.nextNull = false := by
        cases hc : st.nextNull
        · rfl
        · exact Mode.noConfusion (hmode.symm.trans (hr.2.2.1 hc).2.2.1)
      have hso : stepOnce st = mkStep (storedBody st) := by
        unfold stepOnce
        rw [hmode]
      have hb := storedBody_BodyOK st ⟨hr.1, hr.2.1, hnn⟩
      rw [hso] at h
      cases hbody : storedBody st with
      | ok s1 =>
        rw [hbody] at h hb
        dsimp only [mkStep] at h
        have hb2 : Pre0 s1 ∧ (s1.mode = Mode.DONE → s1.last = true) := hb
        exact ih s1 ⟨hb2.1.1, hb2.1.2.1, fun hn => Bool.noConfusion (hb2.1.2.2.symm.trans hn), hb2.2⟩ r stf h
      | error e =>
        rw [hbody] at h hb
        dsimp only [mkStep] at h
        injection h with h2
        have hb3 : ErrShape e.1 e.2 := hb
        obtain ⟨he1, hsh⟩ := hb3
        obtain ⟨f1, f2, f3, f4⟩ := infLeave_shape e.1 e.2 r stf h2
        have hrB : r = Z_BUF_ERROR := by
          rcases f4 with hc | ⟨hc, _⟩
          · exact hc.trans he1
          · exact hc
        refine ⟨Or.inr (Or.inr hrB), fun _ => ?_, fun hre => absurd (hrB.symm.trans hre) (by decide)⟩
        rcases hsh with ⟨hn, hi, _⟩ | ⟨hn, hi, _⟩
        · rw [f1, f2, hn, hi]
        · rw [f1, f2, hn, hi]
    case TABLE =>
      have hnn : st.nextNull = false := by
        cases hc : st.nextNull
        · rfl
        · exact Mode.noConfusion (hmode.symm.trans (hr.2.2.1 hc).2.2.1)
      have hso : stepOnce st = mkStep (tableBody st) := by
        unfold stepOnce
        rw [hmode]
      have hb := tableBody_BodyOK st ⟨hr.1, hr.2.1, hnn⟩
      rw [hso] at h
      cases hbody : tableBody st with
      | ok s1 =>
        rw [hbody] at h hb
        dsimp only [mkStep] at h
        have hb2 : Pre0 s1 ∧ (s1.mode = Mode.DONE → s1.last = true) := hb
        exact ih s1 ⟨hb2.1.1, hb2.1.2.1, fun hn => Bool.noConfusion (hb2.1.2.2.symm.trans hn), hb2.2⟩ r stf h
      | error e =>
        rw [hbody] at h hb
        dsimp only [mkStep] at h
        injection h with h2
        have hb3 : ErrShape e.1 e.2 := hb
        obtain ⟨he1, hsh⟩ := hb3
        obtain ⟨f1, f2, f3, f4⟩ := infLeave_shape e.1 e.2 r stf h2
        have hrB : r = Z_BUF_ERROR := by
          rcases f4 with hc | ⟨hc, _⟩
          · exact hc.trans he1
          · exact hc
        refine ⟨Or.inr (Or.inr hrB), fun _ => ?_, fun hre => absurd (hrB.symm.trans hre) (by decide)⟩
        rcases hsh with ⟨hn, hi, _⟩ | ⟨hn, hi, _⟩
        · rw [f1, f2, hn, hi]
        · rw [f1, f2, hn, hi]
    case LEN =>
      have hnn : st.nextNull = false := by
        cases hc : st.nextNull
        · rfl
        · exact Mode.noConfusion (hmode.symm.trans (hr.2.2.1 hc).2.2.1)
      have hso : stepOnce st = mkStep (lenBody st) := by
        unfold stepOnce
        rw [hmode]
      have hb := lenBody_BodyOK st ⟨hr.1, hr.2.1, hnn⟩ (by rw [hmode]; exact mode_len_ne_done)
      rw [hso] at h
      cases hbody : lenBody st with
      | ok s1 =>
        rw [hbody] at h hb
        dsimp only [mkStep] at h
        have hb2 : Pre0 s1 ∧ (s1.mode = Mode.DONE → s1.last = true) := hb
        exact ih s1 ⟨hb2.1.1, hb2.1.2.1, fun hn => Bool.noConfusion (hb2.1.2.2.symm.trans hn), hb2.2⟩ r stf h
      | error e =>
        rw [hbody] at h hb
        dsimp only [mkStep] at h
        injection h with h2
        have hb3 : ErrShape e.1 e.2 := hb
        obtain ⟨he1, hsh⟩ := hb3
        obtain ⟨f1, f2, f3, f4⟩ := infLeave_shape e.1 e.2 r stf h2
        have hrB : r = Z_BUF_ERROR := by
          rcases f4 with hc | ⟨hc, _⟩
          · exact hc.trans he1
          · exact hc
        refine ⟨Or.inr (Or.inr hrB), fun _ => ?_, fun hre => absurd (hrB.symm.trans hre) (by decide)⟩
        rcases hsh with ⟨hn, hi, _⟩ | ⟨hn, hi, _⟩
        · rw [f1, f2, hn, hi]
        · rw [f1, f2, hn, hi]
    case DONE =>
      have hso : stepOnce st = StepR.leave Z_STREAM_END st := by
        unfold stepOnce
        rw [hmode]
      rw [hso] at h
      dsimp only at h
      injection h with h2
      obtain ⟨f1, f2, f3, f4⟩ := infLeave_shape Z_STREAM_END st r stf h2
      have hnn : st.nextNull = false := by
        cases hc : st.nextNull
        · rfl
        · exact Mode.noConfusion (hmode.symm.trans (hr.2.2.1 hc).2.2.1)
      have hlast : st.last = true := hr.2.2.2 hmode
      rcases f4 with hc | ⟨hc, _⟩
      · refine ⟨Or.inl hc, fun hbuf => absurd (hc.symm.trans hbuf) (by decide), fun _ => f3.trans hlast⟩
      · refine ⟨Or.inr (Or.inr hc), fun _ => ?_, fun hre => absurd (hc.symm.trans hre) (by decide)⟩
        rw [f1, f2, hnn, hr.1]
    case BAD =>
      have hso : stepOnce st = StepR.leave Z_DATA_ERROR st := by
        unfold stepOnce
        rw [hmode]
      rw [hso] at h
      dsimp only at h
      injection h with h2
      obtain ⟨f1, f2, f3, f4⟩ := infLeave_shape Z_DATA_ERROR st r stf h2
      rcases f4 with hc | ⟨_, hc2⟩
      · exact ⟨Or.inr (Or.inl hc), fun hbuf => absurd (hc.symm.trans hbuf) (by decide),
          fun hre => absurd (hc.symm.trans hre) (by decide)⟩
      · exact absurd hc2 (by decide)

theorem natOfBits_take1 (l : List Bool) (hne : l ≠ []) :
    decide (natOfBits (l.take 1) = 1) = l.getD 0 false := by
  cases l with
  | nil => exact absurd rfl hne
  | cons b t => cases b <;> rfl

theorem typeBody_last_bit (s s2 : St) (hl : s.last = false) (hg : GoodBits s)
    (hB : ByteInput s) (h : typeBody s = Except.ok s2) :
    s2.last = (bitsAvail s).getD 0 false := by
  unfold typeBody at h
  rw [if_neg (fun hc => Bool.noConfusion (hl.symm.trans hc))] at h
  cases hnb : needbits 3 s with
  | error e =>
    rw [hnb] at h
    exact Except.noConfusion h
  | ok s1 =>
    rw [hnb] at h
    dsimp only at h
    obtain ⟨hstream, hg1, hB1, hbits3, _, _⟩ := needbits_ok_spec 3 s s1 hnb hg hB
    injection h with h2
    subst h2
    have hpos : 0 < (bitsAvail s1).length := by
      rw [bitsAvail, List.length_append, holdBits_length]
      omega
    have h1 : BITSm 1 s1.hold = natOfBits ((bitsAvail s1).take 1) :=
      BITSm_eq_stream s1 1 (by omega)
    have hmain : decide (BITSm 1 s1.hold = 1) = (bitsAvail s).getD 0 false := by
      rw [h1, natOfBits_take1 _ (List.length_pos.mp hpos), hstream]
    rcases hb2 : BITSm 2 (dropbits 1 {s1 with last := decide (BITSm 1 s1.hold = 1)}).hold with _ | _ | _ | k
    · exact hmain
    · exact hmain
    · exact hmain
    · exact hmain

/-- C7: for every state and every scripted callback behaviour, inflateBack
returns only Z_STREAM_END, Z_DATA_ERROR, or Z_BUF_ERROR — never Z_OK — and on
a Z_BUF_ERROR return strm->next_in is Z_NULL exactly when the failure came
from the in() callback rather than from out(); a null stream returns
Z_STREAM_ERROR at once. -/
theorem inflateBack_return_values (st : St) (fuel : Nat) :
    (∀ r stf, inflateBack (some st) fuel = some (r, some stf) →
      ((r = Z_STREAM_END ∨ r = Z_DATA_ERROR ∨ r = Z_BUF_ERROR) ∧ r ≠ Z_OK ∧
        (r = Z_BUF_ERROR → (stf.nextNull = true ↔ stf.inFail = true)))) ∧
    inflateBack none fuel = some (Z_STREAM_ERROR, none) := by
  constructor
  · intro r stf h
    unfold inflateBack at h
    dsimp only at h
    cases hrl : runLoop fuel (resetSt st) with
    | none =>
      rw [hrl] at h
      exact Option.noConfusion h
    | some p =>
      rw [hrl] at h
      obtain ⟨r0, st0⟩ := p
      have h2 : some (r0, some st0) = some (r, some stf) := h
      injection h2 with h3
      injection h3 with ha hb
      injection hb with hb2
      subst ha
      subst hb2
      obtain ⟨c1, c2, _⟩ := runLoop_class fuel (resetSt st) (resetSt_RunInv st) r0 st0 hrl
      refine ⟨c1, ?_, c2⟩
      rcases c1 with hc | hc | hc <;> rw [hc] <;> decide
  · rfl

/-- C8: Z_STREAM_END comes only from a final block: in the TYPE state, a set
last flag finishes (discarding the sub-byte bits); a header read records as
the new last flag exactly the first bit of the remaining stream; and any
Z_STREAM_END return of inflateBack leaves the final-block flag set, so an
input that never presents last=1 can never return Z_STREAM_END. -/
theorem inflateBack_needs_final_block (st : St) (fuel : Nat) :
    (∀ s : St, s.last = true →
      typeBody s = Except.ok {bytebits s with mode := Mode.DONE}) ∧
    (∀ s s2 : St, s.last = false → GoodBits s → ByteInput s →
      typeBody s = Except.ok s2 → s2.last = (bitsAvail s).getD 0 false) ∧
    (∀ r stf, inflateBack (some st) fuel = some (r, some stf) →
      r = Z_STREAM_END → stf.last = true) := by
  refine ⟨?_, ?_, ?_⟩
  · intro s hl
    unfold typeBody
    rw [if_pos hl]
  · intro s s2 hl hg hB h
    exact typeBody_last_bit s s2 hl hg hB h
  · intro r stf h hre
    unfold inflateBack at h
    dsimp only at h
    cases hrl : runLoop fuel (resetSt st) with
    | none =>
      rw [hrl] at h
      exact Option.noConfusion h
    | some p =>
      rw [hrl] at h
      obtain ⟨r0, st0⟩ := p
      have h2 : some (r0, some st0) = some (r, some stf) := h
      injection h2 with h3
      injection h3 with ha hb
      injection hb with hb2
      subst ha
      subst hb2
      exact (runLoop_class fuel (resetSt st) (resetSt_RunInv st) r0 st0 hrl).2.2 hre

end Zlib
